import Mathlib

/-!
# Verification of the QUnit separability-tracking layer (Qrack)

A shallow embedding of the core of `src/src/qunit.cpp`: the per-qubit shard
record, the dense amplitude-vector engine backend (modelled from the spec,
since the engine implementation is outside the provided sources), and the
operations that the claims under scrutiny exercise (`ForceM`, `SeparateBit`,
`TrySeparate`, `ProbBase`, `ProbParity`, `Clone`/`CloneBody`, `TrimControls`,
`MCPhase`/`MACPhase`/`MCInvert`/`MACInvert`, `Phase`, `S`, `IS`, `Swap`,
`SumSqrDiff` (one-qubit fast path), the tail of `INT`, `MAll`, and
`SetPermutation`).

Modelling conventions:
* Machine floating point is modelled by exact real/complex arithmetic (`ℝ`,
  `ℂ`); `std::norm` is `Complex.normSq`.
* The two approximate-equality tolerances of the source
  (`separabilityThreshold`, used by `IS_AMP_0`, and `FP_NORM_EPSILON`, used by
  `IS_NORM_0` / `IS_1_CMPLX`) are carried in a `Params` record.
* Engine handles (`QInterfacePtr`) are indices into a heap `engines : List
  Engine`; a detached shard has `unit = none` (the source's `NULL`).
* Randomness (`Rand()`) and the random global phase of
  `GetNonunitaryPhase()` are supplied by explicit streams in the state.
* Every engine invocation is logged in an operation trace, so that "no
  engine work is performed" is expressible as trace preservation.
* The source is single-threaded within a register (spec §5), so plain
  state-passing functions are a faithful embedding.
-/

namespace Qrack

/-- `std::norm` of a complex number: the squared magnitude. -/
noncomputable def cnorm (c : ℂ) : ℝ := Complex.normSq c

/-- Tuning and configuration parameters of a `QUnit` register
(spec §6; `qunit.cpp` constructor). -/
structure Params where
  /-- `separabilityThreshold` (the bound used by `IS_AMP_0`). -/
  sepEps : ℝ
  /-- `FP_NORM_EPSILON` (the bound used by `IS_NORM_0` and `IS_1_CMPLX`). -/
  normEps : ℝ
  /-- `randGlobalPhase`. -/
  randGlobalPhase : Bool
  /-- `doNormalize`. -/
  doNormalize : Bool

/-- `IS_AMP_0(c)`: `norm(c) <= separabilityThreshold` (`qunit.cpp` line 31). -/
noncomputable def IS_AMP_0 (P : Params) (c : ℂ) : Prop := cnorm c ≤ P.sepEps

/-- `IS_NORM_0(c)`: `norm(c) <= FP_NORM_EPSILON`. -/
noncomputable def IS_NORM_0 (P : Params) (c : ℂ) : Prop := cnorm c ≤ P.normEps

/-- `IS_1_CMPLX(c)`: `norm(ONE_CMPLX - c) <= FP_NORM_EPSILON` (`qunit.cpp` line 34). -/
noncomputable def IS_1_CMPLX (P : Params) (c : ℂ) : Prop := cnorm (1 - c) ≤ P.normEps

noncomputable instance (P : Params) (c : ℂ) : Decidable (IS_AMP_0 P c) :=
  Real.decidableLE _ _

noncomputable instance (P : Params) (c : ℂ) : Decidable (IS_NORM_0 P c) :=
  Real.decidableLE _ _

noncomputable instance (P : Params) (c : ℂ) : Decidable (IS_1_CMPLX P c) :=
  Real.decidableLE _ _

/-- The single-qubit Pauli basis label of a shard (spec §3: `basis ∈ {Z, X, Y}`). -/
inductive Pauli
  | Z
  | X
  | Y
deriving DecidableEq, Repr

/-- A deferred two-qubit phase/invert record (spec §4.1; `PhaseShard` of the
source headers): two complex factors and an invert flag. -/
structure PhaseShard where
  cmplxDiff : ℂ
  cmplxSame : ℂ
  isInvert : Bool

/-- The per-qubit record (spec §3; `QEngineShard` of the source headers, which
are not among the provided sources — the field set is modelled from the spec
and from every field access in `qunit.cpp`).  Buffer maps are keyed by the
partner shard's logical index. -/
structure QEngineShard where
  unit : Option ℕ
  mapped : ℕ
  amp0 : ℂ
  amp1 : ℂ
  pauliBasis : Pauli
  isProbDirty : Bool
  isPhaseDirty : Bool
  targetOfShards : List (ℕ × PhaseShard)
  controlsShards : List (ℕ × PhaseShard)
  antiTargetOfShards : List (ℕ × PhaseShard)
  antiControlsShards : List (ℕ × PhaseShard)

instance : Inhabited QEngineShard :=
  ⟨⟨none, 0, 1, 0, Pauli.Z, false, false, [], [], [], []⟩⟩

@[simp] theorem default_shard_unit : (default : QEngineShard).unit = none := rfl

@[simp] theorem default_shard_mapped : (default : QEngineShard).mapped = 0 := rfl

@[simp] theorem default_shard_amp0 : (default : QEngineShard).amp0 = 1 := rfl

@[simp] theorem default_shard_amp1 : (default : QEngineShard).amp1 = 0 := rfl

@[simp]
theorem default_shard_basis : (default : QEngineShard).pauliBasis = Pauli.Z := rfl

@[simp]
theorem default_shard_probDirty : (default : QEngineShard).isProbDirty = false := rfl

@[simp]
theorem default_shard_phaseDirty : (default : QEngineShard).isPhaseDirty = false := rfl

@[simp]
theorem default_shard_targetOf : (default : QEngineShard).targetOfShards = [] := rfl

@[simp]
theorem default_shard_controls : (default : QEngineShard).controlsShards = [] := rfl

@[simp]
theorem default_shard_antiTargetOf :
    (default : QEngineShard).antiTargetOfShards = [] := rfl

@[simp]
theorem default_shard_antiControls :
    (default : QEngineShard).antiControlsShards = [] := rfl

/-- Modelled from the spec: the `QEngineShard(bitState, phase)` constructor
(spec §3 lifecycle — a shard holding a computational eigenstate is detached, in
basis Z, one-hot with a nonunitary phase, clean, with empty buffers; compare
the identical in-place assignments of `qunit.cpp` lines 1400-1405). -/
def mkEigenShard (bitState : Bool) (phase : ℂ) : QEngineShard :=
  { unit := none
    mapped := 0
    amp0 := if bitState then 0 else phase
    amp1 := if bitState then phase else 0
    pauliBasis := Pauli.Z
    isProbDirty := false
    isPhaseDirty := false
    targetOfShards := []
    controlsShards := []
    antiTargetOfShards := []
    antiControlsShards := [] }

/-- `MakeDirty()` on a shard: set both dirty flags. -/
def QEngineShard.makeDirty (sh : QEngineShard) : QEngineShard :=
  { sh with isProbDirty := true, isPhaseDirty := true }

/-- `QUEUED_PHASE(shard)` (`qunit.cpp` lines 36-38): some deferred-phase
buffer of the shard is non-empty. -/
def QEngineShard.queuedPhase (sh : QEngineShard) : Bool :=
  !sh.targetOfShards.isEmpty || !sh.controlsShards.isEmpty ||
    !sh.antiTargetOfShards.isEmpty || !sh.antiControlsShards.isEmpty

/-- All four buffer maps of a shard are empty. -/
def QEngineShard.buffersEmpty (sh : QEngineShard) : Prop :=
  sh.targetOfShards = [] ∧ sh.controlsShards = [] ∧
    sh.antiTargetOfShards = [] ∧ sh.antiControlsShards = []

/-- A dense amplitude-vector engine over `n` qubits (modelled from the spec:
spec §2 item 5 and §6 list the capability set; the engine implementation is
out of scope of the provided sources).  `amps x` is the amplitude of
permutation `x`; only indices `x < 2^n` are meaningful. -/
structure Engine where
  n : ℕ
  amps : ℕ → ℂ

instance : Inhabited Engine := ⟨⟨0, fun _ => 0⟩⟩

/-- A logged engine-backend invocation, used to express "no engine work". -/
inductive EngOp
  | swap (eid a b : ℕ)
  | gate1 (eid q : ℕ)
  | forceM (eid q : ℕ) (res doForce doApply : Bool)
  | dispose (eid q : ℕ) (value : Bool)
  | prob (eid q : ℕ)
  | probParity (eid mask : ℕ)
  | getState (eid : ℕ)
  | normalize (eid : ℕ)
  | arith (eid : ℕ)
  | materialize

/-- The state of one `QUnit` register: the shard map (as a total function of
the logical index, together with the qubit count), the engine heap, the
engine-invocation trace, and the random streams backing `Rand()` and
`GetNonunitaryPhase()`. -/
structure QUnitState where
  n : ℕ
  shards : ℕ → QEngineShard
  engines : List Engine
  trace : List EngOp
  freezeBasis2Qb : Bool
  rng : ℕ → ℝ
  rngI : ℕ
  phases : ℕ → ℂ
  phI : ℕ

namespace QUnitState

/-- Replace the shard at logical index `q`. -/
def setShard (s : QUnitState) (q : ℕ) (sh : QEngineShard) : QUnitState :=
  { s with shards := Function.update s.shards q sh }

/-- Read the engine at heap index `e`. -/
def eng (s : QUnitState) (e : ℕ) : Engine := s.engines.getD e default

/-- Replace the engine at heap index `e`. -/
def setEng (s : QUnitState) (e : ℕ) (E : Engine) : QUnitState :=
  { s with engines := s.engines.set e E }

/-- Append an engine invocation to the trace. -/
def log (s : QUnitState) (op : EngOp) : QUnitState :=
  { s with trace := s.trace ++ [op] }

/-- Draw from `Rand()`. -/
def rand (s : QUnitState) : ℝ × QUnitState :=
  (s.rng s.rngI, { s with rngI := s.rngI + 1 })

end QUnitState

/-- `GetNonunitaryPhase()` (source headers; spec §3: amplitudes are kept "up
to global phase"): a random unit phase when `randGlobalPhase` is set, else 1. -/
def getNonunitaryPhase (P : Params) (s : QUnitState) : ℂ × QUnitState :=
  if P.randGlobalPhase then (s.phases s.phI, { s with phI := s.phI + 1 })
  else (1, s)

/-- All the nonunitary phases a state can draw have unit magnitude.  This is a
well-formedness fact of the source (`GetNonunitaryPhase` returns
`exp(i·θ)`), carried as a hypothesis because the phase stream is explicit. -/
def unitPhases (s : QUnitState) : Prop := ∀ k, cnorm (s.phases k) = 1

/-- `shard.GetQubitCount()`: qubit count of the shard's engine, or 1 when
detached (source headers; usage at `qunit.cpp` lines 1404, 696). -/
def shardQubitCount (s : QUnitState) (sh : QEngineShard) : ℕ :=
  match sh.unit with
  | none => 1
  | some e => (s.eng e).n

/-- `clampProb` (spec §7: "probabilities clamp to [0,1] via the clamp
policy"). -/
noncomputable def clampProb (p : ℝ) : ℝ := max 0 (min 1 p)

/-! ## Bit helpers -/

/-- Flip bit `q` of `x`. -/
def flipBit (x q : ℕ) : ℕ := x ^^^ (2 ^ q)

/-- Re-insert a bit with value `b` at position `q` (inverse of disposing
qubit `q`): `insBit y q b` has bit `q` equal to `b` and the remaining bits
equal to those of `y`. -/
def insBit (y q : ℕ) (b : Bool) : ℕ :=
  (y / 2 ^ q) * 2 ^ (q + 1) + (cond b 1 0) * 2 ^ q + y % 2 ^ q

/-- Parity of the number of set bits of `x` (`true` when odd). -/
def natOddParity (x : ℕ) : Bool :=
  if h : x = 0 then false
  else (decide (x % 2 = 1)).xor (natOddParity (x / 2))
decreasing_by exact Nat.div_lt_self (Nat.pos_of_ne_zero h) one_lt_two

/-! ## Engine backend (modelled from the spec)

The dense amplitude-vector engine is an external collaborator
(spec §1, §6); only the operations the core invokes are modelled.  The
provided sources restrict the core's scope to dense engines, so
`isClifford()` is `false` throughout (stabilizer backends are explicitly out
of scope, spec §1). -/

namespace Engine

/-- Apply a single-qubit matrix `[[m00, m01], [m10, m11]]` at qubit `q`
(spec §6: `mtrx`). -/
noncomputable def applyMtrx1 (e : Engine) (m00 m01 m10 m11 : ℂ) (q : ℕ) : Engine :=
  { e with
    amps := fun x =>
      if x.testBit q then m10 * e.amps (flipBit x q) + m11 * e.amps x
      else m00 * e.amps x + m01 * e.amps (flipBit x q) }

/-- `prob(q)`: marginal probability that qubit `q` reads 1 (spec §6). -/
noncomputable def probOf (e : Engine) (q : ℕ) : ℝ :=
  ∑ x ∈ Finset.range (2 ^ e.n), if x.testBit q then cnorm (e.amps x) else 0

/-- `ForceM(q, res, doForce, doApply)` on the engine, with `doForce` and
`doApply` set: collapse qubit `q` to `res` and renormalize (spec §4.5
measurement; the sampling path is taken only on the core's own shards in the
embedded fragment). -/
noncomputable def forceM1 (e : Engine) (q : ℕ) (res : Bool) : Engine :=
  let p : ℝ := if res then e.probOf q else 1 - e.probOf q
  { e with
    amps := fun x =>
      if x.testBit q = res then e.amps x / (Real.sqrt p : ℝ) else 0 }

/-- `Dispose(start, 1, perm)`: remove qubit `q`, known to hold value `b`
(spec §6). -/
noncomputable def dispose1 (e : Engine) (q : ℕ) (b : Bool) : Engine :=
  { n := e.n - 1, amps := fun y => e.amps (insBit y q b) }

/-- `GetQuantumState` of a one-qubit engine: the two amplitudes. -/
noncomputable def amps2 (e : Engine) : ℂ × ℂ := (e.amps 0, e.amps 1)

/-- `ProbParity(mask)`: total probability of permutations with odd parity on
the masked bits (spec §6), as the `QParity` capability. -/
noncomputable def probParityOf (e : Engine) (mask : ℕ) : ℝ :=
  ∑ x ∈ Finset.range (2 ^ e.n),
    if natOddParity (x &&& mask) then cnorm (e.amps x) else 0

/-- `UpdateRunningNorm` / `NormalizeState`: rescale to unit norm (spec §6). -/
noncomputable def normalize (e : Engine) : Engine :=
  { e with
    amps := fun x =>
      e.amps x / (Real.sqrt (∑ y ∈ Finset.range (2 ^ e.n), cnorm (e.amps y)) : ℝ) }

end Engine

/-! ## Basis manager (spec §4.2)

`RevertBasis1Qb` and the basis conversions live in the source headers, which
are not among the provided sources; they are modelled from the spec: "returns
shard to Z basis by issuing the appropriate analytic rotation on its cached
amplitudes and, if attached, a matching single-qubit gate to the engine". -/

/-- Apply a single-qubit matrix to the cached amplitudes of shard `q` and,
when the shard is attached, the same matrix to its engine qubit. -/
noncomputable def applyShardMtrx (s : QUnitState) (q : ℕ)
    (m00 m01 m10 m11 : ℂ) : QUnitState :=
  let sh := s.shards q
  let sh' := { sh with
    amp0 := m00 * sh.amp0 + m01 * sh.amp1
    amp1 := m10 * sh.amp0 + m11 * sh.amp1 }
  match sh.unit with
  | none => s.setShard q sh'
  | some e =>
      (((s.setShard q sh').setEng e
          ((s.eng e).applyMtrx1 m00 m01 m10 m11 sh.mapped)).log (EngOp.gate1 e sh.mapped))

/-- `1/√2` as a complex scalar. -/
noncomputable def invSqrt2 : ℂ := ((Real.sqrt 2)⁻¹ : ℝ)

/-- Modelled from the spec: `RevertBasis1Qb(q)` — rotate the shard's cached
state (and, if attached, its engine qubit) back to the Z basis and relabel
the basis Z.  The X→Z rotation is the Hadamard; the Y→Z rotation maps the
`|±i⟩` cache onto Z amplitudes. -/
noncomputable def revertBasis1Qb (s : QUnitState) (q : ℕ) : QUnitState :=
  match (s.shards q).pauliBasis with
  | Pauli.Z => s
  | Pauli.X =>
      let s' := applyShardMtrx s q invSqrt2 invSqrt2 invSqrt2 (-invSqrt2)
      s'.setShard q { s'.shards q with pauliBasis := Pauli.Z }
  | Pauli.Y =>
      let s' := applyShardMtrx s q invSqrt2 invSqrt2 (Complex.I * invSqrt2)
        (-(Complex.I * invSqrt2))
      s'.setShard q { s'.shards q with pauliBasis := Pauli.Z }

/-! ## Deferred-phase buffer maintenance (spec §4.1, §4.2)

The buffer-record methods of `QEngineShard` live in the source headers; they
are modelled from the spec.  Paired insert/remove maintains invariant I2. -/

/-- Remove every buffer entry keyed by partner `p` from all four maps. -/
def QEngineShard.dropPartner (sh : QEngineShard) (p : ℕ) : QEngineShard :=
  { sh with
    targetOfShards := sh.targetOfShards.filter (fun r => r.1 ≠ p)
    controlsShards := sh.controlsShards.filter (fun r => r.1 ≠ p)
    antiTargetOfShards := sh.antiTargetOfShards.filter (fun r => r.1 ≠ p)
    antiControlsShards := sh.antiControlsShards.filter (fun r => r.1 ≠ p) }

/-- Modelled from the spec: `DumpPhaseBuffers()` on shard `q` — discard every
deferred-phase record of `q`, removing the paired references on the partner
side as well (spec §5: removal "must be removed from the surviving side
atomically"). -/
def dumpPhaseBuffers (s : QUnitState) (q : ℕ) : QUnitState :=
  { s with
    shards := fun i =>
      if i = q then
        { s.shards q with
          targetOfShards := []
          controlsShards := []
          antiTargetOfShards := []
          antiControlsShards := [] }
      else (s.shards i).dropPartner q }

/-- Modelled from the spec: `ClearInvertPhase()` on shard `q` — discard the
invert-carrying records that target `q`, on both sides. -/
def clearInvertPhase (s : QUnitState) (q : ℕ) : QUnitState :=
  { s with
    shards := fun i =>
      if i = q then
        { s.shards q with
          targetOfShards := (s.shards q).targetOfShards.filter
            (fun r => !r.2.isInvert)
          antiTargetOfShards := (s.shards q).antiTargetOfShards.filter
            (fun r => !r.2.isInvert) }
      else
        { s.shards i with
          controlsShards := (s.shards i).controlsShards.filter
            (fun r => !(r.1 = q && r.2.isInvert))
          antiControlsShards := (s.shards i).antiControlsShards.filter
            (fun r => !(r.1 = q && r.2.isInvert)) } }

/-- `RevertExclusivity` (`qunit.cpp` usage; declared in the source headers). -/
inductive RevertExclusivity
  | invertAndPhase
  | onlyInvert
  | onlyPhase
deriving DecidableEq

/-- `RevertControl`. -/
inductive RevertControl
  | controlsAndTargets
  | onlyControls
  | onlyTargets
deriving DecidableEq

/-- `RevertAnti`. -/
inductive RevertAnti
  | ctrlAndAnti
  | onlyCtrl
  | onlyAnti
deriving DecidableEq

/-- Does a record pass the invert/phase exclusivity filter? -/
def exclSelects (excl : RevertExclusivity) (r : PhaseShard) : Bool :=
  match excl with
  | RevertExclusivity.invertAndPhase => true
  | RevertExclusivity.onlyInvert => r.isInvert
  | RevertExclusivity.onlyPhase => !r.isInvert

/-- Modelled from the spec: the drain phase of `RevertBasis2Qb` (spec §4.2:
"drains the deferred-phase buffers of shard q", restricted by the
exclusivity arguments).  The materialization of the drained records into the
engines goes through the whole gate layer and entangler and is outside the
embedded fragment; every theorem below reaches `revertBasis2Qb` with empty
buffers, where the source returns immediately.  The drain removes the
selected records from both sides and logs one materialization. -/
def drainBuffers (s : QUnitState) (q : ℕ) (excl : RevertExclusivity)
    (ctrlExcl : RevertControl) (antiExcl : RevertAnti)
    (exceptControlling exceptTargetedBy : List ℕ) : QUnitState :=
  let keepC : ℕ × PhaseShard → Bool := fun r =>
    !(exclSelects excl r.2) || (exceptTargetedBy.contains r.1)
  let keepT : ℕ × PhaseShard → Bool := fun r =>
    !(exclSelects excl r.2) || (exceptControlling.contains r.1)
  let doCtrl := ctrlExcl ≠ RevertControl.onlyTargets
  let doTgt := ctrlExcl ≠ RevertControl.onlyControls
  let doNrm := antiExcl ≠ RevertAnti.onlyAnti
  let doAnti := antiExcl ≠ RevertAnti.onlyCtrl
  let s' : QUnitState := { s with
    shards := fun i =>
      if i = q then
        { s.shards q with
          controlsShards :=
            if doCtrl && doNrm then (s.shards q).controlsShards.filter keepT
            else (s.shards q).controlsShards
          antiControlsShards :=
            if doCtrl && doAnti then (s.shards q).antiControlsShards.filter keepT
            else (s.shards q).antiControlsShards
          targetOfShards :=
            if doTgt && doNrm then (s.shards q).targetOfShards.filter keepC
            else (s.shards q).targetOfShards
          antiTargetOfShards :=
            if doTgt && doAnti then (s.shards q).antiTargetOfShards.filter keepC
            else (s.shards q).antiTargetOfShards }
      else
        { s.shards i with
          targetOfShards :=
            if doCtrl && doNrm then
              (s.shards i).targetOfShards.filter
                (fun r => !(r.1 = q) || keepT r)
            else (s.shards i).targetOfShards
          antiTargetOfShards :=
            if doCtrl && doAnti then
              (s.shards i).antiTargetOfShards.filter
                (fun r => !(r.1 = q) || keepT r)
            else (s.shards i).antiTargetOfShards
          controlsShards :=
            if doTgt && doNrm then
              (s.shards i).controlsShards.filter
                (fun r => !(r.1 = q) || keepC r)
            else (s.shards i).controlsShards
          antiControlsShards :=
            if doTgt && doAnti then
              (s.shards i).antiControlsShards.filter
                (fun r => !(r.1 = q) || keepC r)
            else (s.shards i).antiControlsShards } }
  s'.log EngOp.materialize

/-- `RevertBasis2Qb(i, exclusivity, controlExclusivity, antiExclusivity,
exceptControlling, exceptTargetedBy, dumpSkipped, skipOptimize)`
(`qunit.cpp` lines 3796-3847): immediate return when the re-entrancy guard
`freezeBasis2Qb` is set or the shard has no queued phase records; otherwise
the buffers are combined, optimized and drained. -/
def revertBasis2Qb (s : QUnitState) (q : ℕ) (excl : RevertExclusivity)
    (ctrlExcl : RevertControl) (antiExcl : RevertAnti)
    (exceptControlling exceptTargetedBy : List ℕ) : QUnitState :=
  if s.freezeBasis2Qb || !(s.shards q).queuedPhase then s
  else drainBuffers s q excl ctrlExcl antiExcl exceptControlling exceptTargetedBy

/-- Modelled from the spec: `Flush0Eigenstate(q)` — a control known to be
`|0⟩` never fires its normal-polarity buffered controls, so they are
discarded; the anti-polarity ones are drained (source headers; spec §4.5
step 1). -/
def flush0Eigenstate (s : QUnitState) (q : ℕ) : QUnitState :=
  let s' : QUnitState := { s with
    shards := fun i =>
      if i = q then { s.shards q with controlsShards := [] }
      else
        { s.shards i with
          targetOfShards := (s.shards i).targetOfShards.filter
            (fun r => r.1 ≠ q) } }
  revertBasis2Qb s' q RevertExclusivity.invertAndPhase
    RevertControl.onlyControls RevertAnti.onlyAnti [] []

/-- Modelled from the spec: `Flush1Eigenstate(q)` — mirror image of
`Flush0Eigenstate` for a control known to be `|1⟩`. -/
def flush1Eigenstate (s : QUnitState) (q : ℕ) : QUnitState :=
  let s' : QUnitState := { s with
    shards := fun i =>
      if i = q then { s.shards q with antiControlsShards := [] }
      else
        { s.shards i with
          antiTargetOfShards := (s.shards i).antiTargetOfShards.filter
            (fun r => r.1 ≠ q) } }
  revertBasis2Qb s' q RevertExclusivity.invertAndPhase
    RevertControl.onlyControls RevertAnti.onlyCtrl [] []

/-- Modelled from the spec: `ToPermBasisProb(q)` — revert the single-qubit
basis and drain the invert-carrying records targeting `q` (spec §4.2:
`toPermBasis` variants reduce to `revertBasis1Qb` followed by
`revertBasis2Qb`). -/
noncomputable def toPermBasisProb (s : QUnitState) (q : ℕ) : QUnitState :=
  revertBasis2Qb (revertBasis1Qb s q) q RevertExclusivity.onlyInvert
    RevertControl.onlyTargets RevertAnti.ctrlAndAnti [] []

/-- Modelled from the spec: `ToPermBasisMeasure(q)` — full revert used by the
`doApply = false` measurement path. -/
noncomputable def toPermBasisMeasure (s : QUnitState) (q : ℕ) : QUnitState :=
  revertBasis2Qb (revertBasis1Qb s q) q RevertExclusivity.invertAndPhase
    RevertControl.controlsAndTargets RevertAnti.ctrlAndAnti [] []

/-- Modelled from the spec: `ClampAmps` / `ClampShard` (spec §7: "norms below
ε² are treated as zero"). -/
noncomputable def QEngineShard.clampAmps (P : Params) (sh : QEngineShard) :
    QEngineShard :=
  if cnorm sh.amp0 ≤ P.normEps then { sh with amp0 := 0 }
  else if cnorm sh.amp1 ≤ P.normEps then { sh with amp1 := 0 }
  else sh

/-- `abs` of a complex number. -/
noncomputable def cabs (c : ℂ) : ℝ := Complex.abs c

/-! ## `ProbBase`, `SeparateBit`, `ForceM` (`qunit.cpp` lines 946-1003,
1313-1365, 1368-1438) -/

/-- The first branch of `QUnit::ProbBase` (`qunit.cpp` lines 950-982),
taken when the shard's engine holds exactly one qubit: read the engine's
two amplitudes, detect an X- or Y-eigenstate cache, detach the shard.
`SeparateBit` re-enters `ProbBase` only under this branch's guard
(`unit->GetQubitCount() == 1`), so the recursion is stratified through this
function. -/
noncomputable def probBaseU1 (P : Params) (s : QUnitState) (q : ℕ) :
    ℝ × QUnitState :=
  let s1 := revertBasis1Qb s q
  let sh := s1.shards q
  match sh.unit with
  | none => (cnorm sh.amp1, s1)
  | some e =>
      let s2 := s1.log (EngOp.getState e)
      let a0 := (s2.eng e).amps2.1
      let a1 := (s2.eng e).amps2.2
      let bv : Pauli × ℂ × ℂ :=
        if IS_AMP_0 P (a0 - a1) then (Pauli.X, a0 / (cabs a0 : ℝ), 0)
        else if IS_AMP_0 P (a0 + a1) then (Pauli.X, 0, a0 / (cabs a0 : ℝ))
        else if IS_AMP_0 P (Complex.I * a0 - a1) then
          (Pauli.Y, a0 / (cabs a0 : ℝ), 0)
        else if IS_AMP_0 P (Complex.I * a0 + a1) then
          (Pauli.Y, 0, a0 / (cabs a0 : ℝ))
        else (sh.pauliBasis, a0, a1)
      let sh' := QEngineShard.clampAmps P
        { sh with
          pauliBasis := bv.1
          amp0 := bv.2.1
          amp1 := bv.2.2
          isProbDirty := false
          isPhaseDirty := false
          unit := none
          mapped := 0 }
      (cnorm sh'.amp1, s2.setShard q sh')

/-- The post-collapse engine work of `QUnit::SeparateBit` (`qunit.cpp`
lines 1334-1364), starting from the state `s` in which the shard has
already been rewritten to detached form: query the engine probability,
dispose the measured qubit, possibly renormalize the remaining engine,
decrement the local indices of the sibling shards, and — when exactly one
qubit remains in the engine — re-run `ProbBase` on the first shard still
attached to it.  Note the source queries `unit->Prob(shard.mapped)` after
zeroing `shard.mapped`, hence `Prob(0)`.  `separateBitTail` is the part
after the optional renormalization (`qunit.cpp` lines 1345-1364). -/
noncomputable def separateBitTail (P : Params) (mapped e : ℕ)
    (s5 : QUnitState) : Bool × QUnitState :=
  let s6 : QUnitState := { s5 with
    shards := fun i =>
      if (s5.shards i).unit = some e ∧ (s5.shards i).mapped > mapped then
        { s5.shards i with mapped := (s5.shards i).mapped - 1 }
      else s5.shards i }
  if (s6.eng e).n ≠ 1 then (true, s6)
  else
    match (List.range s6.n).find? (fun i => (s6.shards i).unit == some e) with
    | some j => (true, (probBaseU1 P s6 j).2)
    | none => (true, s6)

/-- The probability query, dispose and conditional renormalization of
`QUnit::SeparateBit` (`qunit.cpp` lines 1334-1343), chained into
`separateBitTail`. -/
noncomputable def separateBitFinish (P : Params) (value : Bool)
    (q mapped e : ℕ) (s : QUnitState) : Bool × QUnitState :=
  let prob := (s.eng e).probOf ((s.shards q).mapped)
  let s3 := s.log (EngOp.prob e ((s.shards q).mapped))
  let s4 := (s3.setEng e ((s3.eng e).dispose1 mapped value)).log
    (EngOp.dispose e mapped value)
  let pd := (1 : ℝ) / 2 - prob
  let s5 :=
    if (1 : ℝ) / 2 - |pd| > P.normEps then
      let s5a := s4.log (EngOp.normalize e)
      if ¬P.doNormalize then
        (s5a.setEng e ((s5a.eng e).normalize)).log (EngOp.normalize e)
      else s5a
    else s4
  separateBitTail P mapped e s5

/-- `QUnit::SeparateBit(value, qubit)` (`qunit.cpp` lines 1313-1365).
The Clifford early return cannot fire for the dense engines in scope
(`isClifford()` is `false`), and `isBinaryDecisionTree()` is likewise
`false`. -/
noncomputable def separateBit (P : Params) (value : Bool) (q : ℕ)
    (s : QUnitState) : Bool × QUnitState :=
  let sh := s.shards q
  let unitO := sh.unit
  let mapped := sh.mapped
  let phs := getNonunitaryPhase P s
  let sh' := { sh with
    unit := none
    mapped := 0
    isProbDirty := false
    isPhaseDirty := false
    amp0 := if value then 0 else phs.1
    amp1 := if value then phs.1 else 0 }
  let s2 := phs.2.setShard q sh'
  match unitO with
  | none => (true, s2)
  | some e =>
      if (s2.eng e).n = 1 then (true, s2)
      else separateBitFinish P value q mapped e s2

/-- `QUnit::ProbBase(qubit)` (`qunit.cpp` lines 946-1003).  The
dirty-while-detached combination dereferences a null engine in the source
and is unreachable (every detachment clears `isProbDirty`); it is mapped to
the cached read. -/
noncomputable def probBase (P : Params) (s : QUnitState) (q : ℕ) :
    ℝ × QUnitState :=
  let sh := s.shards q
  if sh.unit.isSome ∧ (s.eng (sh.unit.getD 0)).n = 1 then probBaseU1 P s q
  else if ¬sh.isProbDirty then (clampProb (cnorm sh.amp1), s)
  else
    match sh.unit with
    | none => (clampProb (cnorm sh.amp1), s)
    | some e =>
        let prob := (s.eng e).probOf sh.mapped
        let s1 := s.log (EngOp.prob e sh.mapped)
        let sh1 := { sh with
          isProbDirty := false
          amp1 := ((Real.sqrt prob : ℝ) : ℂ)
          amp0 := ((Real.sqrt (1 - prob) : ℝ) : ℂ) }
        let s2 := s1.setShard q sh1
        if IS_NORM_0 P sh1.amp1 then (prob, (separateBit P false q s2).2)
        else if IS_NORM_0 P sh1.amp0 then (prob, (separateBit P true q s2).2)
        else (prob, s2)

/-- `QUnit::Prob(qubit)` (`qunit.cpp` lines 1006-1010): revert to the
permutation basis for probability, then `ProbBase`. -/
noncomputable def prob (P : Params) (s : QUnitState) (q : ℕ) : ℝ × QUnitState :=
  probBase P (toPermBasisProb s q) q

/-- The result-drawing stage of `QUnit::ForceM` (`qunit.cpp` lines
1380-1410): read or sample the outcome, collapsing the engine when
`doApply` is set. -/
noncomputable def forceMDraw (s0 : QUnitState) (q : ℕ)
    (res doForce doApply : Bool) : Bool × QUnitState :=
  let sh := s0.shards q
  match sh.unit with
  | none =>
      let p := cnorm sh.amp1
      if doForce then (res, s0)
      else if 1 ≤ p then (true, s0)
      else if p ≤ 0 then (false, s0)
      else
        let rv := s0.rand
        (decide (rv.1 ≤ p), rv.2)
  | some e =>
      let sl := s0.log (EngOp.forceM e sh.mapped res doForce doApply)
      let rs0 : Bool × QUnitState :=
        if doForce then (res, sl)
        else
          let rv := sl.rand
          (decide (rv.1 ≤ (rv.2.eng e).probOf sh.mapped), rv.2)
      if doApply then
        (rs0.1, rs0.2.setEng e ((rs0.2.eng e).forceM1 sh.mapped rs0.1))
      else rs0

/-- The post-measurement shard update of `QUnit::ForceM` (`qunit.cpp` lines
1412-1437): cache the eigenstate, detach a lone qubit or separate it out of
its engine, and flush phase buffers keyed on the collapsed value. -/
noncomputable def forceMApply (P : Params) (result : Bool) (q : ℕ)
    (s1 : QUnitState) : Bool × QUnitState :=
  let sh1 := s1.shards q
  let phs := getNonunitaryPhase P s1
  let sh2 := { sh1 with
    isProbDirty := false
    isPhaseDirty := false
    amp0 := if result then 0 else phs.1
    amp1 := if result then phs.1 else 0 }
  let s3 := phs.2.setShard q sh2
  if shardQubitCount s3 sh2 = 1 then
    let s4 := s3.setShard q { sh2 with unit := none, mapped := 0 }
    (result, if result then flush1Eigenstate s4 q else flush0Eigenstate s4 q)
  else
    let s4 :=
      match sh2.unit with
      | some e =>
          let sd : QUnitState := { s3 with
            shards := fun i =>
              if i ≠ q ∧ (s3.shards i).unit = some e then
                (s3.shards i).makeDirty
              else s3.shards i }
          (separateBit P result q sd).2
      | none => s3
    (result, if result then flush1Eigenstate s4 q else flush0Eigenstate s4 q)

/-- `QUnit::ForceM(qubit, res, doForce, doApply)` (`qunit.cpp` lines
1368-1438). -/
noncomputable def forceM (P : Params) (s : QUnitState) (q : ℕ)
    (res doForce doApply : Bool) : Bool × QUnitState :=
  let s0 :=
    if doApply then
      revertBasis2Qb (revertBasis1Qb s q) q RevertExclusivity.onlyInvert
        RevertControl.onlyTargets RevertAnti.ctrlAndAnti [] []
    else toPermBasisMeasure s q
  let rs := forceMDraw s0 q res doForce doApply
  if ¬doApply then (rs.1, rs.2)
  else forceMApply P rs.1 q rs.2

/-- `QInterface::M(qubit)` (base-class wrapper, modelled from the spec's
public surface): a non-forced, applied single-qubit measurement. -/
noncomputable def mGate (P : Params) (s : QUnitState) (q : ℕ) :
    Bool × QUnitState :=
  forceM P s q false false true

/-! ## Single-qubit gate front-end (`qunit.cpp` lines 1703-1711, 1895-1945,
1995-2017, 2081-2128) -/

/-- `QUnit::Swap(qubit1, qubit2)` (`qunit.cpp` lines 1703-1711): "Simply swap
the bit mapping."  The shard-map `swap` of logical positions is modelled
from the spec (§3: the shard map "supports insert/erase/swap of logical
positions"); no engine is consulted. -/
def swapGate (s : QUnitState) (q1 q2 : ℕ) : QUnitState :=
  if q1 = q2 then s
  else
    { s with
      shards := fun i =>
        if i = q1 then s.shards q2
        else if i = q2 then s.shards q1
        else s.shards i }

/-- Modelled from the spec: `QEngineShard::CommutePhase(topLeft,
bottomRight)` (source headers) — push a diagonal gate through the pending
records (spec §4.1); on a shard with empty buffers (the only case the
theorems below traverse) the source method does nothing, and diagonal
factors commute with the phase records. -/
def QEngineShard.commutePhase (sh : QEngineShard) (_topLeft _bottomRight : ℂ) :
    QEngineShard :=
  sh

/-- Modelled from the spec: `QEngineShard::FlipPhaseAnti()` (source headers)
— exchange the polarity of the pending records when an invert gate passes;
a no-op on empty buffers. -/
def QEngineShard.flipPhaseAnti (sh : QEngineShard) : QEngineShard :=
  { sh with
    targetOfShards := sh.antiTargetOfShards
    antiTargetOfShards := sh.targetOfShards }

/-- `QUnit::XBase(target)` (`qunit.cpp` lines 1942-1951): engine-side X when
attached, then swap the cached amplitudes. -/
noncomputable def xBase (s : QUnitState) (t : ℕ) : QUnitState :=
  let sh := s.shards t
  let s1 :=
    match sh.unit with
    | none => s
    | some e =>
        (s.setEng e ((s.eng e).applyMtrx1 0 1 1 0 sh.mapped)).log
          (EngOp.gate1 e sh.mapped)
  s1.setShard t { s1.shards t with amp0 := sh.amp1, amp1 := sh.amp0 }

/-- `QUnit::S(target)` (`qunit.cpp` lines 1894-1916). -/
noncomputable def sGate (s : QUnitState) (t : ℕ) : QUnitState :=
  let sh := (s.shards t).commutePhase 1 Complex.I
  let s0 := s.setShard t sh
  if sh.pauliBasis = Pauli.Y then
    xBase (s0.setShard t { sh with pauliBasis := Pauli.X }) t
  else if sh.pauliBasis = Pauli.X then
    s0.setShard t { sh with pauliBasis := Pauli.Y }
  else
    let s1 :=
      match sh.unit with
      | none => s0
      | some e =>
          (s0.setEng e ((s0.eng e).applyMtrx1 1 0 0 Complex.I sh.mapped)).log
            (EngOp.gate1 e sh.mapped)
    s1.setShard t { s1.shards t with amp1 := Complex.I * (s1.shards t).amp1 }

/-- `QUnit::IS(target)` (`qunit.cpp` lines 1918-1940). -/
noncomputable def isGate (s : QUnitState) (t : ℕ) : QUnitState :=
  let sh := (s.shards t).commutePhase 1 (-Complex.I)
  let s0 := s.setShard t sh
  if sh.pauliBasis = Pauli.Y then
    s0.setShard t { sh with pauliBasis := Pauli.X }
  else if sh.pauliBasis = Pauli.X then
    xBase (s0.setShard t { sh with pauliBasis := Pauli.Y }) t
  else
    let s1 :=
      match sh.unit with
      | none => s0
      | some e =>
          (s0.setEng e ((s0.eng e).applyMtrx1 1 0 0 (-Complex.I) sh.mapped)).log
            (EngOp.gate1 e sh.mapped)
    s1.setShard t { s1.shards t with amp1 := -Complex.I * (s1.shards t).amp1 }

/-- `DIRTY(shard)` (`qunit.cpp` line 30). -/
def QEngineShard.dirty (sh : QEngineShard) : Bool :=
  sh.isPhaseDirty || sh.isProbDirty

/-- `IS_PHASE_OR_INVERT(mtrx)` (`qunit.cpp` lines 63-64). -/
noncomputable def isPhaseOrInvert (P : Params) (m0 m1 m2 m3 : ℂ) : Prop :=
  (IS_NORM_0 P m1 ∧ IS_NORM_0 P m2) ∨ (IS_NORM_0 P m0 ∧ IS_NORM_0 P m3)

noncomputable instance (P : Params) (m0 m1 m2 m3 : ℂ) :
    Decidable (isPhaseOrInvert P m0 m1 m2 m3) := by
  unfold isPhaseOrInvert
  infer_instance

/-- The non-special-cased body of `QUnit::Phase` (`qunit.cpp` lines
2098-2128): commute through the buffers, then either apply the diagonal
analytically in basis Z or transform it by `TransformPhase`
(lines 2011-2017) in bases X and Y. -/
noncomputable def phaseBody (P : Params) (s : QUnitState)
    (topLeft bottomRight : ℂ) (t : ℕ) : QUnitState :=
  let sh := (s.shards t).commutePhase topLeft bottomRight
  let s0 := s.setShard t sh
  if sh.pauliBasis = Pauli.Z then
    let s1 :=
      match sh.unit with
      | none => s0
      | some e =>
          (s0.setEng e
              ((s0.eng e).applyMtrx1 topLeft 0 0 bottomRight sh.mapped)).log
            (EngOp.gate1 e sh.mapped)
    s1.setShard t
      { s1.shards t with
        amp0 := topLeft * (s1.shards t).amp0
        amp1 := bottomRight * (s1.shards t).amp1 }
  else
    let m0 := (1 / 2 : ℂ) * (topLeft + bottomRight)
    let m1 := (1 / 2 : ℂ) * (topLeft - bottomRight)
    let s1 :=
      match sh.unit with
      | none => s0
      | some e =>
          (s0.setEng e ((s0.eng e).applyMtrx1 m0 m1 m1 m0 sh.mapped)).log
            (EngOp.gate1 e sh.mapped)
    let sh1 := s1.shards t
    let sh2 :=
      if sh1.dirty then
        { sh1 with
          isProbDirty :=
            sh1.isProbDirty || decide (¬isPhaseOrInvert P m0 m1 m1 m0) }
      else sh1
    let sh3 := { sh2 with
      amp0 := m0 * sh1.amp0 + m1 * sh1.amp1
      amp1 := m1 * sh1.amp0 + m0 * sh1.amp1 }
    s1.setShard t (sh3.clampAmps P)

/-- `QUnit::Phase(topLeft, bottomRight, target)` (`qunit.cpp` lines
2081-2128): under `randGlobalPhase || IS_1_CMPLX(topLeft)`, special-case the
identity-up-to-phase diagonal, the S diagonal (`bottomRight ≈ i·topLeft`)
and the S† diagonal (`bottomRight ≈ -i·topLeft`). -/
noncomputable def phase (P : Params) (s : QUnitState)
    (topLeft bottomRight : ℂ) (t : ℕ) : QUnitState :=
  if P.randGlobalPhase = true ∨ IS_1_CMPLX P topLeft then
    if IS_NORM_0 P (topLeft - bottomRight) then s
    else if IS_NORM_0 P (Complex.I * topLeft - bottomRight) then sGate s t
    else if IS_NORM_0 P (Complex.I * topLeft + bottomRight) then isGate s t
    else phaseBody P s topLeft bottomRight t
  else phaseBody P s topLeft bottomRight t

/-- `QUnit::Invert(topRight, bottomLeft, target)` (`qunit.cpp` lines
2131-2167), basis-Z fragment plus the X/Y transform dispatch. -/
noncomputable def invert (P : Params) (s : QUnitState)
    (topRight bottomLeft : ℂ) (t : ℕ) : QUnitState :=
  let sh := ((s.shards t).flipPhaseAnti).commutePhase topRight bottomLeft
  let s0 := s.setShard t sh
  if sh.pauliBasis = Pauli.Z then
    let s1 :=
      match sh.unit with
      | none => s0
      | some e =>
          (s0.setEng e ((s0.eng e).applyMtrx1 0 topRight bottomLeft 0 sh.mapped)).log
            (EngOp.gate1 e sh.mapped)
    s1.setShard t
      { s1.shards t with
        amp0 := topRight * (s1.shards t).amp1
        amp1 := bottomLeft * (s1.shards t).amp0 }
  else
    -- `TransformXInvert` (`qunit.cpp` lines 1986-1992) in basis X,
    -- `TransformYInvert` (lines 2002-2008) in basis Y.
    let m : ℂ × ℂ × ℂ × ℂ :=
      if sh.pauliBasis = Pauli.X then
        ((1 / 2 : ℂ) * (topRight + bottomLeft),
          (1 / 2 : ℂ) * -(topRight - bottomLeft),
          (1 / 2 : ℂ) * (topRight - bottomLeft),
          (1 / 2 : ℂ) * -(topRight + bottomLeft))
      else
        (Complex.I * (1 / 2 : ℂ) * (topRight - bottomLeft),
          Complex.I * (1 / 2 : ℂ) * (-topRight - bottomLeft),
          -(Complex.I * (1 / 2 : ℂ) * (-topRight - bottomLeft)),
          -(Complex.I * (1 / 2 : ℂ) * (topRight - bottomLeft)))
    let s1 :=
      match sh.unit with
      | none => s0
      | some e =>
          (s0.setEng e
              ((s0.eng e).applyMtrx1 m.1 m.2.1 m.2.2.1 m.2.2.2 sh.mapped)).log
            (EngOp.gate1 e sh.mapped)
    let sh1 := s1.shards t
    let sh2 :=
      if sh1.dirty then
        { sh1 with
          isProbDirty :=
            sh1.isProbDirty ||
              decide (¬isPhaseOrInvert P m.1 m.2.1 m.2.2.1 m.2.2.2) }
      else sh1
    let sh3 := { sh2 with
      amp0 := m.1 * sh1.amp0 + m.2.1 * sh1.amp1
      amp1 := m.2.2.1 * sh1.amp0 + m.2.2.2 * sh1.amp1 }
    s1.setShard t (sh3.clampAmps P)

/-! ## `TrimControls` and the controlled phase/invert front-end
(`qunit.cpp` lines 2469-2572, 2170-2331) -/

/-- `IsInvertTarget()` (source headers; usage in `TrimControls`): the shard
is the target of some buffered invert record. -/
def QEngineShard.isInvertTarget (sh : QEngineShard) : Bool :=
  sh.targetOfShards.any (fun r => r.2.isInvert) ||
    sh.antiTargetOfShards.any (fun r => r.2.isInvert)

/-- `CACHED_Z(shard)` (`qunit.cpp` line 41). -/
noncomputable def cachedZ (sh : QEngineShard) : Prop :=
  sh.pauliBasis = Pauli.Z ∧ sh.dirty = false ∧ sh.queuedPhase = false

/-- `CACHED_ZERO(shard)` (`qunit.cpp` line 42). -/
noncomputable def cachedZero (P : Params) (sh : QEngineShard) : Prop :=
  cachedZ sh ∧ IS_AMP_0 P sh.amp1

/-- `CACHED_ONE(shard)` (`qunit.cpp` line 43). -/
noncomputable def cachedOne (P : Params) (sh : QEngineShard) : Prop :=
  cachedZ sh ∧ IS_AMP_0 P sh.amp0

/-- `CACHED_X(shard)` (`qunit.cpp` line 39). -/
noncomputable def cachedX (sh : QEngineShard) : Prop :=
  sh.pauliBasis = Pauli.X ∧ sh.dirty = false ∧ sh.queuedPhase = false

/-- `CACHED_PLUS(shard)` (`qunit.cpp` line 44). -/
noncomputable def cachedPlus (P : Params) (sh : QEngineShard) : Prop :=
  cachedX sh ∧ IS_AMP_0 P sh.amp1

noncomputable instance (sh : QEngineShard) : Decidable (cachedZ sh) := by
  unfold cachedZ
  infer_instance

noncomputable instance (P : Params) (sh : QEngineShard) :
    Decidable (cachedZero P sh) := by
  unfold cachedZero
  infer_instance

noncomputable instance (P : Params) (sh : QEngineShard) :
    Decidable (cachedOne P sh) := by
  unfold cachedOne
  infer_instance

noncomputable instance (sh : QEngineShard) : Decidable (cachedX sh) := by
  unfold cachedX
  infer_instance

noncomputable instance (P : Params) (sh : QEngineShard) :
    Decidable (cachedPlus P sh) := by
  unfold cachedPlus
  infer_instance

/-- Second `TrimControls` pass (`qunit.cpp` lines 2489-2513): probability
checks on Z-basis controls, no basis flushing. -/
noncomputable def trimLoop2 (P : Params) (anti : Bool) :
    List ℕ → QUnitState → Bool × QUnitState
  | [], s => (false, s)
  | c :: rest, s =>
      let sh := s.shards c
      if sh.pauliBasis ≠ Pauli.Z ∨ sh.isInvertTarget then trimLoop2 P anti rest s
      else
        let s1 := (probBase P s c).2
        let sh1 := s1.shards c
        if IS_AMP_0 P sh1.amp1 then
          let s2 := flush0Eigenstate s1 c
          if ¬anti then (true, s2) else trimLoop2 P anti rest s2
        else if IS_AMP_0 P sh1.amp0 then
          let s2 := flush1Eigenstate s1 c
          if anti then (true, s2) else trimLoop2 P anti rest s2
        else trimLoop2 P anti rest s1

/-- Third `TrimControls` pass (`qunit.cpp` lines 2515-2540): single-qubit
basis flushing on non-Z controls, then probability checks. -/
noncomputable def trimLoop3 (P : Params) (anti : Bool) :
    List ℕ → QUnitState → Bool × QUnitState
  | [], s => (false, s)
  | c :: rest, s =>
      let sh := s.shards c
      if sh.pauliBasis = Pauli.Z ∨ sh.isInvertTarget then trimLoop3 P anti rest s
      else
        let s1 := (probBase P (revertBasis1Qb s c) c).2
        let sh1 := s1.shards c
        if IS_AMP_0 P sh1.amp1 then
          let s2 := flush0Eigenstate s1 c
          if ¬anti then (true, s2) else trimLoop3 P anti rest s2
        else if IS_AMP_0 P sh1.amp0 then
          let s2 := flush1Eigenstate s1 c
          if anti then (true, s2) else trimLoop3 P anti rest s2
        else trimLoop3 P anti rest s1

/-- Fourth `TrimControls` pass (`qunit.cpp` lines 2542-2571): full buffer
flushing; eigenstate controls are pruned, the rest are collected. -/
noncomputable def trimLoop4 (P : Params) (anti : Bool) :
    List ℕ → QUnitState → Bool × QUnitState × List ℕ
  | [], s => (false, s, [])
  | c :: rest, s =>
      let s1 := (probBase P (toPermBasisProb s c) c).2
      let sh1 := s1.shards c
      if IS_AMP_0 P sh1.amp1 then
        let s2 := flush0Eigenstate s1 c
        if ¬anti then (true, s2, [])
        else trimLoop4 P anti rest s2
      else if IS_AMP_0 P sh1.amp0 then
        let s2 := flush1Eigenstate s1 c
        if anti then (true, s2, [])
        else trimLoop4 P anti rest s2
      else
        let r := trimLoop4 P anti rest s1
        (r.1, r.2.1, c :: r.2.2)

/-- `QUnit::TrimControls(controls, controlLen, controlVec, anti)`
(`qunit.cpp` lines 2469-2572).  Returns `(gateDoesNothing, state,
controlVec)`. -/
noncomputable def trimControls (P : Params) (controls : List ℕ) (anti : Bool)
    (s : QUnitState) : Bool × QUnitState × List ℕ :=
  if controls.isEmpty then (false, s, [])
  else if controls.any (fun c =>
      if anti then decide (cachedOne P (s.shards c))
      else decide (cachedZero P (s.shards c))) then
    (true, s, [])
  else
    let r2 := trimLoop2 P anti controls s
    if r2.1 then (true, r2.2, [])
    else
      let r3 := trimLoop3 P anti controls r2.2
      if r3.1 then (true, r3.2, [])
      else trimLoop4 P anti controls r3.2

/-- `IS_SAME_UNIT(shard1, shard2)` (`qunit.cpp` line 53). -/
def sameUnit (sh1 sh2 : QEngineShard) : Prop :=
  sh1.unit.isSome ∧ sh1.unit = sh2.unit

instance (sh1 sh2 : QEngineShard) : Decidable (sameUnit sh1 sh2) := by
  unfold sameUnit
  infer_instance

/-- Modelled from the spec: insert-or-compose a deferred record in one
buffer map (spec §4.1 `addPhase`: "inserts or composes with the existing
record via complex multiplication of like fields"). -/
noncomputable def composeRecord (l : List (ℕ × PhaseShard)) (p : ℕ)
    (d sm : ℂ) (inv : Bool) : List (ℕ × PhaseShard) :=
  if l.any (fun r => r.1 = p) then
    l.map (fun r =>
      if r.1 = p then
        (r.1, ⟨r.2.cmplxDiff * d, r.2.cmplxSame * sm, r.2.isInvert.xor inv⟩)
      else r)
  else l ++ [(p, ⟨d, sm, inv⟩)]

/-- Modelled from the spec: `AddPhaseAngles` and its anti/invert variants
(source headers; spec §4.1, §4.5 step 4) — paired insertion in the target's
`targetOf`-style map and the control's `controls`-style map, preserving
invariant I2. -/
noncomputable def addAngles (s : QUnitState) (control target : ℕ)
    (d sm : ℂ) (anti inv : Bool) : QUnitState :=
  { s with
    shards := fun i =>
      if i = target then
        let sh := s.shards target
        if anti then
          { sh with
            antiTargetOfShards := composeRecord sh.antiTargetOfShards control d sm inv }
        else
          { sh with
            targetOfShards := composeRecord sh.targetOfShards control d sm inv }
      else if i = control then
        let sh := s.shards control
        if anti then
          { sh with
            antiControlsShards := composeRecord sh.antiControlsShards target d sm inv }
        else
          { sh with
            controlsShards := composeRecord sh.controlsShards target d sm inv }
      else s.shards i }

/-- Remove the paired record between `control` and `target` of the given
polarity from both sides. -/
def removePairRecord (s : QUnitState) (control target : ℕ) (anti : Bool) :
    QUnitState :=
  { s with
    shards := fun i =>
      if i = target then
        let sh := s.shards target
        if anti then
          { sh with
            antiTargetOfShards :=
              sh.antiTargetOfShards.filter (fun r => r.1 ≠ control) }
        else
          { sh with
            targetOfShards := sh.targetOfShards.filter (fun r => r.1 ≠ control) }
      else if i = control then
        let sh := s.shards control
        if anti then
          { sh with
            antiControlsShards :=
              sh.antiControlsShards.filter (fun r => r.1 ≠ target) }
        else
          { sh with
            controlsShards := sh.controlsShards.filter (fun r => r.1 ≠ target) }
      else s.shards i }

/-- `QUnit::OptimizePairBuffers(control, target, anti)` (`qunit.cpp` lines
3951 ff.), first phase: a non-invert record whose two factors are both ≈1 is
removed outright.  The deeper merge/materialize cases re-enter the gate
layer through `ApplyBuffer` and are outside the embedded fragment (no
theorem below depends on them). -/
noncomputable def optimizePairBuffers (P : Params) (s : QUnitState)
    (control target : ℕ) (anti : Bool) : QUnitState :=
  let tSh := s.shards target
  let targets := if anti then tSh.antiTargetOfShards else tSh.targetOfShards
  match targets.find? (fun r => r.1 == control) with
  | none => s
  | some r =>
      if ¬r.2.isInvert ∧ IS_1_CMPLX P r.2.cmplxDiff ∧ IS_1_CMPLX P r.2.cmplxSame then
        removePairRecord s control target anti
      else s

/-- Modelled from the spec: step 5 of the gate front-end ("Materialize:
otherwise fuse via the entangler, forward to the engine, mark
`probDirty`/`phaseDirty`", spec §4.5) for a controlled gate — the
entangler/engine work of `ApplyEitherControlled` (`qunit.cpp` lines
2575 ff.) is summarized as one logged materialization with the participating
shards marked dirty. -/
def materializeControlled (s : QUnitState) (controls : List ℕ) (t : ℕ) :
    QUnitState :=
  let s1 : QUnitState := { s with
    shards := fun i =>
      if i = t ∨ controls.contains i then (s.shards i).makeDirty
      else s.shards i }
  s1.log EngOp.materialize

/-- `QUnit::MCPhase(lControls, lControlLen, topLeft, bottomRight, target)`
(`qunit.cpp` lines 2170-2210). -/
noncomputable def mcPhase (P : Params) (s : QUnitState) (lControls : List ℕ)
    (topLeft bottomRight : ℂ) (t : ℕ) : QUnitState :=
  if IS_1_CMPLX P topLeft ∧ IS_1_CMPLX P bottomRight then s
  else
    let tr := trimControls P lControls false s
    if tr.1 then tr.2.1
    else
      let s1 := tr.2.1
      let cv := tr.2.2
      if cv.isEmpty then phase P s1 topLeft bottomRight t
      else if cv.length = 1 ∧ IS_NORM_0 P (topLeft - bottomRight) then
        phase P s1 1 bottomRight (cv.headD 0)
      else if ¬s1.freezeBasis2Qb ∧ cv.length = 1 then
        let control := cv.headD 0
        let s2 := revertBasis2Qb s1 control RevertExclusivity.onlyInvert
          RevertControl.onlyTargets RevertAnti.ctrlAndAnti [] []
        let s3 := revertBasis2Qb s2 t RevertExclusivity.onlyInvert
          RevertControl.onlyTargets RevertAnti.onlyAnti [] []
        let s4 := revertBasis2Qb s3 t RevertExclusivity.onlyInvert
          RevertControl.onlyTargets RevertAnti.onlyCtrl [] [control]
        if ¬sameUnit (s4.shards control) (s4.shards t) then
          optimizePairBuffers P
            (addAngles s4 control t topLeft bottomRight false false) control t
            false
        else materializeControlled s4 cv t
      else materializeControlled s1 cv t

/-- `QUnit::MACPhase` (`qunit.cpp` lines 2212-2252). -/
noncomputable def macPhase (P : Params) (s : QUnitState) (lControls : List ℕ)
    (topLeft bottomRight : ℂ) (t : ℕ) : QUnitState :=
  if IS_1_CMPLX P topLeft ∧ IS_1_CMPLX P bottomRight then s
  else
    let tr := trimControls P lControls true s
    if tr.1 then tr.2.1
    else
      let s1 := tr.2.1
      let cv := tr.2.2
      if cv.isEmpty then phase P s1 topLeft bottomRight t
      else if cv.length = 1 ∧ IS_NORM_0 P (topLeft - bottomRight) then
        phase P s1 topLeft 1 (cv.headD 0)
      else if ¬s1.freezeBasis2Qb ∧ cv.length = 1 then
        let control := cv.headD 0
        let s2 := revertBasis2Qb s1 control RevertExclusivity.onlyInvert
          RevertControl.onlyTargets RevertAnti.ctrlAndAnti [] []
        let s3 := revertBasis2Qb s2 t RevertExclusivity.onlyInvert
          RevertControl.onlyTargets RevertAnti.onlyCtrl [] []
        let s4 := revertBasis2Qb s3 t RevertExclusivity.onlyInvert
          RevertControl.onlyTargets RevertAnti.onlyAnti [] [control]
        if ¬sameUnit (s4.shards control) (s4.shards t) then
          optimizePairBuffers P
            (addAngles s4 control t bottomRight topLeft true false) control t
            true
        else materializeControlled s4 cv t
      else materializeControlled s1 cv t

/-- `QUnit::MCInvert` (`qunit.cpp` lines 2254-2291). -/
noncomputable def mcInvert (P : Params) (s : QUnitState) (lControls : List ℕ)
    (topRight bottomLeft : ℂ) (t : ℕ) : QUnitState :=
  if (IS_1_CMPLX P topRight ∧ IS_1_CMPLX P bottomLeft) ∧
      cachedPlus P (s.shards t) then s
  else
    let tr := trimControls P lControls false s
    if tr.1 then tr.2.1
    else
      let s1 := tr.2.1
      let cv := tr.2.2
      if cv.isEmpty then invert P s1 topRight bottomLeft t
      else if ¬s1.freezeBasis2Qb ∧ cv.length = 1 then
        let control := cv.headD 0
        let s2 := revertBasis2Qb s1 control RevertExclusivity.onlyInvert
          RevertControl.onlyTargets RevertAnti.ctrlAndAnti [] []
        let s3 := revertBasis2Qb s2 t RevertExclusivity.invertAndPhase
          RevertControl.controlsAndTargets RevertAnti.onlyAnti [] []
        let s4 := revertBasis2Qb s3 t RevertExclusivity.invertAndPhase
          RevertControl.controlsAndTargets RevertAnti.onlyCtrl [] [control]
        if ¬sameUnit (s4.shards control) (s4.shards t) then
          optimizePairBuffers P
            (addAngles s4 control t topRight bottomLeft false true) control t
            false
        else materializeControlled s4 cv t
      else materializeControlled s1 cv t

/-- `QUnit::MACInvert` (`qunit.cpp` lines 2294-2331). -/
noncomputable def macInvert (P : Params) (s : QUnitState) (lControls : List ℕ)
    (topRight bottomLeft : ℂ) (t : ℕ) : QUnitState :=
  if (IS_1_CMPLX P topRight ∧ IS_1_CMPLX P bottomLeft) ∧
      cachedPlus P (s.shards t) then s
  else
    let tr := trimControls P lControls true s
    if tr.1 then tr.2.1
    else
      let s1 := tr.2.1
      let cv := tr.2.2
      if cv.isEmpty then invert P s1 topRight bottomLeft t
      else if ¬s1.freezeBasis2Qb ∧ cv.length = 1 then
        let control := cv.headD 0
        let s2 := revertBasis2Qb s1 control RevertExclusivity.onlyInvert
          RevertControl.onlyTargets RevertAnti.ctrlAndAnti [] []
        let s3 := revertBasis2Qb s2 t RevertExclusivity.invertAndPhase
          RevertControl.controlsAndTargets RevertAnti.onlyCtrl [] []
        let s4 := revertBasis2Qb s3 t RevertExclusivity.invertAndPhase
          RevertControl.controlsAndTargets RevertAnti.onlyAnti [] [control]
        if ¬sameUnit (s4.shards control) (s4.shards t) then
          optimizePairBuffers P
            (addAngles s4 control t bottomLeft topRight true true) control t
            true
        else materializeControlled s4 cv t
      else materializeControlled s1 cv t

/-! ## `TrySeparate` (`qunit.cpp` lines 692-768) -/

/-- Modelled from the spec: `ConvertZToX(q)` (source headers; spec §4.2) —
re-express the shard (cache and, when attached, engine qubit) in the X
basis. -/
noncomputable def convertZToX (s : QUnitState) (q : ℕ) : QUnitState :=
  let s' := applyShardMtrx s q invSqrt2 invSqrt2 invSqrt2 (-invSqrt2)
  s'.setShard q { s'.shards q with pauliBasis := Pauli.X }

/-- Modelled from the spec: `ConvertXToY(q)` — re-express the shard in the Y
basis (the matrix is `⟨±i| · |±⟩`). -/
noncomputable def convertXToY (s : QUnitState) (q : ℕ) : QUnitState :=
  let s' := applyShardMtrx s q ((1 - Complex.I) / 2) ((1 + Complex.I) / 2)
    ((1 + Complex.I) / 2) ((1 - Complex.I) / 2)
  s'.setShard q { s'.shards q with pauliBasis := Pauli.Y }

/-- Modelled from the spec: `ConvertYToZ(q)` — re-express the shard in the Z
basis. -/
noncomputable def convertYToZ (s : QUnitState) (q : ℕ) : QUnitState :=
  let s' := applyShardMtrx s q invSqrt2 invSqrt2 (Complex.I * invSqrt2)
    (-(Complex.I * invSqrt2))
  s'.setShard q { s'.shards q with pauliBasis := Pauli.Z }

/-- `atan2(y, x)`. -/
noncomputable def atan2 (y x : ℝ) : ℝ := Complex.arg ⟨x, y⟩

/-- Modelled from the spec: the azimuth/inclination rotation `AI` applied by
the separator ("rotate to align Z with the Bloch axis", spec §4.4). -/
noncomputable def aiMtrx (azimuth inclination : ℝ) : ℂ × ℂ × ℂ × ℂ :=
  (((Real.cos (inclination / 2) : ℝ) : ℂ),
    -Complex.exp (-(azimuth : ℝ) * Complex.I) * ((Real.sin (inclination / 2) : ℝ) : ℂ),
    Complex.exp ((azimuth : ℝ) * Complex.I) * ((Real.sin (inclination / 2) : ℝ) : ℂ),
    ((Real.cos (inclination / 2) : ℝ) : ℂ))

/-- Modelled from the spec: the inverse rotation `IAI`. -/
noncomputable def iaiMtrx (azimuth inclination : ℝ) : ℂ × ℂ × ℂ × ℂ :=
  (((Real.cos (inclination / 2) : ℝ) : ℂ),
    Complex.exp (-(azimuth : ℝ) * Complex.I) * ((Real.sin (inclination / 2) : ℝ) : ℂ),
    -Complex.exp ((azimuth : ℝ) * Complex.I) * ((Real.sin (inclination / 2) : ℝ) : ℂ),
    ((Real.cos (inclination / 2) : ℝ) : ℂ))

/-- Engine-side `IAI`/`AI` on the mapped qubit of shard `q`. -/
noncomputable def engShardRot (s : QUnitState) (q : ℕ) (m : ℂ × ℂ × ℂ × ℂ) :
    QUnitState :=
  let sh := s.shards q
  match sh.unit with
  | none => s
  | some e =>
      (s.setEng e ((s.eng e).applyMtrx1 m.1 m.2.1 m.2.2.1 m.2.2.2 sh.mapped)).log
        (EngOp.gate1 e sh.mapped)

/-- Modelled from the spec: `ShardAI(qubit, azimuth, inclination)` — the
"compensating single-qubit rotation on the detached shard" (spec §4.4),
applied to the cached amplitudes only. -/
noncomputable def shardAI (s : QUnitState) (q : ℕ) (azimuth inclination : ℝ) :
    QUnitState :=
  let m := aiMtrx azimuth inclination
  let sh := s.shards q
  s.setShard q
    { sh with
      amp0 := m.1 * sh.amp0 + m.2.1 * sh.amp1
      amp1 := m.2.2.1 * sh.amp0 + m.2.2.2 * sh.amp1 }

/-- Record one Bloch component according to the shard's current basis
(`qunit.cpp` lines 719-726). -/
def blochPut (b : Pauli) (p : ℝ) (acc : ℝ × ℝ × ℝ) : ℝ × ℝ × ℝ :=
  match b with
  | Pauli.Z => (acc.1, acc.2.1, p)
  | Pauli.X => (p, acc.2.1, acc.2.2)
  | Pauli.Y => (acc.1, p, acc.2.2)

/-- Advance the measurement basis between Bloch iterations (`qunit.cpp`
lines 732-738). -/
noncomputable def blochAdvance (s : QUnitState) (q : ℕ) : QUnitState :=
  match (s.shards q).pauliBasis with
  | Pauli.Z => convertZToX s q
  | Pauli.X => convertXToY s q
  | Pauli.Y => convertYToZ s q

/-- The projective-separation tail of `QUnit::TrySeparate` (`qunit.cpp`
lines 754-767): rotate the Bloch axis onto Z with `IAI`, check the residual
`Prob` against the separability threshold (the source queries it twice), on
failure undo with `AI`, on success `SeparateBit` and apply the compensating
`ShardAI` rotation to the now-detached shard. -/
noncomputable def trySeparateFinish (P : Params) (q : ℕ) (sD : QUnitState)
    (azimuth inclination : ℝ) : Bool × QUnitState :=
  let sE := engShardRot sD q (iaiMtrx azimuth inclination)
  let sh' := sE.shards q
  match sh'.unit with
  | none => (true, sE)
  | some e =>
      let sF := (sE.log (EngOp.prob e sh'.mapped)).log
        (EngOp.prob e sh'.mapped)
      if (sF.eng e).probOf sh'.mapped > P.sepEps then
        (false, engShardRot sF q (aiMtrx azimuth inclination))
      else
        let sG := (separateBit P false q sF).2
        (true, shardAI sG q azimuth inclination)

/-- `QUnit::TrySeparate(qubit)` (`qunit.cpp` lines 692-768), with the
three-probe Bloch loop unrolled.  The Clifford branch
(`TrySeparateClifford`) cannot fire for the dense engines in scope. -/
noncomputable def trySeparate1 (P : Params) (s : QUnitState) (q : ℕ) :
    Bool × QUnitState :=
  let sh := s.shards q
  if shardQubitCount s sh = 1 then
    if sh.unit.isSome then (true, (probBase P s q).2) else (true, s)
  else
    -- probe 0
    let r0 := probBase P s q
    let p0 := 2 * ((1 : ℝ) / 2 - r0.1)
    let sA := r0.2
    if (sA.shards q).unit = none then (true, sA)
    else
      let acc0 := blochPut (sA.shards q).pauliBasis p0 (0, 0, 0)
      let sA' := blochAdvance sA q
      -- probe 1
      let r1 := probBase P sA' q
      let p1 := 2 * ((1 : ℝ) / 2 - r1.1)
      let sB := r1.2
      if (sB.shards q).unit = none then (true, sB)
      else
        let acc1 := blochPut (sB.shards q).pauliBasis p1 acc0
        let sB' := blochAdvance sB q
        -- probe 2
        let r2 := probBase P sB' q
        let p2 := 2 * ((1 : ℝ) / 2 - r2.1)
        let sC := r2.2
        if (sC.shards q).unit = none then (true, sC)
        else
          let acc2 := blochPut (sC.shards q).pauliBasis p2 acc1
          let x := acc2.1
          let y := acc2.2.1
          let z := acc2.2.2
          let r := Real.sqrt (x * x + y * y + z * z)
          if 1 - r > P.sepEps ∨ r > 1 + P.sepEps then (false, sC)
          else
            -- permute axes for logical equivalence (lines 745-751)
            let sD :=
              if (sC.shards q).pauliBasis = Pauli.X then revertBasis1Qb sC q
              else sC
            let xyz : ℝ × ℝ × ℝ :=
              if (sC.shards q).pauliBasis = Pauli.Y then (z, x, y) else (x, y, z)
            let inclination :=
              atan2 (Real.sqrt (xyz.1 * xyz.1 + xyz.2.1 * xyz.2.1)) xyz.2.2
            let azimuth := atan2 xyz.2.1 xyz.1
            trySeparateFinish P q sD azimuth inclination

/-! ## `ProbParity` and `ProbAll` (`qunit.cpp` lines 1098-1150, 210-251,
1023) -/

/-- The set-bit positions of `mask`, least significant first (the
`v ^ nV` walk of `qunit.cpp` lines 1109-1113). -/
def maskIndices (mask : ℕ) : List ℕ :=
  if h : mask = 0 then []
  else
    let nV := mask &&& (mask - 1)
    Nat.log2 ((mask ^^^ nV) &&& mask) :: maskIndices nV
decreasing_by
  calc mask &&& (mask - 1) ≤ mask - 1 := Nat.and_le_right
    _ < mask := Nat.sub_lt (Nat.pos_of_ne_zero h) one_pos

/-- Insert-or-`|=` into an association list from engine id to accumulated
mask (the `std::map<QInterfacePtr, bitCapInt>` of the source). -/
def assocOr (l : List (ℕ × ℕ)) (e m : ℕ) : List (ℕ × ℕ) :=
  if l.any (fun r => r.1 = e) then
    l.map (fun r => if r.1 = e then (r.1, r.2 ||| m) else r)
  else l ++ [(e, m)]

/-- The independent-parity combination `p' = p(1−q) + (1−p)q` (spec §4.5). -/
noncomputable def parityCombine (p q : ℝ) : ℝ := p * (1 - q) + (1 - p) * q

/-- `QUnit::ProbParity(mask)` (`qunit.cpp` lines 1098-1150). -/
noncomputable def probParity (P : Params) (s : QUnitState) (mask : ℕ) :
    ℝ × QUnitState :=
  if mask = 0 then (0, s)
  else if mask &&& (mask - 1) = 0 then prob P s (Nat.log2 mask)
  else
    let qIndices := maskIndices mask
    let s1 := qIndices.foldl
      (fun st qi =>
        let st1 := revertBasis2Qb st qi RevertExclusivity.onlyInvert
          RevertControl.onlyTargets RevertAnti.ctrlAndAnti [] []
        let sh := st1.shards qi
        if sh.unit.isSome ∧ sh.queuedPhase then revertBasis1Qb st1 qi else st1)
      s
    let acc := qIndices.foldl
      (fun (a : ℝ × QUnitState × List (ℕ × ℕ)) qi =>
        let st := a.2.1
        let sh := st.shards qi
        match sh.unit with
        | none =>
            let nOdd :=
              if sh.pauliBasis ≠ Pauli.Z then
                cnorm (invSqrt2 * (sh.amp0 - sh.amp1))
              else cnorm sh.amp1
            (parityCombine a.1 nOdd, st, a.2.2)
        | some _ =>
            let st1 := revertBasis1Qb st qi
            let sh1 := st1.shards qi
            match sh1.unit with
            | none => (a.1, st1, a.2.2)
            | some e => (a.1, st1, assocOr a.2.2 e (2 ^ sh1.mapped)))
      (0, s1, [])
    if qIndices.isEmpty then (acc.1, acc.2.1)
    else
      let fin := acc.2.2.foldl
        (fun (a : ℝ × QUnitState) r =>
          let nOdd := (a.2.eng r.1).probParityOf r.2
          (parityCombine a.1 nOdd, a.2.log (EngOp.probParity r.1 r.2)))
        (acc.1, acc.2.1)
      fin

/-- `QUnit::SetPermutation(perm, phaseFac)` (`qunit.cpp` lines 99-109):
discard all shards and rebuild each one as a detached computational
eigenstate with a fresh nonunitary phase. -/
noncomputable def setPermutation (P : Params) (s : QUnitState) (perm : ℕ) :
    QUnitState :=
  { s with
    shards := fun i =>
      if i < s.n then
        mkEigenShard (perm.testBit i)
          (if P.randGlobalPhase then s.phases (s.phI + i) else 1)
      else default
    phI := if P.randGlobalPhase then s.phI + s.n else s.phI }

/-- Modelled from the spec: `ToPermBasisProb()` over the whole register. -/
noncomputable def toPermBasisProbAll (s : QUnitState) : QUnitState :=
  (List.range s.n).foldl toPermBasisProb s

/-- Modelled from the spec: `ToPermBasisAll()` — full revert of every
shard. -/
noncomputable def toPermBasisAll (s : QUnitState) : QUnitState :=
  (List.range s.n).foldl
    (fun st i =>
      revertBasis2Qb (revertBasis1Qb st i) i RevertExclusivity.invertAndPhase
        RevertControl.controlsAndTargets RevertAnti.ctrlAndAnti [] [])
    s

/-- The per-engine amplitude walk of `GetAmplitudeOrProb` with the
`IS_AMP_0` early break (`qunit.cpp` lines 238-243). -/
noncomputable def engineAmpFold (P : Params) :
    List (ℕ × ℕ) → ℂ × QUnitState → ℂ × QUnitState
  | [], a => a
  | r :: rest, a =>
      let res := a.1 * (a.2.eng r.1).amps r.2
      let st := a.2.log (EngOp.getState r.1)
      if IS_AMP_0 P res then (res, st)
      else engineAmpFold P rest (res, st)

/-- `QUnit::GetAmplitudeOrProb(perm, isProb)` (`qunit.cpp` lines 210-251). -/
noncomputable def getAmplitudeOrProb (P : Params) (s : QUnitState) (perm : ℕ)
    (isProb : Bool) : ℂ × QUnitState :=
  let s0 := if isProb then toPermBasisProbAll s else toPermBasisAll s
  let acc := (List.range s0.n).foldl
    (fun (a : ℂ × List (ℕ × ℕ)) i =>
      let sh := s0.shards i
      match sh.unit with
      | none => (a.1 * (if perm.testBit i then sh.amp1 else sh.amp0), a.2)
      | some e =>
          (a.1, assocOr a.2 e (if perm.testBit i then 2 ^ sh.mapped else 0)))
    (1, [])
  let res := engineAmpFold P acc.2 (acc.1, s0)
  let s1 := res.2
  if shardQubitCount s1 (s1.shards 0) > 1 ∧ cnorm res.1 ≥ 1 - P.normEps ∧
      (P.randGlobalPhase = true ∨ IS_AMP_0 P (res.1 - 1)) then
    (res.1, setPermutation P s1 perm)
  else (res.1, s1)

/-- `QUnit::ProbAll(perm)` (`qunit.cpp` line 1023). -/
noncomputable def probAll (P : Params) (s : QUnitState) (perm : ℕ) :
    ℝ × QUnitState :=
  let r := getAmplitudeOrProb P s perm true
  (clampProb (cnorm r.1), r.2)

/-! ## `MAll` (`qunit.cpp` lines 1455-1498) -/

/-- `IsInvertControl()` (source headers; usage at `qunit.cpp` line 1467):
the shard controls some buffered invert record. -/
def QEngineShard.isInvertControl (sh : QEngineShard) : Bool :=
  sh.controlsShards.any (fun r => r.2.isInvert) ||
    sh.antiControlsShards.any (fun r => r.2.isInvert)

/-- The basis-revert / buffer-dump / invert-control-measure prologue of
`QUnit::MAll()` (`qunit.cpp` lines 1457-1470). -/
noncomputable def mAllPre (P : Params) (s : QUnitState) : QUnitState :=
  let s1 := (List.range s.n).foldl (fun st i => revertBasis1Qb st i) s
  let s2 := (List.range s.n).foldl
    (fun st i => clearInvertPhase (dumpPhaseBuffers st i) i) s1
  (List.range s.n).foldl
    (fun st i =>
      if (st.shards i).isInvertControl then (mGate P st i).2 else st)
    s2

/-- One iteration of the per-qubit collapse loop of `QUnit::MAll()`
(`qunit.cpp` lines 1472-1494): a detached shard is read from its cached
probability (sampling `Rand()` when strictly between 0 and 1), an attached
shard goes through `M`. -/
noncomputable def mAllStep (P : Params) (a : ℕ × QUnitState) (i : ℕ) :
    ℕ × QUnitState :=
  let st := a.2
  let sh := st.shards i
  match sh.unit with
  | none =>
      let p := cnorm sh.amp1
      if 1 ≤ p then
        let phs := getNonunitaryPhase P st
        (a.1 ||| 2 ^ i,
          phs.2.setShard i { sh with amp0 := 0, amp1 := phs.1 })
      else if 0 < p then
        let rv := st.rand
        if rv.1 ≤ p then
          let phs := getNonunitaryPhase P rv.2
          (a.1 ||| 2 ^ i,
            phs.2.setShard i { sh with amp0 := 0, amp1 := phs.1 })
        else
          let phs := getNonunitaryPhase P rv.2
          (a.1, phs.2.setShard i { sh with amp0 := phs.1, amp1 := 0 })
      else
        let phs := getNonunitaryPhase P st
        (a.1, phs.2.setShard i { sh with amp0 := phs.1, amp1 := 0 })
  | some _ =>
      let r := mGate P st i
      (a.1 ||| (if r.1 then 2 ^ i else 0), r.2)

/-- The assembled result and post-loop state of `QUnit::MAll()`. -/
noncomputable def mAllAcc (P : Params) (s : QUnitState) : ℕ × QUnitState :=
  (List.range s.n).foldl (mAllStep P) (0, mAllPre P s)

/-- `QUnit::MAll()` (`qunit.cpp` lines 1455-1498): revert bases, dump the
phase buffers, collapse every qubit, then re-initialize the whole register
with `SetPermutation` on the assembled result. -/
noncomputable def mAll (P : Params) (s : QUnitState) : ℕ × QUnitState :=
  ((mAllAcc P s).1, setPermutation P (mAllAcc P s).2 (mAllAcc P s).1)

/-! ## `SumSqrDiff`, one-qubit fast path (`qunit.cpp` lines 3601-3632) -/

/-- The one-qubit fast path of `QUnit::SumSqrDiff(toCompare)` (`qunit.cpp`
lines 3613-3632), entered when both registers hold exactly one qubit.  The
register's own amplitudes are read from the engine when `shards[0].unit` is
non-null and from the cache otherwise; the compared register's amplitudes
are read *through* `toCompare->shards[0].unit` when that handle is null
(`if (!toCompare->shards[0].unit)`) — a dereference of a null handle,
modelled as `none` — and from the cache otherwise. -/
noncomputable def sumSqrDiff1Qb (s t : QUnitState) :
    Option (ℝ × QUnitState × QUnitState) :=
  let s1 := revertBasis1Qb s 0
  let t1 := revertBasis1Qb t 0
  let mPair : (ℂ × ℂ) × QUnitState :=
    match (s1.shards 0).unit with
    | some e => ((s1.eng e).amps2, s1.log (EngOp.getState e))
    | none => (((s1.shards 0).amp0, (s1.shards 0).amp1), s1)
  match (t1.shards 0).unit with
  | none => none
  | some _ =>
      some
        (cnorm (mPair.1.1 - (t1.shards 0).amp0) +
            cnorm (mPair.1.2 - (t1.shards 0).amp1),
          mPair.2, t1)

/-! ## `Clone` / `CloneBody` (`qunit.cpp` lines 3671-3708) -/

/-- One step of the `CloneBody` loop (`qunit.cpp` lines 3691-3705): copy a
shard; a detached shard keeps no handle; an attached shard's engine is
cloned on first encounter, recorded in the identity-indexed table `dupe`,
and shared thereafter. -/
def cloneStep (heap : List Engine) (dupe : List (ℕ × ℕ))
    (sh : QEngineShard) : List Engine × List (ℕ × ℕ) × QEngineShard :=
  match sh.unit with
  | none => (heap, dupe, sh)
  | some e =>
      match dupe.find? (fun r => r.1 == e) with
      | some r => (heap, dupe, { sh with unit := some r.2 })
      | none =>
          (heap ++ [heap.getD e default], (e, heap.length) :: dupe,
            { sh with unit := some heap.length })

/-- The `CloneBody` loop over the source's shard sequence, threading the
engine heap and the `dupeEngines` table. -/
def cloneBodyGo : List QEngineShard → List Engine → List (ℕ × ℕ) →
    List Engine × List (ℕ × ℕ) × List QEngineShard
  | [], heap, dupe => (heap, dupe, [])
  | sh :: rest, heap, dupe =>
      let st := cloneStep heap dupe sh
      let r := cloneBodyGo rest st.1 st.2.1
      (r.1, r.2.1, st.2.2 :: r.2.2)

/-- `QUnit::CloneBody(copyPtr)` (`qunit.cpp` lines 3689-3708): the copy's
shard sequence and the extended engine heap.  Engine handles are heap
indices; `unit->Clone()` allocates a fresh engine holding the same state. -/
def cloneBody (heap : List Engine) (srcShards : List QEngineShard) :
    List Engine × List QEngineShard :=
  let r := cloneBodyGo srcShards heap []
  (r.1, r.2.2)

/-- `QUnit::Clone()` (`qunit.cpp` lines 3671-3687): flush the deferred-phase
buffers of every shard (`RevertBasis2Qb(i)` with full coverage), then build
the copy through `CloneBody`. -/
def cloneQUnit (s : QUnitState) : QUnitState × List Engine × List QEngineShard :=
  let s1 := (List.range s.n).foldl
    (fun st i =>
      revertBasis2Qb st i RevertExclusivity.invertAndPhase
        RevertControl.controlsAndTargets RevertAnti.ctrlAndAnti [] [])
    s
  let r := cloneBody s1.engines ((List.range s1.n).map s1.shards)
  (s1, r)

/-! ## The tail of `QUnit::INT` (`qunit.cpp` lines 2872-2916) -/

/-- The error taxonomy of the spec (§7). -/
inductive QrackError
  | unsupportedOperation
deriving DecidableEq

/-- Mark a contiguous shard range dirty (`DirtyShardRange`). -/
def dirtyRange (s : QUnitState) (start length : ℕ) : QUnitState :=
  { s with
    shards := fun i =>
      if start ≤ i ∧ i < start + length then (s.shards i).makeDirty
      else s.shards i }

/-- The decision tail of `QUnit::INT(toMod, start, length, carryIndex,
hasCarry, controlVec)` (`qunit.cpp` lines 2872-2916), entered after the
ripple fast path with the residual `toMod`/`length` and the ripple's `carry`
flag: a fully resolved residue returns (emitting at most a carry-bit
`MCInvert`); a carry-bearing residue with controls raises
`unsupportedOperation` ("ERROR: Controlled-with-carry arithmetic is not
implemented!"); otherwise the residue is entangled and forwarded to the
engine's `INCC`/`CINC`/`INC` (the entangler work is summarized as one
logged materialization, spec §4.6). -/
noncomputable def intFinish (P : Params) (s : QUnitState)
    (toMod start length carryIndex : ℕ) (hasCarry carry : Bool)
    (controlVec : List ℕ) : Except QrackError QUnitState :=
  if toMod = 0 ∧ length = 0 then
    Except.ok
      (if hasCarry ∧ carry then mcInvert P s controlVec 1 1 carryIndex else s)
  else if hasCarry then
    if ¬controlVec.isEmpty then Except.error QrackError.unsupportedOperation
    else
      Except.ok
        ((((dirtyRange s start length).setShard carryIndex
              ((s.shards carryIndex).makeDirty)).log EngOp.materialize).log
          (EngOp.arith 0))
  else
    Except.ok
      (((dirtyRange s start length).log EngOp.materialize).log (EngOp.arith 0))

/-! ## Basic state lemmas -/

@[simp]
theorem setShard_shards (s : QUnitState) (q : ℕ) (sh : QEngineShard) :
    (s.setShard q sh).shards = Function.update s.shards q sh := rfl

@[simp]
theorem setShard_engines (s : QUnitState) (q : ℕ) (sh : QEngineShard) :
    (s.setShard q sh).engines = s.engines := rfl

@[simp]
theorem setShard_n (s : QUnitState) (q : ℕ) (sh : QEngineShard) :
    (s.setShard q sh).n = s.n := rfl

@[simp]
theorem setShard_trace (s : QUnitState) (q : ℕ) (sh : QEngineShard) :
    (s.setShard q sh).trace = s.trace := rfl

@[simp]
theorem setShard_phases (s : QUnitState) (q : ℕ) (sh : QEngineShard) :
    (s.setShard q sh).phases = s.phases := rfl

@[simp]
theorem setEng_shards (s : QUnitState) (e : ℕ) (E : Engine) :
    (s.setEng e E).shards = s.shards := rfl

@[simp]
theorem setEng_n (s : QUnitState) (e : ℕ) (E : Engine) :
    (s.setEng e E).n = s.n := rfl

@[simp]
theorem setEng_phases (s : QUnitState) (e : ℕ) (E : Engine) :
    (s.setEng e E).phases = s.phases := rfl

@[simp]
theorem log_shards (s : QUnitState) (op : EngOp) :
    (s.log op).shards = s.shards := rfl

@[simp]
theorem log_engines (s : QUnitState) (op : EngOp) :
    (s.log op).engines = s.engines := rfl

@[simp]
theorem log_n (s : QUnitState) (op : EngOp) : (s.log op).n = s.n := rfl

@[simp]
theorem log_phases (s : QUnitState) (op : EngOp) :
    (s.log op).phases = s.phases := rfl

@[simp]
theorem log_eng (s : QUnitState) (op : EngOp) (e : ℕ) :
    (s.log op).eng e = s.eng e := rfl

@[simp]
theorem setShard_eng (s : QUnitState) (q : ℕ) (sh : QEngineShard) (e : ℕ) :
    (s.setShard q sh).eng e = s.eng e := rfl

/-- `applyShardMtrx` rewrites exactly the two cached amplitudes of the
target shard. -/
theorem applyShardMtrx_shards_q (s : QUnitState) (q : ℕ) (m00 m01 m10 m11 : ℂ) :
    (applyShardMtrx s q m00 m01 m10 m11).shards q =
      { s.shards q with
        amp0 := m00 * (s.shards q).amp0 + m01 * (s.shards q).amp1
        amp1 := m10 * (s.shards q).amp0 + m11 * (s.shards q).amp1 } := by
  unfold applyShardMtrx
  cases hu : (s.shards q).unit <;> simp [hu]

/-- `applyShardMtrx` leaves every other shard alone. -/
theorem applyShardMtrx_shards_ne (s : QUnitState) (q : ℕ) (m00 m01 m10 m11 : ℂ)
    (i : ℕ) (hne : i ≠ q) :
    (applyShardMtrx s q m00 m01 m10 m11).shards i = s.shards i := by
  unfold applyShardMtrx
  cases hu : (s.shards q).unit <;> simp [hu, Function.update_noteq hne]

/-- `revertBasis1Qb` never changes which engine a shard is attached to. -/
theorem revertBasis1Qb_unit (s : QUnitState) (q : ℕ) :
    ((revertBasis1Qb s q).shards q).unit = (s.shards q).unit := by
  unfold revertBasis1Qb
  cases hb : (s.shards q).pauliBasis <;>
    simp [hb, applyShardMtrx_shards_q]

/-- `revertBasis1Qb` on a Z-basis shard is the identity. -/
theorem revertBasis1Qb_of_basisZ (s : QUnitState) (q : ℕ)
    (h : (s.shards q).pauliBasis = Pauli.Z) : revertBasis1Qb s q = s := by
  unfold revertBasis1Qb
  simp [h]

/-! ## Claim C7 — Swap -/

/-- A shard attached to engine `e` at local index `m`, with dirty cache. -/
def attachedShard (e m : ℕ) : QEngineShard :=
  { (default : QEngineShard) with
    unit := some e
    mapped := m
    isProbDirty := true
    isPhaseDirty := true }

/-- A two-qubit register whose two shards share the one engine on the heap. -/
noncomputable def cex7 : QUnitState :=
  { n := 2
    shards := fun i =>
      if i = 0 then attachedShard 0 0
      else if i = 1 then attachedShard 0 1
      else default
    engines := [⟨2, fun x => if x = 0 then 1 else 0⟩]
    trace := []
    freezeBasis2Qb := false
    rng := fun _ => 0
    rngI := 0
    phases := fun _ => 1
    phI := 0 }

/-- C7 (counterexample): at a concrete state whose two shards share one
engine, `Swap` leaves the engine heap and the engine-invocation trace
untouched — it does not call the engine-side swap of the mapped indices
(`EngOp.swap 0 0 1`), contrary to the claim's same-engine case. -/
theorem C7_counterexample :
    sameUnit (cex7.shards 0) (cex7.shards 1) ∧
      (swapGate cex7 0 1).engines = cex7.engines ∧
      (swapGate cex7 0 1).trace = cex7.trace ∧
      ¬(swapGate cex7 0 1).trace = cex7.trace ++ [EngOp.swap 0 0 1] := by
  refine ⟨⟨by simp [cex7, attachedShard], by simp [cex7, attachedShard]⟩, ?_, ?_, ?_⟩
  · simp [swapGate]
  · simp [swapGate]
  · simp [swapGate, cex7]

/-- C7 (amended): for distinct qubits, `Swap` exchanges the two logical
positions in the shard map and performs no engine work at all — engines and
trace are untouched whether or not the shards share an engine. -/
theorem C7_swap (s : QUnitState) (q1 q2 : ℕ) (h : q1 ≠ q2) :
    (swapGate s q1 q2).shards q1 = s.shards q2 ∧
      (swapGate s q1 q2).shards q2 = s.shards q1 ∧
      (∀ i, i ≠ q1 → i ≠ q2 → (swapGate s q1 q2).shards i = s.shards i) ∧
      (swapGate s q1 q2).engines = s.engines ∧
      (swapGate s q1 q2).trace = s.trace := by
  unfold swapGate
  rw [if_neg h]
  refine ⟨by simp, by simp [Ne.symm h], ?_, rfl, rfl⟩
  intro i h1 h2
  simp [h1, h2]

/-- C7 witness: the amended statement at the concrete two-qubit state. -/
theorem C7_swap_witness :
    (swapGate cex7 0 1).shards 0 = cex7.shards 1 ∧
      (swapGate cex7 0 1).shards 1 = cex7.shards 0 ∧
      (∀ i, i ≠ 0 → i ≠ 1 → (swapGate cex7 0 1).shards i = cex7.shards i) ∧
      (swapGate cex7 0 1).engines = cex7.engines ∧
      (swapGate cex7 0 1).trace = cex7.trace :=
  C7_swap cex7 0 1 (by decide)

/-! ## Claim C9 — controlled-with-carry arithmetic -/

/-- Default parameters for concrete instances (both tolerances zero, no
random global phase, no engine-side normalization deferral). -/
noncomputable def P0 : Params := ⟨0, 0, false, false⟩

/-- An empty register. -/
noncomputable def emptyState : QUnitState :=
  { n := 0
    shards := fun _ => default
    engines := []
    trace := []
    freezeBasis2Qb := false
    rng := fun _ => 0
    rngI := 0
    phases := fun _ => 1
    phI := 0 }

/-- C9: an invocation of the `INT` tail with a carry index present
(`hasCarry`), a non-empty trimmed control list, and a residual range that
the ripple fast path could not resolve (`toMod ≠ 0` or `length ≠ 0`), fails
with `unsupportedOperation` instead of forwarding a fused
controlled-with-carry addition to the engine. -/
theorem C9_intFinish (P : Params) (s : QUnitState)
    (toMod start length carryIndex : ℕ) (carry : Bool) (controlVec : List ℕ)
    (hcv : controlVec ≠ []) (hres : ¬(toMod = 0 ∧ length = 0)) :
    intFinish P s toMod start length carryIndex true carry controlVec =
      Except.error QrackError.unsupportedOperation := by
  unfold intFinish
  rw [if_neg hres]
  simp [hcv]

/-- C9 witness: concrete instance with one control and residual length. -/
theorem C9_intFinish_witness :
    intFinish P0 emptyState 1 0 0 2 true false [0] =
      Except.error QrackError.unsupportedOperation :=
  C9_intFinish P0 emptyState 1 0 0 2 false [0] (by simp) (by simp)

/-! ## Claim C8 — one-qubit `SumSqrDiff` fast path -/

/-- C8: in the one-qubit fast path of `sumSqrDiff`, the compared register's
amplitudes are read through its unit handle exactly when that handle is
null: (1) a compared register whose single shard is detached makes the fast
path dereference a null engine handle (`none`); (2) a compared register
whose shard is attached does not crash — its *cached* amplitudes are used,
never its engine; and (3) with a detached self register, the result is
computed from self's cached amplitudes against the compared register's
cached amplitudes.  The null-check polarity of the two branches is thus
inverted. -/
theorem C8_sumSqrDiff :
    (∀ s t : QUnitState, (t.shards 0).unit = none →
        sumSqrDiff1Qb s t = none) ∧
      (∀ s t : QUnitState, (t.shards 0).unit ≠ none →
        ∃ v, sumSqrDiff1Qb s t = some v) ∧
      (∀ s t : QUnitState, (s.shards 0).unit = none →
        (t.shards 0).unit ≠ none →
        sumSqrDiff1Qb s t =
          some
            (cnorm (((revertBasis1Qb s 0).shards 0).amp0 -
                  ((revertBasis1Qb t 0).shards 0).amp0) +
                cnorm (((revertBasis1Qb s 0).shards 0).amp1 -
                  ((revertBasis1Qb t 0).shards 0).amp1),
              revertBasis1Qb s 0, revertBasis1Qb t 0)) := by
  refine ⟨?_, ?_, ?_⟩
  · intro s t ht
    have ht' : ((revertBasis1Qb t 0).shards 0).unit = none :=
      (revertBasis1Qb_unit t 0).trans ht
    unfold sumSqrDiff1Qb
    simp [ht']
  · intro s t ht
    rcases he : ((revertBasis1Qb t 0).shards 0).unit with _ | e
    · exact absurd ((revertBasis1Qb_unit t 0).symm.trans he) ht
    · unfold sumSqrDiff1Qb
      simp [he]
  · intro s t hs ht
    have hs' : ((revertBasis1Qb s 0).shards 0).unit = none :=
      (revertBasis1Qb_unit s 0).trans hs
    rcases he : ((revertBasis1Qb t 0).shards 0).unit with _ | e
    · exact absurd ((revertBasis1Qb_unit t 0).symm.trans he) ht
    · unfold sumSqrDiff1Qb
      simp [he, hs']

/-- A one-qubit register with a detached shard. -/
noncomputable def det1 : QUnitState :=
  { n := 1
    shards := fun _ => default
    engines := []
    trace := []
    freezeBasis2Qb := false
    rng := fun _ => 0
    rngI := 0
    phases := fun _ => 1
    phI := 0 }

/-- C8 witness: comparing against a register whose single shard is detached
dereferences the null handle. -/
theorem C8_sumSqrDiff_witness : sumSqrDiff1Qb det1 det1 = none :=
  C8_sumSqrDiff.1 det1 det1 rfl

/-! ## Claim C5 — trivially satisfied controls -/

/-- C5: for the controlled gates routed through `TrimControls` (`mcPhase`,
`mcInvert` and their anti-control variants `macPhase`, `macInvert`; the
controlled arithmetic front-end trims by the same function), a non-anti
control whose shard is detached with cached certainty `|0⟩`
(`CACHED_ZERO`), or an anti control detached with cached certainty `|1⟩`
(`CACHED_ONE`), makes the call return having applied nothing: the state —
shard amplitudes, deferred-phase buffers, engine heap and trace — is
returned unchanged, and `TrimControls` itself reports the gate as trivial
without mutating the state. -/
theorem C5_trivialControls (P : Params) (s : QUnitState) (controls : List ℕ)
    (t : ℕ) (tl br tr bl : ℂ) (c : ℕ) (hc : c ∈ controls) :
    ((s.shards c).unit = none → cachedZero P (s.shards c) →
        trimControls P controls false s = (true, s, []) ∧
          mcPhase P s controls tl br t = s ∧
          mcInvert P s controls tr bl t = s) ∧
      ((s.shards c).unit = none → cachedOne P (s.shards c) →
        trimControls P controls true s = (true, s, []) ∧
          macPhase P s controls tl br t = s ∧
          macInvert P s controls tr bl t = s) := by
  have hne : controls ≠ [] := by
    intro h
    rw [h] at hc
    exact absurd hc (List.not_mem_nil c)
  have hemp : ¬(controls.isEmpty = true) := by
    simp only [List.isEmpty_eq_true]
    exact hne
  constructor
  · intro _ hzero
    have htrim : trimControls P controls false s = (true, s, []) := by
      unfold trimControls
      rw [if_neg hemp, if_pos]
      rw [List.any_eq_true]
      exact ⟨c, hc, by simp [hzero]⟩
    refine ⟨htrim, ?_, ?_⟩
    · unfold mcPhase
      by_cases h1 : IS_1_CMPLX P tl ∧ IS_1_CMPLX P br
      · rw [if_pos h1]
      · rw [if_neg h1, htrim]
        simp
    · unfold mcInvert
      by_cases h1 : (IS_1_CMPLX P tr ∧ IS_1_CMPLX P bl) ∧ cachedPlus P (s.shards t)
      · rw [if_pos h1]
      · rw [if_neg h1, htrim]
        simp
  · intro _ hone
    have htrim : trimControls P controls true s = (true, s, []) := by
      unfold trimControls
      rw [if_neg hemp, if_pos]
      rw [List.any_eq_true]
      exact ⟨c, hc, by simp [hone]⟩
    refine ⟨htrim, ?_, ?_⟩
    · unfold macPhase
      by_cases h1 : IS_1_CMPLX P tl ∧ IS_1_CMPLX P br
      · rw [if_pos h1]
      · rw [if_neg h1, htrim]
        simp
    · unfold macInvert
      by_cases h1 : (IS_1_CMPLX P tr ∧ IS_1_CMPLX P bl) ∧ cachedPlus P (s.shards t)
      · rw [if_pos h1]
      · rw [if_neg h1, htrim]
        simp

/-- A two-qubit register of reset shards (all detached `|0⟩`, basis Z). -/
noncomputable def resetState2 : QUnitState :=
  { n := 2
    shards := fun _ => default
    engines := []
    trace := []
    freezeBasis2Qb := false
    rng := fun _ => 0
    rngI := 0
    phases := fun _ => 1
    phI := 0 }

/-- A two-qubit register whose shard 0 is detached `|1⟩` with clean cache. -/
noncomputable def resetState2One : QUnitState :=
  { resetState2 with
    shards := fun i =>
      if i = 0 then { (default : QEngineShard) with amp0 := 0, amp1 := 1 }
      else default }

/-- C5 witness: a detached `CACHED_ZERO` control (and, for the anti
variants, a detached `CACHED_ONE` control) short-circuits the four gates on
a concrete reset register. -/
theorem C5_trivialControls_witness :
    (trimControls P0 [0] false resetState2 = (true, resetState2, []) ∧
        mcPhase P0 resetState2 [0] 1 (-1) 1 = resetState2 ∧
        mcInvert P0 resetState2 [0] 1 1 1 = resetState2) ∧
      (trimControls P0 [0] true resetState2One = (true, resetState2One, []) ∧
        macPhase P0 resetState2One [0] 1 (-1) 1 = resetState2One ∧
        macInvert P0 resetState2One [0] 1 1 1 = resetState2One) :=
  ⟨(C5_trivialControls P0 resetState2 [0] 1 1 (-1) 1 1 0 (by simp)).1 rfl
      (by
        constructor
        · exact ⟨rfl, rfl, rfl⟩
        · simp [IS_AMP_0, cnorm, P0, resetState2]),
    (C5_trivialControls P0 resetState2One [0] 1 1 (-1) 1 1 0 (by simp)).2 rfl
      (by
        constructor
        · exact ⟨rfl, rfl, rfl⟩
        · simp [IS_AMP_0, cnorm, P0, resetState2One])⟩

/-! ## Claim C6 — `Phase` special cases -/

/-- Parameters with a random global phase and zero tolerances. -/
noncomputable def P6 : Params := ⟨0, 0, true, false⟩

/-- A one-qubit register holding detached `|1⟩` in basis Z. -/
noncomputable def cex6 : QUnitState :=
  { n := 1
    shards := fun _ => { (default : QEngineShard) with amp0 := 0, amp1 := 1 }
    engines := []
    trace := []
    freezeBasis2Qb := false
    rng := fun _ => 0
    rngI := 0
    phases := fun _ => 1
    phI := 0 }

/-- C6 (counterexample): at `topLeft = 1`, `bottomRight = i` — which
satisfies the claim's S† condition `topLeft = -i·bottomRight` — the source
dispatches the S gate, not S†: on detached `|1⟩` the call leaves `amp1 = i`
where S† leaves `amp1 = -i`, so `phase(1, i, 0)` differs from `IS(0)`. -/
theorem C6_counterexample :
    (1 : ℂ) = -Complex.I * Complex.I ∧
      ((phase P6 cex6 1 Complex.I 0).shards 0).amp1 = Complex.I ∧
      ((isGate cex6 0).shards 0).amp1 = -Complex.I ∧
      phase P6 cex6 1 Complex.I 0 ≠ isGate cex6 0 := by
  have hg : P6.randGlobalPhase = true ∨ IS_1_CMPLX P6 (1 : ℂ) := Or.inl rfl
  have hn1 : ¬IS_NORM_0 P6 ((1 : ℂ) - Complex.I) := by
    norm_num [IS_NORM_0, cnorm, P6, Complex.normSq_apply, Complex.sub_re,
      Complex.sub_im, Complex.one_re, Complex.one_im, Complex.I_re, Complex.I_im]
  have hn2 : IS_NORM_0 P6 (Complex.I * 1 - Complex.I) := by
    simp [IS_NORM_0, cnorm, P6]
  have hdispatch : phase P6 cex6 1 Complex.I 0 = sGate cex6 0 := by
    unfold phase
    rw [if_pos hg, if_neg hn1, if_pos hn2]
  have hs : ((sGate cex6 0).shards 0).amp1 = Complex.I := by
    unfold sGate xBase
    simp [cex6, QEngineShard.commutePhase]
  have hi : ((isGate cex6 0).shards 0).amp1 = -Complex.I := by
    unfold isGate xBase
    simp [cex6, QEngineShard.commutePhase]
  have hine : (Complex.I : ℂ) ≠ -Complex.I := by
    simp [Complex.ext_iff]
    norm_num
  refine ⟨by simp [Complex.ext_iff], hdispatch ▸ hs, hi, ?_⟩
  intro h
  have h1 : ((phase P6 cex6 1 Complex.I 0).shards 0).amp1 =
      ((isGate cex6 0).shards 0).amp1 := by rw [h]
  rw [hdispatch] at h1
  rw [hs, hi] at h1
  exact hine h1

/-- C6 (amended): under the source's guard (`randGlobalPhase` set, or
`topLeft ≈ 1`), `phase(topLeft, bottomRight, q)` special-cases
`topLeft ≈ bottomRight` as a no-op up to global phase (immediate return);
`bottomRight ≈ i·topLeft` is dispatched as the S gate; and
`bottomRight ≈ -i·topLeft` is dispatched as the S† (IS) gate — the S and S†
conditions are the transposes of the claimed ones.  On a detached Z-basis
shard, S multiplies `amp1` by `i` and S† by `-i`. -/
theorem C6_phase (P : Params) (s : QUnitState) (tl br : ℂ) (t : ℕ)
    (hguard : P.randGlobalPhase = true ∨ IS_1_CMPLX P tl) :
    (IS_NORM_0 P (tl - br) → phase P s tl br t = s) ∧
      (¬IS_NORM_0 P (tl - br) → IS_NORM_0 P (Complex.I * tl - br) →
        phase P s tl br t = sGate s t) ∧
      (¬IS_NORM_0 P (tl - br) → ¬IS_NORM_0 P (Complex.I * tl - br) →
        IS_NORM_0 P (Complex.I * tl + br) → phase P s tl br t = isGate s t) ∧
      ((s.shards t).pauliBasis = Pauli.Z → (s.shards t).unit = none →
        ((sGate s t).shards t).amp1 = Complex.I * (s.shards t).amp1 ∧
          ((sGate s t).shards t).amp0 = (s.shards t).amp0 ∧
          ((isGate s t).shards t).amp1 = -Complex.I * (s.shards t).amp1 ∧
          ((isGate s t).shards t).amp0 = (s.shards t).amp0) := by
  refine ⟨?_, ?_, ?_, ?_⟩
  · intro h1
    unfold phase
    rw [if_pos hguard, if_pos h1]
  · intro h1 h2
    unfold phase
    rw [if_pos hguard, if_neg h1, if_pos h2]
  · intro h1 h2 h3
    unfold phase
    rw [if_pos hguard, if_neg h1, if_neg h2, if_pos h3]
  · intro hb hu
    unfold sGate isGate
    simp [hb, hu, QEngineShard.commutePhase]

/-- C6 witness: the no-op case at `topLeft = bottomRight = i` and the S
dispatch at `(1, i)` on the concrete register, plus the S/S† amplitude
action. -/
theorem C6_phase_witness :
    (phase P6 cex6 Complex.I Complex.I 0 = cex6 ∧
        phase P6 cex6 1 Complex.I 0 = sGate cex6 0) ∧
      ((sGate cex6 0).shards 0).amp1 = Complex.I * (cex6.shards 0).amp1 :=
  ⟨⟨(C6_phase P6 cex6 Complex.I Complex.I 0 (Or.inl rfl)).1
        (by simp [IS_NORM_0, cnorm, P6]),
      (C6_phase P6 cex6 1 Complex.I 0 (Or.inl rfl)).2.1
        (by
          norm_num [IS_NORM_0, cnorm, P6, Complex.normSq_apply, Complex.sub_re,
            Complex.sub_im, Complex.one_re, Complex.one_im, Complex.I_re,
            Complex.I_im])
        (by simp [IS_NORM_0, cnorm, P6])⟩,
    ((C6_phase P6 cex6 1 Complex.I 0 (Or.inl rfl)).2.2.2 rfl rfl).1⟩

/-! ## Claim C2 — idempotent separation -/

/-- `ClampAmps` does not change the attachment of a shard. -/
theorem clampAmps_unit (P : Params) (sh : QEngineShard) :
    (sh.clampAmps P).unit = sh.unit := by
  unfold QEngineShard.clampAmps
  split
  · rfl
  · split <;> rfl

/-- `revertBasis1Qb` leaves every other shard alone. -/
theorem revertBasis1Qb_shards_ne (s : QUnitState) (q i : ℕ) (hne : i ≠ q) :
    (revertBasis1Qb s q).shards i = s.shards i := by
  unfold revertBasis1Qb
  cases hb : (s.shards q).pauliBasis <;>
    simp [hb, Function.update_noteq hne, applyShardMtrx_shards_ne _ _ _ _ _ _ _ hne]

/-- The one-qubit-engine branch of `ProbBase` always detaches the shard. -/
theorem probBaseU1_detaches (P : Params) (s : QUnitState) (q : ℕ) :
    (((probBaseU1 P s q).2).shards q).unit = none := by
  unfold probBaseU1
  rcases hu : ((revertBasis1Qb s q).shards q).unit with _ | e
  · simpa [hu] using hu
  · simp [hu, clampAmps_unit]

/-- The one-qubit-engine branch of `ProbBase` touches only its own shard. -/
theorem probBaseU1_shards_ne (P : Params) (s : QUnitState) (j i : ℕ)
    (hne : i ≠ j) : ((probBaseU1 P s j).2).shards i = s.shards i := by
  unfold probBaseU1
  rcases hu : ((revertBasis1Qb s j).shards j).unit with _ | e
  · simpa [hu] using revertBasis1Qb_shards_ne s j i hne
  · simp [hu, Function.update_noteq hne, revertBasis1Qb_shards_ne s j i hne]

/-- `.shards` distributes over a state-level `if`. -/
@[simp]
theorem ite_shards (c : Prop) [Decidable c] (a b : QUnitState) :
    (if c then a else b).shards = if c then a.shards else b.shards := by
  split <;> rfl

/-- `separateBitTail` does not modify a shard that is already detached. -/
theorem separateBitTail_preserves_q (P : Params) (mapped e q : ℕ)
    (s5 : QUnitState) (hq : (s5.shards q).unit = none) :
    ((separateBitTail P mapped e s5).2).shards q = s5.shards q := by
  unfold separateBitTail
  dsimp only
  split
  · simp [hq]
  · split
    · rename_i j hj
      have hqj : q ≠ j := by
        intro hqj
        subst hqj
        have hpj := List.find?_some hj
        simp [hq] at hpj
      rw [probBaseU1_shards_ne P _ j q hqj]
      simp [hq]
    · simp [hq]

/-- `separateBitFinish` does not modify the already-detached shard `q`. -/
theorem separateBitFinish_preserves_q (P : Params) (v : Bool)
    (q mapped e : ℕ) (s : QUnitState) (hq : (s.shards q).unit = none) :
    ((separateBitFinish P v q mapped e s).2).shards q = s.shards q := by
  unfold separateBitFinish
  dsimp only
  rw [separateBitTail_preserves_q]
  · split
    · split <;> simp [hq]
    · simp [hq]
  · split
    · split <;> simp [hq]
    · simp [hq]

/-- `SeparateBit` always leaves the measured shard detached. -/
theorem separateBit_detaches (P : Params) (v : Bool) (q : ℕ) (s : QUnitState) :
    (((separateBit P v q s).2).shards q).unit = none := by
  unfold separateBit
  dsimp only
  rcases hu : (s.shards q).unit with _ | e
  · simp only [hu, setShard_shards, Function.update_same]
  · simp only [hu, setShard_eng]
    split
    · simp only [setShard_shards, Function.update_same]
    · rw [separateBitFinish_preserves_q P v q _ e _ (by simp)]
      simp

/-- `ShardAI` does not change the attachment of the shard. -/
theorem shardAI_unit (s : QUnitState) (q : ℕ) (az inc : ℝ) :
    ((shardAI s q az inc).shards q).unit = (s.shards q).unit := by
  unfold shardAI
  simp

/-- `ProbBase` detaches a shard whose engine holds exactly one qubit. -/
theorem probBase_detaches_u1 (P : Params) (s : QUnitState) (q : ℕ) (e : ℕ)
    (he : (s.shards q).unit = some e) (hn : (s.eng e).n = 1) :
    (((probBase P s q).2).shards q).unit = none := by
  unfold probBase
  rw [if_pos]
  · exact probBaseU1_detaches P s q
  · exact ⟨by simp [he], by simpa [he] using hn⟩

/-- Whenever the projective-separation tail reports success, the shard is
detached. -/
theorem trySeparateFinish_detached (P : Params) (q : ℕ) (sD : QUnitState)
    (az inc : ℝ) (b : Bool) (st : QUnitState)
    (heq : trySeparateFinish P q sD az inc = (b, st)) (hb : b = true) :
    (st.shards q).unit = none := by
  unfold trySeparateFinish at heq
  dsimp only at heq
  rcases hu : ((engShardRot sD q (iaiMtrx az inc)).shards q).unit with _ | e
  · simp only [hu] at heq
    injection heq with h1 h2
    subst h2
    exact hu
  · simp only [hu] at heq
    split at heq
    · injection heq with h1 h2
      rw [← h1] at hb
      exact absurd hb (by simp)
    · injection heq with h1 h2
      subst h2
      rw [shardAI_unit]
      exact separateBit_detaches P false q _

/-- C2: whenever `trySeparate(q)` returns true the shard of `q` is detached
(`unit = none`, its cached amplitudes standing for its single-qubit state in
its recorded basis, invariant I1); and on an already-detached shard
`trySeparate(q)` is a strict no-op that again returns true — so repeating a
successful separation changes no observable state. -/
theorem C2_trySeparate (P : Params) (s : QUnitState) (q : ℕ) :
    ((trySeparate1 P s q).1 = true →
        (((trySeparate1 P s q).2).shards q).unit = none) ∧
      ((s.shards q).unit = none → trySeparate1 P s q = (true, s)) := by
  constructor
  · suffices h : ∀ b st, trySeparate1 P s q = (b, st) → b = true →
        (st.shards q).unit = none by
      intro htrue
      exact h _ _ rfl htrue
    intro b st heq htrue
    unfold trySeparate1 at heq
    dsimp only at heq
    split at heq
    · -- one-qubit engine (or already detached)
      split at heq
      · rename_i hsome
        rcases Option.isSome_iff_exists.mp hsome with ⟨e, he⟩
        rename_i hq1
        injection heq with h1 h2
        subst h2
        apply probBase_detaches_u1 P s q e he
        unfold shardQubitCount at hq1
        rw [he] at hq1
        exact hq1
      · rename_i hnone
        injection heq with h1 h2
        subst h2
        simpa using hnone
    · -- Bloch-probe path
      split at heq
      · rename_i hA
        injection heq with h1 h2
        subst h2
        exact hA
      · split at heq
        · rename_i hB
          injection heq with h1 h2
          subst h2
          exact hB
        · split at heq
          · rename_i hC
            injection heq with h1 h2
            subst h2
            exact hC
          · split at heq
            · -- Bloch length outside the separability window: returns false
              injection heq with h1 h2
              rw [← h1] at htrue
              exact absurd htrue (by simp)
            · exact trySeparateFinish_detached P q _ _ _ b st heq htrue
  · intro hnone
    unfold trySeparate1
    rw [if_pos]
    · rw [if_neg]
      simp [hnone]
    · unfold shardQubitCount
      rw [hnone]
  -- (the second branch needs `shardQubitCount = 1`, immediate from `none`)

/-- C2 witness: on a register whose qubit 0 is already detached,
`trySeparate` returns true without touching the state; by the first
conjunct the reported separation leaves the shard detached. -/
theorem C2_trySeparate_witness :
    trySeparate1 P0 resetState2 0 = (true, resetState2) ∧
      ((trySeparate1 P0 resetState2 0).1 = true →
        (((trySeparate1 P0 resetState2 0).2).shards 0).unit = none) :=
  ⟨(C2_trySeparate P0 resetState2 0).2 rfl, (C2_trySeparate P0 resetState2 0).1⟩

/-! ## Claim C4 — clone isolation -/

/-- Replace a shard's engine handle. -/
def QEngineShard.withUnit (sh : QEngineShard) (u : Option ℕ) : QEngineShard :=
  { sh with unit := u }

@[simp]
theorem withUnit_unit (sh : QEngineShard) (u : Option ℕ) :
    (sh.withUnit u).unit = u := rfl

theorem withUnit_self (sh : QEngineShard) : sh.withUnit sh.unit = sh := rfl

/-- Look an engine id up in the `dupeEngines` table. -/
def dlookup (D : List (ℕ × ℕ)) (e : ℕ) : Option ℕ :=
  (D.find? (fun r => r.1 == e)).map Prod.snd

/-- `find?` skips a prefix on which the predicate fails. -/
theorem find?_append_of_neg {α} (l1 l2 : List α) (p : α → Bool)
    (h : ∀ x ∈ l1, ¬p x = true) : (l1 ++ l2).find? p = l2.find? p := by
  induction l1 with
  | nil => rfl
  | cons a t ih =>
      simp only [List.cons_append, List.find?]
      rw [Bool.eq_false_iff.mpr (h a (by simp))]
      exact ih fun x hx => h x (by simp [hx])

/-- The full behaviour of the `CloneBody` loop: the heap is only extended;
the `dupeEngines` table grows with fresh, pairwise-distinct clone ids lying
above the original heap; each cloned engine holds the same state as its
source; every engine id referenced by the input shards ends up in the
table; and the output shard list is the input list with every engine handle
rewritten through the final table. -/
theorem cloneGo_spec (N : ℕ) (L : List QEngineShard) :
    ∀ (heap : List Engine) (D : List (ℕ × ℕ)),
      N ≤ heap.length →
      (∀ sh ∈ L, ∀ e, sh.unit = some e → e < N) →
      (∀ p ∈ D, p.1 < N ∧ N ≤ p.2 ∧ p.2 < heap.length) →
      (∀ p ∈ D, heap.getD p.2 default = heap.getD p.1 default) →
      (D.map Prod.fst).Nodup →
      (D.map Prod.snd).Nodup →
      (∃ ext, (cloneBodyGo L heap D).1 = heap ++ ext) ∧
        (∃ Dn, (cloneBodyGo L heap D).2.1 = Dn ++ D ∧
          ∀ p ∈ Dn, p.1 ∉ D.map Prod.fst) ∧
        (∀ p ∈ (cloneBodyGo L heap D).2.1,
          p.1 < N ∧ N ≤ p.2 ∧ p.2 < (cloneBodyGo L heap D).1.length) ∧
        (((cloneBodyGo L heap D).2.1.map Prod.fst).Nodup ∧
          ((cloneBodyGo L heap D).2.1.map Prod.snd).Nodup) ∧
        (∀ p ∈ (cloneBodyGo L heap D).2.1,
          (cloneBodyGo L heap D).1.getD p.2 default = heap.getD p.1 default) ∧
        (∀ sh ∈ L, ∀ e, sh.unit = some e →
          (dlookup (cloneBodyGo L heap D).2.1 e).isSome) ∧
        (cloneBodyGo L heap D).2.2 =
          L.map fun sh => sh.withUnit
            (sh.unit.bind (dlookup (cloneBodyGo L heap D).2.1)) := by
  induction L with
  | nil =>
      intro heap D hN hL hD hD3 hDk hDv
      refine ⟨⟨[], by simp [cloneBodyGo]⟩, ⟨[], by simp [cloneBodyGo]⟩, ?_, ?_, ?_, ?_, ?_⟩
      · simpa [cloneBodyGo] using hD
      · simpa [cloneBodyGo] using ⟨hDk, hDv⟩
      · simpa [cloneBodyGo] using hD3
      · simp
      · simp [cloneBodyGo]
  | cons sh rest ih =>
      intro heap D hN hL hD hD3 hDk hDv
      have hLrest : ∀ sh' ∈ rest, ∀ e, sh'.unit = some e → e < N :=
        fun sh' h' => hL sh' (by simp [h'])
      rcases hu : sh.unit with _ | e
      · -- detached shard: nothing to clone
        have hgo : cloneBodyGo (sh :: rest) heap D =
            ((cloneBodyGo rest heap D).1, (cloneBodyGo rest heap D).2.1,
              sh :: (cloneBodyGo rest heap D).2.2) := by
          simp [cloneBodyGo, cloneStep, hu]
        obtain ⟨c1, c2, c3, c4, c5, c6, c7⟩ :=
          ih heap D hN hLrest hD hD3 hDk hDv
        rw [hgo]
        refine ⟨c1, c2, c3, c4, c5, ?_, ?_⟩
        · intro sh' hm e' he'
          rcases List.mem_cons.mp hm with hh | hh
          · rw [hh] at he'
            rw [hu] at he'
            exact absurd he' (by simp)
          · exact c6 sh' hh e' he'
        · simp only [List.map_cons]
          rw [← c7]
          congr 1
          rw [hu]
          simpa using (withUnit_self sh).symm.trans (by rw [hu])
      · rcases hf : D.find? (fun r => r.1 == e) with _ | r
        · -- first encounter: clone the engine onto the heap
          have hgo : cloneBodyGo (sh :: rest) heap D =
              ((cloneBodyGo rest (heap ++ [heap.getD e default])
                  ((e, heap.length) :: D)).1,
                (cloneBodyGo rest (heap ++ [heap.getD e default])
                  ((e, heap.length) :: D)).2.1,
                sh.withUnit (some heap.length) ::
                  (cloneBodyGo rest (heap ++ [heap.getD e default])
                    ((e, heap.length) :: D)).2.2) := by
            simp [cloneBodyGo, cloneStep, hu, hf, QEngineShard.withUnit]
          have heN : e < N := hL sh (by simp) e hu
          have hkeys : e ∉ D.map Prod.fst := by
            intro hmem
            rcases List.mem_map.mp hmem with ⟨p, hp, hpe⟩
            have := List.find?_eq_none.mp hf p hp
            simp [hpe] at this
          have hvals : (heap.length : ℕ) ∉ D.map Prod.snd := by
            intro hmem
            rcases List.mem_map.mp hmem with ⟨p, hp, hpe⟩
            have := (hD p hp).2.2
            omega
          have hN' : N ≤ (heap ++ [heap.getD e default]).length := by
            simp
            omega
          have hD' : ∀ p ∈ (e, heap.length) :: D,
              p.1 < N ∧ N ≤ p.2 ∧ p.2 < (heap ++ [heap.getD e default]).length := by
            intro p hp
            rcases List.mem_cons.mp hp with hh | hh
            · subst hh
              refine ⟨heN, hN, by simp⟩
            · have := hD p hh
              simp only [List.length_append, List.length_cons]
              refine ⟨this.1, this.2.1, by simp; omega⟩
          have hpre : ∀ i, i < heap.length →
              (heap ++ [heap.getD e default]).getD i default = heap.getD i default := by
            intro i hi
            simp [List.getD, List.getElem?_append, hi]
          have hlast : (heap ++ [heap.getD e default]).getD heap.length default =
              heap.getD e default := by
            simp [List.getD]
          have hD3' : ∀ p ∈ (e, heap.length) :: D,
              (heap ++ [heap.getD e default]).getD p.2 default =
                (heap ++ [heap.getD e default]).getD p.1 default := by
            intro p hp
            rcases List.mem_cons.mp hp with hh | hh
            · subst hh
              rw [hlast, hpre e (by omega)]
            · have hb := hD p hh
              rw [hpre p.2 hb.2.2, hpre p.1 (by omega), hD3 p hh]
          have hDk' : (((e, heap.length) :: D).map Prod.fst).Nodup := by
            simp only [List.map_cons, List.nodup_cons]
            exact ⟨hkeys, hDk⟩
          have hDv' : (((e, heap.length) :: D).map Prod.snd).Nodup := by
            simp only [List.map_cons, List.nodup_cons]
            exact ⟨hvals, hDv⟩
          obtain ⟨⟨ext', hext⟩, ⟨Dn', hDn, hDnKeys⟩, c3, c4, c5, c6, c7⟩ :=
            ih (heap ++ [heap.getD e default]) ((e, heap.length) :: D) hN'
              hLrest hD' hD3' hDk' hDv'
          rw [hgo]
          have hdl : dlookup (cloneBodyGo rest (heap ++ [heap.getD e default])
              ((e, heap.length) :: D)).2.1 e = some heap.length := by
            rw [hDn]
            unfold dlookup
            rw [find?_append_of_neg]
            · simp [List.find?]
            · intro p hp
              have := hDnKeys p hp
              simp only [List.map_cons, List.mem_cons] at this
              simp only [Bool.not_eq_true, beq_eq_false_iff_ne, ne_eq]
              intro hpe
              exact this (Or.inl hpe)
          refine ⟨⟨[heap.getD e default] ++ ext', by rw [hext, List.append_assoc]⟩,
            ⟨Dn' ++ [(e, heap.length)], by rw [hDn, List.append_assoc]; rfl, ?_⟩,
            c3, c4, ?_, ?_, ?_⟩
          · intro p hp
            rcases List.mem_append.mp hp with hh | hh
            · intro hmem
              exact hDnKeys p hh (by simp [hmem])
            · simp only [List.mem_singleton] at hh
              subst hh
              exact hkeys
          · intro p hp
            have := c5 p hp
            rw [this]
            rcases (c3 p hp) with ⟨hp1, _, _⟩
            exact hpre p.1 (by omega)
          · intro sh' hm e' he'
            rcases List.mem_cons.mp hm with hh | hh
            · rw [hh] at he'
              rw [hu] at he'
              injection he' with he''
              subst he''
              rw [hdl]
              rfl
            · exact c6 sh' hh e' he'
          · simp only [List.map_cons]
            rw [← c7]
            congr 1
            rw [hu]
            simp only [Option.some_bind]
            rw [hdl]
        · -- already cloned: reuse the table entry
          have hre : r.1 = e := by
            have := List.find?_some hf
            simpa using this
          have hrm : r ∈ D := List.mem_of_find?_eq_some hf
          have hgo : cloneBodyGo (sh :: rest) heap D =
              ((cloneBodyGo rest heap D).1, (cloneBodyGo rest heap D).2.1,
                sh.withUnit (some r.2) :: (cloneBodyGo rest heap D).2.2) := by
            simp [cloneBodyGo, cloneStep, hu, hf, QEngineShard.withUnit]
          obtain ⟨c1, ⟨Dn, hDn, hDnKeys⟩, c3, c4, c5, c6, c7⟩ :=
            ih heap D hN hLrest hD hD3 hDk hDv
          have hdl : dlookup (cloneBodyGo rest heap D).2.1 e = some r.2 := by
            rw [hDn]
            unfold dlookup
            rw [find?_append_of_neg]
            · rw [hf]
              rfl
            · intro p hp
              have hnk := hDnKeys p hp
              simp only [Bool.not_eq_true, beq_eq_false_iff_ne, ne_eq]
              intro hpe
              exact hnk (by
                rw [hpe]
                rw [← hre]
                exact List.mem_map.mpr ⟨r, hrm, rfl⟩)
          rw [hgo]
          refine ⟨c1, ⟨Dn, hDn, hDnKeys⟩, c3, c4, c5, ?_, ?_⟩
          · intro sh' hm e' he'
            rcases List.mem_cons.mp hm with hh | hh
            · rw [hh] at he'
              rw [hu] at he'
              injection he' with he''
              subst he''
              rw [hdl]
              rfl
            · exact c6 sh' hh e' he'
          · simp only [List.map_cons]
            rw [← c7]
            congr 1
            rw [hu]
            simp only [Option.some_bind]
            rw [hdl]

/-- Empty buffers mean no queued phase records. -/
theorem queuedPhase_eq_false_of_empty (sh : QEngineShard)
    (h : sh.buffersEmpty) : sh.queuedPhase = false := by
  obtain ⟨h1, h2, h3, h4⟩ := h
  unfold QEngineShard.queuedPhase
  rw [h1, h2, h3, h4]
  rfl

/-- `RevertBasis2Qb` is an immediate return on a shard with no queued phase
records. -/
theorem revertBasis2Qb_of_empty (s : QUnitState) (q : ℕ)
    (excl : RevertExclusivity) (ce : RevertControl) (ae : RevertAnti)
    (xc xt : List ℕ) (h : (s.shards q).queuedPhase = false) :
    revertBasis2Qb s q excl ce ae xc xt = s := by
  unfold revertBasis2Qb
  rw [if_pos]
  rw [h]
  simp

/-- A fold that fixes the state is the identity. -/
theorem foldl_fixed {α} (f : QUnitState → α → QUnitState) (s : QUnitState)
    (l : List α) (h : ∀ x ∈ l, f s x = s) : l.foldl f s = s := by
  induction l with
  | nil => rfl
  | cons a t ih =>
      simp only [List.foldl_cons]
      rw [h a (by simp)]
      exact ih fun x hx => h x (by simp [hx])

/-- Indexing the cloned shard sequence. -/
theorem getD_map_range {α : Type} [Inhabited α] (f : ℕ → α) (g : α → α)
    (n i : ℕ) (hi : i < n) :
    ((((List.range n).map f).map g).getD i default) = g (f i) := by
  simp [List.getD, List.getElem?_map, List.getElem?_range hi]

/-- C4: `Clone` is a deep copy.  With the deferred-phase buffers already
empty (the source's `RevertBasis2Qb` prologue is then a no-op and the
source register is returned unchanged), `CloneBody` produces a copy such
that: the copy has one shard per source shard and every non-handle field —
amplitudes, basis, dirty flags and deferred-phase records — is copied
verbatim; detachedness is preserved; two copy shards share an engine
exactly when their source shards did (each distinct engine is cloned
exactly once through the identity-indexed table); every cloned engine id is
fresh (at or above the original heap), so no engine handle is shared
between source and copy; each cloned engine holds the same state as its
source; the source's engines survive unchanged on the heap; and mutating
any engine of the source leaves every engine of the copy unchanged and vice
versa. -/
theorem C4_clone (s : QUnitState)
    (hbuf : ∀ i, i < s.n → (s.shards i).buffersEmpty)
    (hWF : ∀ i, i < s.n → ∀ e, (s.shards i).unit = some e →
      e < s.engines.length) :
    (cloneQUnit s).1 = s ∧
      (cloneQUnit s).2.2.length = s.n ∧
      (∀ i, i < s.n →
        (((cloneQUnit s).2.2.getD i default).unit = none ↔
          (s.shards i).unit = none)) ∧
      (∀ i j, i < s.n → j < s.n →
        (((cloneQUnit s).2.2.getD i default).unit =
            ((cloneQUnit s).2.2.getD j default).unit ↔
          (s.shards i).unit = (s.shards j).unit)) ∧
      (∀ i, i < s.n → ∀ e',
        ((cloneQUnit s).2.2.getD i default).unit = some e' →
        s.engines.length ≤ e' ∧ e' < (cloneQUnit s).2.1.length) ∧
      ((cloneQUnit s).2.1.take s.engines.length = s.engines) ∧
      (∀ i, i < s.n → ∀ e e', (s.shards i).unit = some e →
        ((cloneQUnit s).2.2.getD i default).unit = some e' →
        (cloneQUnit s).2.1.getD e' default = s.engines.getD e default) ∧
      (∀ i, i < s.n →
        (cloneQUnit s).2.2.getD i default =
          (s.shards i).withUnit (((cloneQUnit s).2.2.getD i default).unit)) ∧
      (∀ i, i < s.n → ∀ e',
        ((cloneQUnit s).2.2.getD i default).unit = some e' →
        ∀ eid E, eid < s.engines.length →
        ((cloneQUnit s).2.1.set eid E).getD e' default =
          (cloneQUnit s).2.1.getD e' default) ∧
      (∀ i, i < s.n → ∀ e, (s.shards i).unit = some e →
        ∀ e' E, s.engines.length ≤ e' →
        (((cloneQUnit s).2.1.set e' E).getD e default =
            (cloneQUnit s).2.1.getD e default ∧
          (cloneQUnit s).2.1.getD e default = s.engines.getD e default)) := by
  have hs1 : (List.range s.n).foldl
      (fun st i =>
        revertBasis2Qb st i RevertExclusivity.invertAndPhase
          RevertControl.controlsAndTargets RevertAnti.ctrlAndAnti [] []) s = s := by
    apply foldl_fixed
    intro i hi
    exact revertBasis2Qb_of_empty s i _ _ _ _ _
      (queuedPhase_eq_false_of_empty _ (hbuf i (List.mem_range.mp hi)))
  have hcq : cloneQUnit s =
      (s, cloneBody s.engines ((List.range s.n).map s.shards)) := by
    unfold cloneQUnit
    rw [hs1]
  set L := (List.range s.n).map s.shards with hL
  have hLmem : ∀ sh ∈ L, ∀ e, sh.unit = some e → e < s.engines.length := by
    intro sh hm e he
    rcases List.mem_map.mp hm with ⟨i, hi, hie⟩
    exact hWF i (List.mem_range.mp hi) e (hie ▸ he)
  obtain ⟨⟨ext, hext⟩, ⟨Dn, hDn, _⟩, c3, ⟨c4k, c4v⟩, c5, c6, c7⟩ :=
    cloneGo_spec s.engines.length L s.engines [] le_rfl hLmem
      (by simp) (by simp) (by simp) (by simp)
  have hBody : cloneBody s.engines L =
      ((cloneBodyGo L s.engines []).1, (cloneBodyGo L s.engines []).2.2) := rfl
  set R := cloneBodyGo L s.engines [] with hR
  set D' := R.2.1 with hD'
  have hlen : R.2.2.length = s.n := by
    rw [c7]
    simp [hL]
  have hget : ∀ i, i < s.n → R.2.2.getD i default =
      (s.shards i).withUnit ((s.shards i).unit.bind (dlookup D')) := by
    intro i hi
    rw [c7, hL]
    exact getD_map_range s.shards _ s.n i hi
  have hmemL : ∀ i, i < s.n → s.shards i ∈ L := by
    intro i hi
    rw [hL]
    exact List.mem_map.mpr ⟨i, List.mem_range.mpr hi, rfl⟩
  have hunit : ∀ i, i < s.n → (R.2.2.getD i default).unit =
      (s.shards i).unit.bind (dlookup D') := by
    intro i hi
    rw [hget i hi]
    rfl
  have hlook : ∀ e v, dlookup D' e = some v →
      ∃ p ∈ D', p.1 = e ∧ p.2 = v := by
    intro e v hv
    unfold dlookup at hv
    rcases hf : D'.find? (fun r => r.1 == e) with _ | p
    · rw [hf] at hv
      exact absurd hv (by simp)
    · rw [hf] at hv
      refine ⟨p, List.mem_of_find?_eq_some hf, ?_, ?_⟩
      · simpa using List.find?_some hf
      · simpa using hv
  rw [hcq, hBody]
  refine ⟨rfl, hlen, ?_, ?_, ?_, ?_, ?_, ?_, ?_, ?_⟩
  · -- detachedness preserved
    intro i hi
    rw [hunit i hi]
    rcases hsu : (s.shards i).unit with _ | e
    · simp
    · have := c6 (s.shards i) (hmemL i hi) e hsu
      rcases Option.isSome_iff_exists.mp this with ⟨v, hv⟩
      simp [hv]
  · -- sharing structure preserved
    intro i j hi hj
    rw [hunit i hi, hunit j hj]
    constructor
    · intro hcp
      rcases hsi : (s.shards i).unit with _ | ei
      · rcases hsj : (s.shards j).unit with _ | ej
        · rfl
        · exfalso
          rw [hsi, hsj] at hcp
          simp only [Option.none_bind, Option.some_bind] at hcp
          have := c6 (s.shards j) (hmemL j hj) ej hsj
          rcases Option.isSome_iff_exists.mp this with ⟨v, hv⟩
          rw [hv] at hcp
          exact absurd hcp (by simp)
      · rcases hsj : (s.shards j).unit with _ | ej
        · exfalso
          rw [hsi, hsj] at hcp
          simp only [Option.none_bind, Option.some_bind] at hcp
          have := c6 (s.shards i) (hmemL i hi) ei hsi
          rcases Option.isSome_iff_exists.mp this with ⟨v, hv⟩
          rw [hv] at hcp
          exact absurd hcp (by simp)
        · rw [hsi, hsj] at hcp
          simp only [Option.some_bind] at hcp
          have h1 := c6 (s.shards i) (hmemL i hi) ei hsi
          have h2 := c6 (s.shards j) (hmemL j hj) ej hsj
          rcases Option.isSome_iff_exists.mp h1 with ⟨v1, hv1⟩
          rcases Option.isSome_iff_exists.mp h2 with ⟨v2, hv2⟩
          rw [hv1, hv2] at hcp
          injection hcp with hv12
          subst hv12
          rcases hlook ei v1 hv1 with ⟨p1, hp1, hp1e, hp1v⟩
          rcases hlook ej v1 hv2 with ⟨p2, hp2, hp2e, hp2v⟩
          have hpp : p1 = p2 :=
            List.inj_on_of_nodup_map c4v hp1 hp2 (by rw [hp1v, hp2v])
          rw [← hp1e, ← hp2e, hpp]
    · intro hsrc
      rw [hsrc]
  · -- fresh clone ids
    intro i hi e' he'
    rw [hunit i hi] at he'
    rcases hsu : (s.shards i).unit with _ | e
    · rw [hsu] at he'
      simp at he'
    · rw [hsu] at he'
      simp only [Option.some_bind] at he'
      rcases hlook e e' he' with ⟨p, hp, hpe, hpv⟩
      have := c3 p hp
      rw [hpv] at this
      exact ⟨this.2.1, this.2.2⟩
  · -- source engines survive in place
    rw [hext]
    exact List.take_left s.engines ext
  · -- cloned engine contents equal their sources
    intro i hi e e' hsu he'
    rw [hunit i hi, hsu] at he'
    simp only [Option.some_bind] at he'
    rcases hlook e e' he' with ⟨p, hp, hpe, hpv⟩
    have := c5 p hp
    rw [hpv, hpe] at this
    exact this
  · -- every non-handle field is copied verbatim
    intro i hi
    rw [hget i hi]
    rfl
  · -- mutating a source engine cannot touch a copy engine
    intro i hi e' he' eid E heid
    have hfresh : s.engines.length ≤ e' := by
      rw [hunit i hi] at he'
      rcases hsu : (s.shards i).unit with _ | e
      · rw [hsu] at he'
        simp at he'
      · rw [hsu] at he'
        simp only [Option.some_bind] at he'
        rcases hlook e e' he' with ⟨p, hp, hpe, hpv⟩
        have := c3 p hp
        rw [hpv] at this
        exact this.2.1
    have hne : eid ≠ e' := by omega
    simp [List.getD, List.getElem?_set_ne hne]
  · -- mutating a fresh (copy) engine cannot touch a source engine
    intro i hi e hsu e' E he'
    have heN : e < s.engines.length := hWF i hi e hsu
    have hne : e' ≠ e := by omega
    constructor
    · simp [List.getD, List.getElem?_set_ne hne]
    · rw [hext]
      simp [List.getD, List.getElem?_append, heN]

/-- C4 witness: the clone conclusions at the concrete two-qubit register
whose shards share one engine. -/
theorem C4_clone_witness :
    (cloneQUnit cex7).1 = cex7 ∧
      (cloneQUnit cex7).2.2.length = cex7.n ∧
      (∀ i, i < cex7.n →
        (((cloneQUnit cex7).2.2.getD i default).unit = none ↔
          (cex7.shards i).unit = none)) ∧
      (∀ i j, i < cex7.n → j < cex7.n →
        (((cloneQUnit cex7).2.2.getD i default).unit =
            ((cloneQUnit cex7).2.2.getD j default).unit ↔
          (cex7.shards i).unit = (cex7.shards j).unit)) ∧
      (∀ i, i < cex7.n → ∀ e',
        ((cloneQUnit cex7).2.2.getD i default).unit = some e' →
        cex7.engines.length ≤ e' ∧ e' < (cloneQUnit cex7).2.1.length) ∧
      ((cloneQUnit cex7).2.1.take cex7.engines.length = cex7.engines) ∧
      (∀ i, i < cex7.n → ∀ e e', (cex7.shards i).unit = some e →
        ((cloneQUnit cex7).2.2.getD i default).unit = some e' →
        (cloneQUnit cex7).2.1.getD e' default = cex7.engines.getD e default) ∧
      (∀ i, i < cex7.n →
        (cloneQUnit cex7).2.2.getD i default =
          (cex7.shards i).withUnit
            (((cloneQUnit cex7).2.2.getD i default).unit)) ∧
      (∀ i, i < cex7.n → ∀ e',
        ((cloneQUnit cex7).2.2.getD i default).unit = some e' →
        ∀ eid E, eid < cex7.engines.length →
        ((cloneQUnit cex7).2.1.set eid E).getD e' default =
          (cloneQUnit cex7).2.1.getD e' default) ∧
      (∀ i, i < cex7.n → ∀ e, (cex7.shards i).unit = some e →
        ∀ e' E, cex7.engines.length ≤ e' →
        (((cloneQUnit cex7).2.1.set e' E).getD e default =
            (cloneQUnit cex7).2.1.getD e default ∧
          (cloneQUnit cex7).2.1.getD e default =
            cex7.engines.getD e default)) :=
  C4_clone cex7
    (by
      intro i _
      unfold cex7 attachedShard QEngineShard.buffersEmpty
      dsimp only
      split
      · simp
      · split <;> simp)
    (by
      intro i _ e he
      revert he
      unfold cex7 attachedShard
      dsimp only
      split
      · intro he
        injection he with he'
        subst he'
        simp [cex7]
      · split
        · intro he
          injection he with he'
          subst he'
          simp [cex7]
        · intro he
          exact absurd he (by simp))

/-! ## Frame lemmas: the phase stream and the qubit count are never
modified by the embedded operations -/

@[simp]
theorem ite_phases (c : Prop) [Decidable c] (a b : QUnitState) :
    (if c then a else b).phases = if c then a.phases else b.phases := by
  split <;> rfl

@[simp]
theorem ite_n (c : Prop) [Decidable c] (a b : QUnitState) :
    (if c then a else b).n = if c then a.n else b.n := by
  split <;> rfl

@[simp]
theorem rand_phases (s : QUnitState) : s.rand.2.phases = s.phases := rfl

@[simp]
theorem rand_n (s : QUnitState) : s.rand.2.n = s.n := rfl

@[simp]
theorem rand_shards (s : QUnitState) : s.rand.2.shards = s.shards := rfl

@[simp]
theorem getNonunitaryPhase_phases (P : Params) (s : QUnitState) :
    (getNonunitaryPhase P s).2.phases = s.phases := by
  unfold getNonunitaryPhase
  split <;> rfl

@[simp]
theorem getNonunitaryPhase_n (P : Params) (s : QUnitState) :
    (getNonunitaryPhase P s).2.n = s.n := by
  unfold getNonunitaryPhase
  split <;> rfl

@[simp]
theorem getNonunitaryPhase_shards (P : Params) (s : QUnitState) :
    (getNonunitaryPhase P s).2.shards = s.shards := by
  unfold getNonunitaryPhase
  split <;> rfl

@[simp]
theorem setEng_trace (s : QUnitState) (e : ℕ) (E : Engine) :
    (s.setEng e E).trace = s.trace := rfl

@[simp]
theorem applyShardMtrx_phases (s : QUnitState) (q : ℕ) (a b c d : ℂ) :
    (applyShardMtrx s q a b c d).phases = s.phases := by
  unfold applyShardMtrx
  rcases hu : (s.shards q).unit with _ | e <;> simp [hu]

@[simp]
theorem applyShardMtrx_n (s : QUnitState) (q : ℕ) (a b c d : ℂ) :
    (applyShardMtrx s q a b c d).n = s.n := by
  unfold applyShardMtrx
  rcases hu : (s.shards q).unit with _ | e <;> simp [hu]

@[simp]
theorem revertBasis1Qb_phases (s : QUnitState) (q : ℕ) :
    (revertBasis1Qb s q).phases = s.phases := by
  unfold revertBasis1Qb
  cases (s.shards q).pauliBasis <;> simp

@[simp]
theorem revertBasis1Qb_n (s : QUnitState) (q : ℕ) :
    (revertBasis1Qb s q).n = s.n := by
  unfold revertBasis1Qb
  cases (s.shards q).pauliBasis <;> simp

@[simp]
theorem drainBuffers_phases (s : QUnitState) (q : ℕ) (a b c : _) (xc xt : List ℕ) :
    (drainBuffers s q a b c xc xt).phases = s.phases := rfl

@[simp]
theorem drainBuffers_n (s : QUnitState) (q : ℕ) (a b c : _) (xc xt : List ℕ) :
    (drainBuffers s q a b c xc xt).n = s.n := rfl

@[simp]
theorem revertBasis2Qb_phases (s : QUnitState) (q : ℕ) (a b c : _)
    (xc xt : List ℕ) : (revertBasis2Qb s q a b c xc xt).phases = s.phases := by
  unfold revertBasis2Qb
  split <;> rfl

@[simp]
theorem revertBasis2Qb_n (s : QUnitState) (q : ℕ) (a b c : _)
    (xc xt : List ℕ) : (revertBasis2Qb s q a b c xc xt).n = s.n := by
  unfold revertBasis2Qb
  split <;> rfl

@[simp]
theorem flush0Eigenstate_phases (s : QUnitState) (q : ℕ) :
    (flush0Eigenstate s q).phases = s.phases := by
  unfold flush0Eigenstate
  simp

@[simp]
theorem flush0Eigenstate_n (s : QUnitState) (q : ℕ) :
    (flush0Eigenstate s q).n = s.n := by
  unfold flush0Eigenstate
  simp

@[simp]
theorem flush1Eigenstate_phases (s : QUnitState) (q : ℕ) :
    (flush1Eigenstate s q).phases = s.phases := by
  unfold flush1Eigenstate
  simp

@[simp]
theorem flush1Eigenstate_n (s : QUnitState) (q : ℕ) :
    (flush1Eigenstate s q).n = s.n := by
  unfold flush1Eigenstate
  simp

@[simp]
theorem toPermBasisMeasure_phases (s : QUnitState) (q : ℕ) :
    (toPermBasisMeasure s q).phases = s.phases := by
  unfold toPermBasisMeasure
  simp

@[simp]
theorem toPermBasisMeasure_n (s : QUnitState) (q : ℕ) :
    (toPermBasisMeasure s q).n = s.n := by
  unfold toPermBasisMeasure
  simp

@[simp]
theorem toPermBasisProb_phases (s : QUnitState) (q : ℕ) :
    (toPermBasisProb s q).phases = s.phases := by
  unfold toPermBasisProb
  simp

@[simp]
theorem toPermBasisProb_n (s : QUnitState) (q : ℕ) :
    (toPermBasisProb s q).n = s.n := by
  unfold toPermBasisProb
  simp

@[simp]
theorem probBaseU1_phases (P : Params) (s : QUnitState) (q : ℕ) :
    ((probBaseU1 P s q).2).phases = s.phases := by
  unfold probBaseU1
  rcases hu : ((revertBasis1Qb s q).shards q).unit with _ | e <;> simp [hu]

@[simp]
theorem probBaseU1_n (P : Params) (s : QUnitState) (q : ℕ) :
    ((probBaseU1 P s q).2).n = s.n := by
  unfold probBaseU1
  rcases hu : ((revertBasis1Qb s q).shards q).unit with _ | e <;> simp [hu]

@[simp]
theorem separateBitTail_phases (P : Params) (mapped e : ℕ) (s5 : QUnitState) :
    ((separateBitTail P mapped e s5).2).phases = s5.phases := by
  unfold separateBitTail
  dsimp only
  split
  · rfl
  · split <;> simp

@[simp]
theorem separateBitTail_n (P : Params) (mapped e : ℕ) (s5 : QUnitState) :
    ((separateBitTail P mapped e s5).2).n = s5.n := by
  unfold separateBitTail
  dsimp only
  split
  · rfl
  · split <;> simp

@[simp]
theorem separateBitFinish_phases (P : Params) (v : Bool) (q mapped e : ℕ)
    (s : QUnitState) :
    ((separateBitFinish P v q mapped e s).2).phases = s.phases := by
  unfold separateBitFinish
  dsimp only
  rw [separateBitTail_phases]
  split
  · split <;> rfl
  · rfl

@[simp]
theorem separateBitFinish_n (P : Params) (v : Bool) (q mapped e : ℕ)
    (s : QUnitState) :
    ((separateBitFinish P v q mapped e s).2).n = s.n := by
  unfold separateBitFinish
  dsimp only
  rw [separateBitTail_n]
  split
  · split <;> rfl
  · rfl

@[simp]
theorem separateBit_phases (P : Params) (v : Bool) (q : ℕ) (s : QUnitState) :
    ((separateBit P v q s).2).phases = s.phases := by
  unfold separateBit
  dsimp only
  rcases hu : (s.shards q).unit with _ | e
  · simp [hu]
  · simp only [hu]
    split <;> split <;> simp

@[simp]
theorem separateBit_n (P : Params) (v : Bool) (q : ℕ) (s : QUnitState) :
    ((separateBit P v q s).2).n = s.n := by
  unfold separateBit
  dsimp only
  rcases hu : (s.shards q).unit with _ | e
  · simp [hu]
  · simp only [hu]
    split <;> split <;> simp

@[simp]
theorem forceMDraw_phases (s0 : QUnitState) (q : ℕ)
    (res doForce doApply : Bool) :
    ((forceMDraw s0 q res doForce doApply).2).phases = s0.phases := by
  unfold forceMDraw
  rcases hu : (s0.shards q).unit with _ | e
  · simp only [hu]
    split <;> (try split) <;> (try split) <;> simp
  · simp only [hu]
    split <;> split <;> simp

@[simp]
theorem forceMDraw_n (s0 : QUnitState) (q : ℕ)
    (res doForce doApply : Bool) :
    ((forceMDraw s0 q res doForce doApply).2).n = s0.n := by
  unfold forceMDraw
  rcases hu : (s0.shards q).unit with _ | e
  · simp only [hu]
    split <;> (try split) <;> (try split) <;> simp
  · simp only [hu]
    split <;> split <;> simp

@[simp]
theorem forceMApply_phases (P : Params) (result : Bool) (q : ℕ)
    (s1 : QUnitState) :
    ((forceMApply P result q s1).2).phases = s1.phases := by
  unfold forceMApply
  dsimp only
  rcases hu : (s1.shards q).unit with _ | e <;>
    simp only [hu] <;>
    split <;> (try split) <;> (try split) <;> simp_all

@[simp]
theorem forceMApply_n (P : Params) (result : Bool) (q : ℕ)
    (s1 : QUnitState) :
    ((forceMApply P result q s1).2).n = s1.n := by
  unfold forceMApply
  dsimp only
  rcases hu : (s1.shards q).unit with _ | e <;>
    simp only [hu] <;>
    split <;> (try split) <;> (try split) <;> simp_all

@[simp]
theorem forceM_phases (P : Params) (s : QUnitState) (q : ℕ)
    (res doForce doApply : Bool) :
    ((forceM P s q res doForce doApply).2).phases = s.phases := by
  unfold forceM
  dsimp only
  split <;> (try split) <;> simp

@[simp]
theorem forceM_n (P : Params) (s : QUnitState) (q : ℕ)
    (res doForce doApply : Bool) :
    ((forceM P s q res doForce doApply).2).n = s.n := by
  unfold forceM
  dsimp only
  split <;> (try split) <;> simp


/-- A fold whose step preserves a projection of the register state preserves
it overall. -/
theorem foldl_pres {α : Type} {β : Type _} (f : QUnitState → α → QUnitState)
    (g : QUnitState → β) (hf : ∀ st x, g (f st x) = g st) :
    ∀ (l : List α) (s : QUnitState), g (l.foldl f s) = g s := by
  intro l
  induction l with
  | nil => intro s; rfl
  | cons a t ih => intro s; rw [List.foldl_cons, ih, hf]

/-- The accumulator variant of `foldl_pres`. -/
theorem foldl_pres_snd {α : Type} {β : Type _}
    (f : ℕ × QUnitState → α → ℕ × QUnitState) (g : QUnitState → β)
    (hf : ∀ p x, g ((f p x).2) = g p.2) :
    ∀ (l : List α) (p : ℕ × QUnitState), g ((l.foldl f p).2) = g p.2 := by
  intro l
  induction l with
  | nil => intro p; rfl
  | cons a t ih => intro p; rw [List.foldl_cons, ih, hf]

@[simp]
theorem mAllPre_phases (P : Params) (s : QUnitState) :
    (mAllPre P s).phases = s.phases := by
  unfold mAllPre
  dsimp only
  rw [foldl_pres _ QUnitState.phases (fun st x => by split <;> simp [mGate]),
    foldl_pres (fun st i => clearInvertPhase (dumpPhaseBuffers st i) i)
      QUnitState.phases (fun st x => rfl),
    foldl_pres _ QUnitState.phases (fun st x => revertBasis1Qb_phases st x)]

@[simp]
theorem mAllPre_n (P : Params) (s : QUnitState) :
    (mAllPre P s).n = s.n := by
  unfold mAllPre
  dsimp only
  rw [foldl_pres _ QUnitState.n (fun st x => by split <;> simp [mGate]),
    foldl_pres (fun st i => clearInvertPhase (dumpPhaseBuffers st i) i)
      QUnitState.n (fun st x => rfl),
    foldl_pres _ QUnitState.n (fun st x => revertBasis1Qb_n st x)]

@[simp]
theorem mAllStep_phases (P : Params) (a : ℕ × QUnitState) (i : ℕ) :
    ((mAllStep P a i).2).phases = a.2.phases := by
  unfold mAllStep
  dsimp only
  rcases hu : (a.2.shards i).unit with _ | e
  · simp only [hu]
    split <;> (try split) <;> (try split) <;>
      simp [getNonunitaryPhase, QUnitState.rand] <;> split <;> simp
  · simp only [hu]
    simp [mGate]

@[simp]
theorem mAllStep_n (P : Params) (a : ℕ × QUnitState) (i : ℕ) :
    ((mAllStep P a i).2).n = a.2.n := by
  unfold mAllStep
  dsimp only
  rcases hu : (a.2.shards i).unit with _ | e
  · simp only [hu]
    split <;> (try split) <;> (try split) <;>
      simp [getNonunitaryPhase, QUnitState.rand] <;> split <;> simp
  · simp only [hu]
    simp [mGate]

@[simp]
theorem mAllAcc_phases (P : Params) (s : QUnitState) :
    ((mAllAcc P s).2).phases = s.phases := by
  unfold mAllAcc
  rw [foldl_pres_snd (mAllStep P) QUnitState.phases
    (fun p x => mAllStep_phases P p x)]
  simp

@[simp]
theorem mAllAcc_n (P : Params) (s : QUnitState) :
    ((mAllAcc P s).2).n = s.n := by
  unfold mAllAcc
  rw [foldl_pres_snd (mAllStep P) QUnitState.n
    (fun p x => mAllStep_n P p x)]
  simp

/-- C10: after `MAll` returns the permutation `r`, every qubit `i` of the
register is re-initialized by the closing `SetPermutation(r)`: its shard is
detached (`unit` null, `mapped` 0), in basis Z, with both dirty flags
cleared, all four deferred-phase buffers empty, and one-hot amplitudes
matching bit `i` of `r` up to a unit nonunitary phase. -/
theorem C10_mAll (P : Params) (s : QUnitState) (h : unitPhases s) (i : ℕ)
    (hi : i < s.n) :
    (((mAll P s).2).shards i).unit = none ∧
    (((mAll P s).2).shards i).mapped = 0 ∧
    (((mAll P s).2).shards i).pauliBasis = Pauli.Z ∧
    (((mAll P s).2).shards i).isProbDirty = false ∧
    (((mAll P s).2).shards i).isPhaseDirty = false ∧
    (((mAll P s).2).shards i).buffersEmpty ∧
    (if ((mAll P s).1).testBit i then
      (((mAll P s).2).shards i).amp0 = 0 ∧
        cnorm ((((mAll P s).2).shards i).amp1) = 1
    else
      (((mAll P s).2).shards i).amp1 = 0 ∧
        cnorm ((((mAll P s).2).shards i).amp0) = 1) := by
  have hn : ((mAllAcc P s).2).n = s.n := mAllAcc_n P s
  have hph : ((mAllAcc P s).2).phases = s.phases := mAllAcc_phases P s
  have hsh : ((mAll P s).2).shards i =
      mkEigenShard (((mAllAcc P s).1).testBit i)
        (if P.randGlobalPhase then
          ((mAllAcc P s).2).phases (((mAllAcc P s).2).phI + i) else 1) := by
    unfold mAll setPermutation
    simp [hn, hi]
  have hr : (mAll P s).1 = (mAllAcc P s).1 := rfl
  have hcn : cnorm (if P.randGlobalPhase then
      s.phases (((mAllAcc P s).2).phI + i) else 1) = 1 := by
    split
    · exact h _
    · simp [cnorm]
  rw [hsh, hr]
  cases hb : ((mAllAcc P s).1).testBit i <;>
    simp [mkEigenShard, QEngineShard.buffersEmpty, hb, hcn]

/-- C10 witness: the theorem at a concrete two-qubit register with a unit
phase stream. -/
theorem C10_mAll_witness :
    unitPhases resetState2 ∧ 0 < resetState2.n ∧
      (((mAll P0 resetState2).2).shards 0).unit = none :=
  ⟨fun k => by simp [resetState2, cnorm],
    by norm_num [resetState2],
    (C10_mAll P0 resetState2 (fun k => by simp [resetState2, cnorm]) 0
      (by norm_num [resetState2])).1⟩

/-! ## Claim C1 — ForceM collapse -/

@[simp]
theorem rand_engines (s : QUnitState) : s.rand.2.engines = s.engines := rfl

@[simp]
theorem getNonunitaryPhase_engines (P : Params) (s : QUnitState) :
    (getNonunitaryPhase P s).2.engines = s.engines := by
  unfold getNonunitaryPhase
  split <;> rfl

@[simp]
theorem setEng_engines_length (s : QUnitState) (e : ℕ) (E : Engine) :
    (s.setEng e E).engines.length = s.engines.length := by
  simp [QUnitState.setEng]

/-- Reading back the engine just written, inside the heap. -/
theorem setEng_eng_self (s : QUnitState) (e : ℕ) (E : Engine)
    (he : e < s.engines.length) : (s.setEng e E).eng e = E := by
  simp [QUnitState.setEng, QUnitState.eng, List.getD]
  rw [List.getElem?_set_self (by simpa using he)]
  rfl

@[simp]
theorem forceM1_n (e : Engine) (q : ℕ) (r : Bool) :
    (e.forceM1 q r).n = e.n := rfl

@[simp]
theorem dispose1_n (e : Engine) (q : ℕ) (b : Bool) :
    (e.dispose1 q b).n = e.n - 1 := rfl

@[simp]
theorem normalize_n (e : Engine) : e.normalize.n = e.n := rfl

/-- The magnitude of a drawn nonunitary phase is 1 under a unit phase
stream. -/
theorem cnorm_getNonunitaryPhase (P : Params) (s : QUnitState)
    (h : unitPhases s) : cnorm (getNonunitaryPhase P s).1 = 1 := by
  unfold getNonunitaryPhase
  split
  · exact h _
  · simp [cnorm]

/-- The result-drawing stage never moves a shard. -/
@[simp]
theorem forceMDraw_shards (s : QUnitState) (q : ℕ) (res f a : Bool) :
    ((forceMDraw s q res f a).2).shards = s.shards := by
  unfold forceMDraw
  rcases hu : (s.shards q).unit with _ | e
  · simp only [hu]
    split <;> (try split) <;> (try split) <;> simp
  · simp only [hu]
    split <;> split <;> simp

/-- A forced draw returns the forced value. -/
theorem forceMDraw_forced_result (s : QUnitState) (q : ℕ) (res a : Bool) :
    (forceMDraw s q res true a).1 = res := by
  unfold forceMDraw
  rcases hu : (s.shards q).unit with _ | e
  · simp [hu]
  · simp only [hu]
    split <;> rfl

/-- The heap size is stable across the draw. -/
@[simp]
theorem forceMDraw_engines_length (s : QUnitState) (q : ℕ) (res f a : Bool) :
    ((forceMDraw s q res f a).2).engines.length = s.engines.length := by
  unfold forceMDraw
  rcases hu : (s.shards q).unit with _ | e
  · simp only [hu]
    split <;> (try split) <;> (try split) <;> simp
  · simp only [hu]
    split <;> split <;> simp [QUnitState.setEng, QUnitState.log]

/-- A forced, applied draw on an attached shard collapses exactly that
engine. -/
theorem forceMDraw_eng_forced (s : QUnitState) (q e : ℕ) (res : Bool)
    (hu : (s.shards q).unit = some e) (he : e < s.engines.length) :
    ((forceMDraw s q res true true).2).eng e =
      (s.eng e).forceM1 (s.shards q).mapped res := by
  unfold forceMDraw
  simp only [hu, if_true, ite_true]
  rw [setEng_eng_self]
  · rw [log_eng]
  · simpa [QUnitState.log] using he

/-- The post-measurement stage returns the drawn result unchanged. -/
theorem forceMApply_result (P : Params) (r : Bool) (q : ℕ) (s1 : QUnitState) :
    (forceMApply P r q s1).1 = r := by
  unfold forceMApply
  dsimp only
  split <;> split <;> rfl

/-- `ClampAmps` leaves the probability-dirty flag alone. -/
theorem clampAmps_isProbDirty (P : Params) (sh : QEngineShard) :
    (QEngineShard.clampAmps P sh).isProbDirty = sh.isProbDirty := by
  unfold QEngineShard.clampAmps
  split <;> (try split) <;> rfl

/-- `ClampAmps` leaves the phase-dirty flag alone. -/
theorem clampAmps_isPhaseDirty (P : Params) (sh : QEngineShard) :
    (QEngineShard.clampAmps P sh).isPhaseDirty = sh.isPhaseDirty := by
  unfold QEngineShard.clampAmps
  split <;> (try split) <;> rfl

/-- `ProbBase` on an attached one-qubit engine clears both dirty flags of
the shard. -/
theorem probBaseU1_clean (P : Params) (s : QUnitState) (q : ℕ)
    (h : ((s.shards q).unit).isSome) :
    ((((probBaseU1 P s q).2).shards q).isProbDirty = false) ∧
      ((((probBaseU1 P s q).2).shards q).isPhaseDirty = false) := by
  unfold probBaseU1
  rcases hu : ((revertBasis1Qb s q).shards q).unit with _ | e
  · rw [revertBasis1Qb_unit] at hu
    rw [hu] at h
    simp at h
  · simp only [hu, setShard_shards, Function.update_same]
    rw [clampAmps_isProbDirty, clampAmps_isPhaseDirty]
    exact ⟨rfl, rfl⟩

/-- The drain changes only buffer fields of each shard. -/
theorem drainBuffers_flags (s : QUnitState) (q : ℕ) (excl : RevertExclusivity)
    (ce : RevertControl) (ae : RevertAnti) (xc xt : List ℕ) (i : ℕ) :
    (((drainBuffers s q excl ce ae xc xt).shards i).isProbDirty =
        (s.shards i).isProbDirty) ∧
    (((drainBuffers s q excl ce ae xc xt).shards i).isPhaseDirty =
        (s.shards i).isPhaseDirty) ∧
    (((drainBuffers s q excl ce ae xc xt).shards i).unit = (s.shards i).unit) := by
  unfold drainBuffers
  dsimp only
  by_cases hiq : i = q <;> simp [hiq, QUnitState.log]

/-- `RevertBasis2Qb` changes only buffer fields of each shard. -/
theorem revertBasis2Qb_flags (s : QUnitState) (q : ℕ)
    (excl : RevertExclusivity) (ce : RevertControl) (ae : RevertAnti)
    (xc xt : List ℕ) (i : ℕ) :
    (((revertBasis2Qb s q excl ce ae xc xt).shards i).isProbDirty =
        (s.shards i).isProbDirty) ∧
    (((revertBasis2Qb s q excl ce ae xc xt).shards i).isPhaseDirty =
        (s.shards i).isPhaseDirty) ∧
    (((revertBasis2Qb s q excl ce ae xc xt).shards i).unit =
        (s.shards i).unit) := by
  unfold revertBasis2Qb
  split
  · exact ⟨rfl, rfl, rfl⟩
  · exact drainBuffers_flags s q excl ce ae xc xt i

/-- `Flush0Eigenstate` changes only buffer fields: dirty flags and the
attachment of every shard survive. -/
theorem flush0Eigenstate_flags (s : QUnitState) (q i : ℕ) :
    (((flush0Eigenstate s q).shards i).isProbDirty = (s.shards i).isProbDirty) ∧
    (((flush0Eigenstate s q).shards i).isPhaseDirty = (s.shards i).isPhaseDirty) ∧
    (((flush0Eigenstate s q).shards i).unit = (s.shards i).unit) := by
  unfold flush0Eigenstate
  dsimp only
  refine ⟨?_, ?_, ?_⟩
  · rw [(revertBasis2Qb_flags _ _ _ _ _ _ _ i).1]
    by_cases hiq : i = q <;> simp [hiq]
  · rw [(revertBasis2Qb_flags _ _ _ _ _ _ _ i).2.1]
    by_cases hiq : i = q <;> simp [hiq]
  · rw [(revertBasis2Qb_flags _ _ _ _ _ _ _ i).2.2]
    by_cases hiq : i = q <;> simp [hiq]

/-- `Flush1Eigenstate` changes only buffer fields. -/
theorem flush1Eigenstate_flags (s : QUnitState) (q i : ℕ) :
    (((flush1Eigenstate s q).shards i).isProbDirty = (s.shards i).isProbDirty) ∧
    (((flush1Eigenstate s q).shards i).isPhaseDirty = (s.shards i).isPhaseDirty) ∧
    (((flush1Eigenstate s q).shards i).unit = (s.shards i).unit) := by
  unfold flush1Eigenstate
  dsimp only
  refine ⟨?_, ?_, ?_⟩
  · rw [(revertBasis2Qb_flags _ _ _ _ _ _ _ i).1]
    by_cases hiq : i = q <;> simp [hiq]
  · rw [(revertBasis2Qb_flags _ _ _ _ _ _ _ i).2.1]
    by_cases hiq : i = q <;> simp [hiq]
  · rw [(revertBasis2Qb_flags _ _ _ _ _ _ _ i).2.2]
    by_cases hiq : i = q <;> simp [hiq]

/-- `Flush0Eigenstate` is inert on a shard with no buffered records. -/
theorem flush0Eigenstate_shards_q_of_empty (s : QUnitState) (q : ℕ)
    (h : (s.shards q).buffersEmpty) :
    (flush0Eigenstate s q).shards q = s.shards q := by
  obtain ⟨h1, h2, h3, h4⟩ := h
  unfold flush0Eigenstate
  rw [revertBasis2Qb_of_empty]
  · simp only [ite_true, if_pos rfl]
    rw [← h2]
  · apply queuedPhase_eq_false_of_empty
    refine ⟨?_, ?_, ?_, ?_⟩ <;> simp [h1, h2, h3, h4]

/-- `Flush1Eigenstate` is inert on a shard with no buffered records. -/
theorem flush1Eigenstate_shards_q_of_empty (s : QUnitState) (q : ℕ)
    (h : (s.shards q).buffersEmpty) :
    (flush1Eigenstate s q).shards q = s.shards q := by
  obtain ⟨h1, h2, h3, h4⟩ := h
  unfold flush1Eigenstate
  rw [revertBasis2Qb_of_empty]
  · simp only [ite_true, if_pos rfl]
    rw [← h4]
  · apply queuedPhase_eq_false_of_empty
    refine ⟨?_, ?_, ?_, ?_⟩ <;> simp [h1, h2, h3, h4]

/-- When the engine still holds several qubits, `separateBitTail` only
relabels the sibling mappings. -/
theorem separateBitTail_shards_of_ne1 (P : Params) (mapped e : ℕ)
    (s5 : QUnitState) (h : (s5.eng e).n ≠ 1) (i : ℕ) :
    ((separateBitTail P mapped e s5).2).shards i =
      if (s5.shards i).unit = some e ∧ (s5.shards i).mapped > mapped then
        { s5.shards i with mapped := (s5.shards i).mapped - 1 }
      else s5.shards i := by
  unfold separateBitTail
  dsimp only
  split
  · rfl
  · rename_i hc
    exact absurd h hc

/-- `separateBitFinish` out of an engine of three or more qubits: every
shard keeps its fields, with sibling mappings above the disposed index
shifted down. -/
theorem separateBitFinish_shards_of_big (P : Params) (v : Bool)
    (q mapped e : ℕ) (s : QUnitState) (he : e < s.engines.length)
    (hn : 3 ≤ (s.eng e).n) (i : ℕ) :
    ((separateBitFinish P v q mapped e s).2).shards i =
      if (s.shards i).unit = some e ∧ (s.shards i).mapped > mapped then
        { s.shards i with mapped := (s.shards i).mapped - 1 }
      else s.shards i := by
  unfold separateBitFinish
  dsimp only
  have he3 : e < ((s.log (EngOp.prob e ((s.shards q).mapped))).engines).length := by
    simpa [QUnitState.log] using he
  split
  · split
    · rw [separateBitTail_shards_of_ne1]
      · simp [QUnitState.setEng, QUnitState.log]
      · rw [log_eng, setEng_eng_self]
        · simp only [normalize_n]
          rw [log_eng, log_eng, setEng_eng_self _ _ _ he3]
          simp only [dispose1_n, log_eng]
          omega
        · simpa [QUnitState.setEng, QUnitState.log] using he
    · rw [separateBitTail_shards_of_ne1]
      · simp [QUnitState.setEng, QUnitState.log]
      · rw [log_eng, log_eng, setEng_eng_self _ _ _ he3]
        simp only [dispose1_n, log_eng]
        omega
  · rw [separateBitTail_shards_of_ne1]
    · simp [QUnitState.setEng, QUnitState.log]
    · rw [log_eng, setEng_eng_self _ _ _ he3]
      simp only [dispose1_n, log_eng]
      omega

/-- `find?` only depends on the predicate values on the list. -/
theorem find?_ext {α : Type} (p q : α → Bool) (l : List α)
    (h : ∀ x ∈ l, p x = q x) : l.find? p = l.find? q := by
  induction l with
  | nil => rfl
  | cons a t ih =>
      have ha := h a (by simp)
      rw [List.find?_cons, List.find?_cons, ha]
      cases hqa : q a
      · simp only [hqa, cond_false]
        exact ih fun x hx => h x (by simp [hx])
      · simp only [hqa, cond_true]

/-- When the engine is down to one qubit, `separateBitTail` detaches the
remaining attached shard through `ProbBase`, clearing its dirty flags. -/
theorem separateBitTail_sibling_1qb (P : Params) (mapped e j : ℕ)
    (s5 : QUnitState) (h1 : (s5.eng e).n = 1)
    (hfind : (List.range s5.n).find?
      (fun k => (s5.shards k).unit == some e) = some j) :
    ((((separateBitTail P mapped e s5).2).shards j).unit = none) ∧
    ((((separateBitTail P mapped e s5).2).shards j).isProbDirty = false) ∧
    ((((separateBitTail P mapped e s5).2).shards j).isPhaseDirty = false) := by
  unfold separateBitTail
  dsimp only
  split
  · rename_i hc
    exact absurd h1 hc
  · split
    · rename_i j' hj'
      have hp := List.find?_some hj'
      rw [find?_ext _ (fun k => (s5.shards k).unit == some e) _
        (fun x _ => by split <;> rfl), hfind] at hj'
      have hjj : j' = j := by
        injection hj' with hx
        exact hx.symm
      subst hjj
      have hsome : ((({ s5 with
          shards := fun i =>
            if (s5.shards i).unit = some e ∧ (s5.shards i).mapped > mapped then
              { s5.shards i with mapped := (s5.shards i).mapped - 1 }
            else s5.shards i } : QUnitState).shards j').unit).isSome := by
        rw [beq_iff_eq] at hp
        rw [hp]
        rfl
      exact ⟨probBaseU1_detaches P _ j', (probBaseU1_clean P _ j' hsome).1,
        (probBaseU1_clean P _ j' hsome).2⟩
    · rename_i hnone
      rw [find?_ext _ (fun k => (s5.shards k).unit == some e) _
        (fun x _ => by split <;> rfl), hfind] at hnone
      exact absurd hnone (by simp)

/-- `separateBitFinish` out of a two-qubit engine: the lone remaining
attached shard ends detached with both dirty flags cleared. -/
theorem separateBitFinish_sibling_2qb (P : Params) (v : Bool)
    (q mapped e j : ℕ) (s : QUnitState) (he : e < s.engines.length)
    (hn : (s.eng e).n = 2)
    (hfind : (List.range s.n).find?
      (fun k => (s.shards k).unit == some e) = some j) :
    ((((separateBitFinish P v q mapped e s).2).shards j).unit = none) ∧
    ((((separateBitFinish P v q mapped e s).2).shards j).isProbDirty = false) ∧
    ((((separateBitFinish P v q mapped e s).2).shards j).isPhaseDirty = false) := by
  unfold separateBitFinish
  dsimp only
  have he3 : e < ((s.log (EngOp.prob e ((s.shards q).mapped))).engines).length := by
    simpa [QUnitState.log] using he
  split
  · split
    · refine separateBitTail_sibling_1qb P mapped e j _ ?_ ?_
      · rw [log_eng, setEng_eng_self]
        · simp only [normalize_n]
          rw [log_eng, log_eng, setEng_eng_self _ _ _ he3]
          simp only [dispose1_n, log_eng]
          rw [hn]
        · simpa [QUnitState.setEng, QUnitState.log] using he
      · exact hfind
    · refine separateBitTail_sibling_1qb P mapped e j _ ?_ ?_
      · rw [log_eng, log_eng, setEng_eng_self _ _ _ he3]
        simp only [dispose1_n, log_eng]
        rw [hn]
      · exact hfind
  · refine separateBitTail_sibling_1qb P mapped e j _ ?_ ?_
    · rw [log_eng, setEng_eng_self _ _ _ he3]
      simp only [dispose1_n, log_eng]
      rw [hn]
    · exact hfind

/-- `find?` over `range n` returns the least index satisfying `p`. -/
theorem find?_range_eq_some_of (p : ℕ → Bool) (n j : ℕ) (hj : j < n)
    (hpj : p j = true) (hlt : ∀ k < j, p k = false) :
    (List.range n).find? p = some j := by
  have hn' : n = j + (n - j) := by omega
  rw [hn', List.range_add, find?_append_of_neg]
  · obtain ⟨m, hm⟩ : ∃ m, n - j = m + 1 := ⟨n - j - 1, by omega⟩
    rw [hm, List.range_succ_eq_map, List.map_cons, List.find?_cons]
    simp [hpj]
  · intro x hx
    rw [List.mem_range] at hx
    simp [hlt x hx]

/-- A forced, applied `ForceM` on a Z-basis shard with no queued records
factors as the draw followed by the post-measurement update. -/
theorem forceM_forced_apply (P : Params) (s : QUnitState) (q : ℕ) (res : Bool)
    (hZ : (s.shards q).pauliBasis = Pauli.Z)
    (hB : (s.shards q).queuedPhase = false) :
    forceM P s q res true true =
      forceMApply P res q ((forceMDraw s q res true true).2) := by
  unfold forceM
  dsimp only
  rw [if_pos rfl, revertBasis1Qb_of_basisZ s q hZ,
    revertBasis2Qb_of_empty s q _ _ _ _ _ hB, if_neg (by simp),
    forceMDraw_forced_result]

/-- `SeparateBit` rewrites the measured shard to detached one-hot form with
a fresh nonunitary phase, regardless of the engine path taken. -/
theorem separateBit_shard_q (P : Params) (v : Bool) (q : ℕ) (s : QUnitState) :
    ((separateBit P v q s).2).shards q =
      { s.shards q with
        unit := none
        mapped := 0
        isProbDirty := false
        isPhaseDirty := false
        amp0 := if v then 0 else (getNonunitaryPhase P s).1
        amp1 := if v then (getNonunitaryPhase P s).1 else 0 } := by
  unfold separateBit
  dsimp only
  rcases hu : (s.shards q).unit with _ | e
  · simp [hu]
  · simp only [hu, setShard_eng]
    split
    · simp
    · rw [separateBitFinish_preserves_q _ _ _ _ _ _ (by simp)]
      simp

/-- After the post-measurement stage, the measured shard is detached, clean,
basis-preserved, buffer-free and one-hot on the result with a unit-norm
amplitude. -/
theorem forceMApply_shard_q4 (P : Params) (r : Bool) (q : ℕ) (s1 : QUnitState)
    (h : unitPhases s1) (hbe : (s1.shards q).buffersEmpty) :
    (((forceMApply P r q s1).2).shards q).unit = none ∧
    (((forceMApply P r q s1).2).shards q).mapped = 0 ∧
    (((forceMApply P r q s1).2).shards q).isProbDirty = false ∧
    (((forceMApply P r q s1).2).shards q).isPhaseDirty = false ∧
    (((forceMApply P r q s1).2).shards q).pauliBasis =
      (s1.shards q).pauliBasis ∧
    (((forceMApply P r q s1).2).shards q).buffersEmpty ∧
    (if r = true then
      (((forceMApply P r q s1).2).shards q).amp0 = 0 ∧
        cnorm ((((forceMApply P r q s1).2).shards q).amp1) = 1
     else
      (((forceMApply P r q s1).2).shards q).amp1 = 0 ∧
        cnorm ((((forceMApply P r q s1).2).shards q).amp0) = 1) := by
  unfold forceMApply
  dsimp only
  cases r
  · simp only [Bool.false_eq_true, if_false]
    split
    · rw [flush0Eigenstate_shards_q_of_empty]
      · refine ⟨by simp, by simp, by simp, by simp, by simp, ?_, by simp, ?_⟩
        · refine ⟨?_, ?_, ?_, ?_⟩ <;>
            simp [hbe.1, hbe.2.1, hbe.2.2.1, hbe.2.2.2]
        · simp only [setShard_shards, Function.update_same]
          exact cnorm_getNonunitaryPhase P s1 h
      · refine ⟨?_, ?_, ?_, ?_⟩ <;>
          simp [hbe.1, hbe.2.1, hbe.2.2.1, hbe.2.2.2]
    · rename_i hsqc
      rcases hu2 : (s1.shards q).unit with _ | e
      · exact absurd (by simp [shardQubitCount, hu2]) hsqc
      · simp only [hu2]
        rw [flush0Eigenstate_shards_q_of_empty]
        · rw [separateBit_shard_q]
          refine ⟨by simp, by simp, by simp, by simp, ?_, ?_, by simp, ?_⟩
          · simp [hu2]
          · refine ⟨?_, ?_, ?_, ?_⟩ <;>
              simp [hu2, hbe.1, hbe.2.1, hbe.2.2.1, hbe.2.2.2]
          · simp only [if_neg (by simp : ¬False)]
            apply cnorm_getNonunitaryPhase
            intro k
            simp only [setShard_phases, getNonunitaryPhase_phases]
            exact h k
        · rw [separateBit_shard_q]
          refine ⟨?_, ?_, ?_, ?_⟩ <;>
            simp [hu2, hbe.1, hbe.2.1, hbe.2.2.1, hbe.2.2.2]
  · simp only [eq_self_iff_true, if_true]
    split
    · rw [flush1Eigenstate_shards_q_of_empty]
      · refine ⟨by simp, by simp, by simp, by simp, by simp, ?_, by simp, ?_⟩
        · refine ⟨?_, ?_, ?_, ?_⟩ <;>
            simp [hbe.1, hbe.2.1, hbe.2.2.1, hbe.2.2.2]
        · simp only [setShard_shards, Function.update_same]
          exact cnorm_getNonunitaryPhase P s1 h
      · refine ⟨?_, ?_, ?_, ?_⟩ <;>
          simp [hbe.1, hbe.2.1, hbe.2.2.1, hbe.2.2.2]
    · rename_i hsqc
      rcases hu2 : (s1.shards q).unit with _ | e
      · exact absurd (by simp [shardQubitCount, hu2]) hsqc
      · simp only [hu2]
        rw [flush1Eigenstate_shards_q_of_empty]
        · rw [separateBit_shard_q]
          refine ⟨by simp, by simp, by simp, by simp, ?_, ?_, by simp, ?_⟩
          · simp [hu2]
          · refine ⟨?_, ?_, ?_, ?_⟩ <;>
              simp [hu2, hbe.1, hbe.2.1, hbe.2.2.1, hbe.2.2.2]
          · apply cnorm_getNonunitaryPhase
            intro k
            simp only [setShard_phases, getNonunitaryPhase_phases]
            exact h k
        · rw [separateBit_shard_q]
          refine ⟨?_, ?_, ?_, ?_⟩ <;>
            simp [hu2, hbe.1, hbe.2.1, hbe.2.2.1, hbe.2.2.2]

/-- `SeparateBit` out of an engine of three or more qubits only relabels
the sibling mappings; fields other than `mapped` survive on every other
shard. -/
theorem separateBit_shards_ne_of_big (P : Params) (v : Bool) (q e i : ℕ)
    (s : QUnitState) (hu : (s.shards q).unit = some e)
    (he : e < s.engines.length) (hn : 3 ≤ (s.eng e).n) (hiq : i ≠ q) :
    ((separateBit P v q s).2).shards i =
      if (s.shards i).unit = some e ∧
          (s.shards i).mapped > (s.shards q).mapped then
        { s.shards i with mapped := (s.shards i).mapped - 1 }
      else s.shards i := by
  have hee : ∀ sh, (((getNonunitaryPhase P s).2.setShard q sh).eng e) = s.eng e :=
    fun sh => by simp [QUnitState.eng]
  have hel : ∀ sh,
      ((((getNonunitaryPhase P s).2.setShard q sh).engines).length =
        s.engines.length) := fun sh => by simp [QUnitState.setShard]
  unfold separateBit
  dsimp only
  simp only [hu]
  cases v
  case false =>
    simp only [Bool.false_eq_true, if_false]
    split
    · rename_i h1
      rw [hee] at h1
      exact absurd h1 (by omega)
    · rw [separateBitFinish_shards_of_big]
      · simp [Function.update_noteq hiq]
      · rw [hel]
        exact he
      · rw [hee]
        exact hn
  case true =>
    simp only [eq_self_iff_true, if_true]
    split
    · rename_i h1
      rw [hee] at h1
      exact absurd h1 (by omega)
    · rw [separateBitFinish_shards_of_big]
      · simp [Function.update_noteq hiq]
      · rw [hel]
        exact he
      · rw [hee]
        exact hn

/-- The post-measurement stage on an attached shard of an engine of three
or more qubits marks every sibling shard dirty. -/
theorem forceMApply_sibling_dirty (P : Params) (r : Bool) (q e i : ℕ)
    (s1 : QUnitState) (hu : (s1.shards q).unit = some e)
    (he : e < s1.engines.length) (hn : 3 ≤ (s1.eng e).n)
    (hiq : i ≠ q) (hi : (s1.shards i).unit = some e) :
    (((forceMApply P r q s1).2).shards i).isProbDirty = true ∧
    (((forceMApply P r q s1).2).shards i).isPhaseDirty = true := by
  have hee : ∀ sh, (((getNonunitaryPhase P s1).2.setShard q sh).eng e) =
      s1.eng e := fun sh => by simp [QUnitState.eng]
  unfold forceMApply
  dsimp only
  rw [if_neg ?hbig]
  case hbig =>
    intro hcontra
    simp only [shardQubitCount] at hcontra
    (try dsimp only at hcontra)
    rw [hu] at hcontra
    (try dsimp only at hcontra)
    rw [hee] at hcontra
    omega
  simp only [hu]
  split
  · rw [(flush1Eigenstate_flags _ _ _).1, (flush1Eigenstate_flags _ _ _).2.1]
    rw [separateBit_shards_ne_of_big P r q e i _ ?h1 ?h2 ?h3 hiq]
    · constructor <;> split <;>
        simp [Function.update_noteq hiq, hiq, hi, QEngineShard.makeDirty]
    case h1 => simp [hiq, hu]
    case h2 => simpa [QUnitState.setShard] using he
    case h3 =>
      rw [show ∀ X : QUnitState, ∀ f, ({ X with shards := f } : QUnitState).eng e = X.eng e
        from fun X f => rfl]
      rw [hee]
      exact hn
  · rw [(flush0Eigenstate_flags _ _ _).1, (flush0Eigenstate_flags _ _ _).2.1]
    rw [separateBit_shards_ne_of_big P r q e i _ ?h4 ?h5 ?h6 hiq]
    · constructor <;> split <;>
        simp [Function.update_noteq hiq, hiq, hi, QEngineShard.makeDirty]
    case h4 => simp [hiq, hu]
    case h5 => simpa [QUnitState.setShard] using he
    case h6 =>
      rw [show ∀ X : QUnitState, ∀ f, ({ X with shards := f } : QUnitState).eng e = X.eng e
        from fun X f => rfl]
      rw [hee]
      exact hn

/-- `SeparateBit` out of a two-qubit engine: the lone remaining sibling is
itself detached by the `ProbBase` re-entry, with both dirty flags cleared. -/
theorem separateBit_sibling_2qb (P : Params) (v : Bool) (q e j : ℕ)
    (s : QUnitState) (hu : (s.shards q).unit = some e)
    (he : e < s.engines.length) (hn : (s.eng e).n = 2)
    (hjq : j ≠ q) (hjn : j < s.n) (hj : (s.shards j).unit = some e)
    (hlt : ∀ k < j, k ≠ q → (s.shards k).unit ≠ some e) :
    ((((separateBit P v q s).2).shards j).unit = none) ∧
    ((((separateBit P v q s).2).shards j).isProbDirty = false) ∧
    ((((separateBit P v q s).2).shards j).isPhaseDirty = false) := by
  have hee : ∀ sh, (((getNonunitaryPhase P s).2.setShard q sh).eng e) = s.eng e :=
    fun sh => by simp [QUnitState.eng]
  have hel : ∀ sh,
      ((((getNonunitaryPhase P s).2.setShard q sh).engines).length =
        s.engines.length) := fun sh => by simp [QUnitState.setShard]
  unfold separateBit
  dsimp only
  simp only [hu]
  cases v
  case false =>
    simp only [Bool.false_eq_true, if_false]
    split
    · rename_i h1
      rw [hee, hn] at h1
      exact absurd h1 (by norm_num)
    · refine separateBitFinish_sibling_2qb P false q _ e j _ ?_ ?_ ?_
      · rw [hel]
        exact he
      · rw [hee]
        exact hn
      · apply find?_range_eq_some_of
        · simpa using hjn
        · simp [Function.update_noteq hjq, hj]
        · intro k hk
          by_cases hkq : k = q
          · subst hkq
            simp
          · simp only [setShard_shards, Function.update_noteq hkq,
              getNonunitaryPhase_shards]
            simp [beq_eq_false_iff_ne]
            exact hlt k hk hkq
  case true =>
    simp only [eq_self_iff_true, if_true]
    split
    · rename_i h1
      rw [hee, hn] at h1
      exact absurd h1 (by norm_num)
    · refine separateBitFinish_sibling_2qb P true q _ e j _ ?_ ?_ ?_
      · rw [hel]
        exact he
      · rw [hee]
        exact hn
      · apply find?_range_eq_some_of
        · simpa using hjn
        · simp [Function.update_noteq hjq, hj]
        · intro k hk
          by_cases hkq : k = q
          · subst hkq
            simp
          · simp only [setShard_shards, Function.update_noteq hkq,
              getNonunitaryPhase_shards]
            simp [beq_eq_false_iff_ne]
            exact hlt k hk hkq

/-- The post-measurement stage on an attached shard of a two-qubit engine:
the lone sibling ends detached with both dirty flags cleared. -/
theorem forceMApply_sibling_2qb (P : Params) (r : Bool) (q e j : ℕ)
    (s1 : QUnitState) (hu : (s1.shards q).unit = some e)
    (he : e < s1.engines.length) (hn : (s1.eng e).n = 2)
    (hjq : j ≠ q) (hjn : j < s1.n) (hj : (s1.shards j).unit = some e)
    (hlt : ∀ k < j, k ≠ q → (s1.shards k).unit ≠ some e) :
    (((forceMApply P r q s1).2).shards j).unit = none ∧
    (((forceMApply P r q s1).2).shards j).isProbDirty = false ∧
    (((forceMApply P r q s1).2).shards j).isPhaseDirty = false := by
  have hee : ∀ sh, (((getNonunitaryPhase P s1).2.setShard q sh).eng e) =
      s1.eng e := fun sh => by simp [QUnitState.eng]
  unfold forceMApply
  dsimp only
  rw [if_neg ?hbig]
  case hbig =>
    intro hcontra
    simp only [shardQubitCount] at hcontra
    (try dsimp only at hcontra)
    rw [hu] at hcontra
    (try dsimp only at hcontra)
    rw [hee] at hcontra
    rw [hn] at hcontra
    exact absurd hcontra (by norm_num)
  simp only [hu]
  split
  · have h3 := separateBit_sibling_2qb P r q e j ?SD1 ?c1 ?c2 ?c3 hjq ?c4 ?c5 ?c6
    refine ⟨?_, ?_, ?_⟩
    · rw [(flush1Eigenstate_flags _ _ _).2.2]
      exact h3.1
    · rw [(flush1Eigenstate_flags _ _ _).1]
      exact h3.2.1
    · rw [(flush1Eigenstate_flags _ _ _).2.1]
      exact h3.2.2
    case c1 => simp [hu]
    case c2 => simpa using he
    case c3 => simpa [QUnitState.eng] using hn
    case c4 => simpa using hjn
    case c5 => simp [hjq, Function.update_noteq hjq, hj, QEngineShard.makeDirty]
    case c6 =>
      intro k hk hkq
      have hl := hlt k hk hkq
      simp only [setShard_shards, getNonunitaryPhase_shards]
      split <;>
        simpa [QEngineShard.makeDirty, Function.update_noteq hkq] using hl
  · have h3 := separateBit_sibling_2qb P r q e j ?SD2 ?d1 ?d2 ?d3 hjq ?d4 ?d5 ?d6
    refine ⟨?_, ?_, ?_⟩
    · rw [(flush0Eigenstate_flags _ _ _).2.2]
      exact h3.1
    · rw [(flush0Eigenstate_flags _ _ _).1]
      exact h3.2.1
    · rw [(flush0Eigenstate_flags _ _ _).2.1]
      exact h3.2.2
    case d1 => simp [hu]
    case d2 => simpa using he
    case d3 => simpa [QUnitState.eng] using hn
    case d4 => simpa using hjn
    case d5 => simp [hjq, Function.update_noteq hjq, hj, QEngineShard.makeDirty]
    case d6 =>
      intro k hk hkq
      have hl := hlt k hk hkq
      simp only [setShard_shards, getNonunitaryPhase_shards]
      split <;>
        simpa [QEngineShard.makeDirty, Function.update_noteq hkq] using hl

/-- A forced, applied measurement on a shard of a two-qubit engine leaves
the lone sibling detached and clean — not dirty. -/
theorem forceM_sibling_2qb (P : Params) (s : QUnitState) (q e j : ℕ)
    (res : Bool)
    (hZ : (s.shards q).pauliBasis = Pauli.Z)
    (hB : (s.shards q).queuedPhase = false)
    (hu : (s.shards q).unit = some e)
    (he : e < s.engines.length)
    (hn : (s.eng e).n = 2)
    (hjq : j ≠ q) (hjn : j < s.n)
    (hj : (s.shards j).unit = some e)
    (hlt : ∀ k < j, k ≠ q → (s.shards k).unit ≠ some e) :
    (((forceM P s q res true true).2).shards j).unit = none ∧
    (((forceM P s q res true true).2).shards j).isProbDirty = false ∧
    (((forceM P s q res true true).2).shards j).isPhaseDirty = false := by
  rw [forceM_forced_apply P s q res hZ hB]
  refine forceMApply_sibling_2qb P res q e j _ ?_ ?_ ?_ hjq ?_ ?_ ?_
  · rw [forceMDraw_shards]
    exact hu
  · rw [forceMDraw_engines_length]
    exact he
  · rw [forceMDraw_eng_forced s q e res hu he]
    simpa using hn
  · simpa using hjn
  · rw [forceMDraw_shards]
    exact hj
  · intro k hk hkq
    rw [forceMDraw_shards]
    exact hlt k hk hkq

/-- An applied `ForceM` on a Z-basis shard with no queued records factors
through the draw and the post-measurement update, for either `doForce`. -/
theorem forceM_apply_factor (P : Params) (s : QUnitState) (q : ℕ)
    (res doForce : Bool)
    (hZ : (s.shards q).pauliBasis = Pauli.Z)
    (hB : (s.shards q).queuedPhase = false) :
    forceM P s q res doForce true =
      forceMApply P (forceMDraw s q res doForce true).1 q
        ((forceMDraw s q res doForce true).2) := by
  unfold forceM
  dsimp only
  rw [if_pos rfl, revertBasis1Qb_of_basisZ s q hZ,
    revertBasis2Qb_of_empty s q _ _ _ _ _ hB, if_neg (by simp)]

/-- A forced, applied measurement out of an engine of three or more qubits
marks every sibling shard of that engine dirty. -/
theorem forceM_sibling_dirty (P : Params) (s : QUnitState) (q e i : ℕ)
    (res : Bool)
    (hZ : (s.shards q).pauliBasis = Pauli.Z)
    (hB : (s.shards q).queuedPhase = false)
    (hu : (s.shards q).unit = some e)
    (he : e < s.engines.length)
    (hn : 3 ≤ (s.eng e).n)
    (hiq : i ≠ q) (hi : (s.shards i).unit = some e) :
    (((forceM P s q res true true).2).shards i).isProbDirty = true ∧
    (((forceM P s q res true true).2).shards i).isPhaseDirty = true := by
  rw [forceM_forced_apply P s q res hZ hB]
  refine forceMApply_sibling_dirty P res q e i _ ?_ ?_ ?_ hiq ?_
  · rw [forceMDraw_shards]
    exact hu
  · rw [forceMDraw_engines_length]
    exact he
  · rw [forceMDraw_eng_forced s q e res hu he]
    simpa using hn
  · rw [forceMDraw_shards]
    exact hi

/-- The cached one-hot draw: reading a detached eigenstate shard returns
its cached value. -/
theorem forceMDraw_cached (s : QUnitState) (q : ℕ) (res b : Bool)
    (hu : ((s.shards q).unit) = none)
    (hamp : if b = true then cnorm ((s.shards q).amp1) = 1
      else (s.shards q).amp1 = 0) :
    (forceMDraw s q res false true).1 = b := by
  unfold forceMDraw
  simp only [hu]
  cases b
  · simp only [Bool.false_eq_true, if_false] at hamp
    rw [if_neg (by simp), if_neg (by simp [hamp, cnorm]),
      if_pos (by simp [hamp, cnorm])]
  · simp only [eq_self_iff_true, if_true] at hamp
    rw [if_neg (by simp), if_pos (by simp [hamp])]

/-- C1 (amended): a forced, applied measurement `forceM(q, res, true, true)`
on a Z-basis shard with empty buffers returns `res`; afterwards the shard
of `q` is detached (`unit` null, `mapped` 0) with both dirty flags cleared,
basis Z, empty buffers, and one-hot amplitudes for `res` up to a unit
nonunitary phase; `prob(q)` then returns exactly 1 or 0 and a subsequent
`M(q)` returns `res` again; every sibling shard of a former engine of three
or more qubits is marked dirty — but *not* when the former engine held
exactly two qubits (see the counterexample): then the lone sibling is
detached with cleared flags by `SeparateBit`'s `ProbBase` re-entry. -/
theorem C1_forceM (P : Params) (s : QUnitState) (q : ℕ) (res : Bool)
    (h : unitPhases s)
    (hZ : (s.shards q).pauliBasis = Pauli.Z)
    (hB : (s.shards q).buffersEmpty) :
    (forceM P s q res true true).1 = res ∧
    (((forceM P s q res true true).2).shards q).unit = none ∧
    (((forceM P s q res true true).2).shards q).mapped = 0 ∧
    (((forceM P s q res true true).2).shards q).isProbDirty = false ∧
    (((forceM P s q res true true).2).shards q).isPhaseDirty = false ∧
    (((forceM P s q res true true).2).shards q).pauliBasis = Pauli.Z ∧
    (((forceM P s q res true true).2).shards q).buffersEmpty ∧
    (if res = true then
      (((forceM P s q res true true).2).shards q).amp0 = 0 ∧
        cnorm ((((forceM P s q res true true).2).shards q).amp1) = 1
     else
      (((forceM P s q res true true).2).shards q).amp1 = 0 ∧
        cnorm ((((forceM P s q res true true).2).shards q).amp0) = 1) ∧
    (prob P ((forceM P s q res true true).2) q).1 =
      (if res = true then 1 else 0) ∧
    (mGate P ((forceM P s q res true true).2) q).1 = res ∧
    (∀ e i, (s.shards q).unit = some e → e < s.engines.length →
      3 ≤ (s.eng e).n → i ≠ q → (s.shards i).unit = some e →
      (((forceM P s q res true true).2).shards i).isProbDirty = true ∧
      (((forceM P s q res true true).2).shards i).isPhaseDirty = true) := by
  have hBq : (s.shards q).queuedPhase = false :=
    queuedPhase_eq_false_of_empty _ hB
  have hfact := forceM_forced_apply P s q res hZ hBq
  have hs1 : unitPhases ((forceMDraw s q res true true).2) := by
    intro k
    rw [forceMDraw_phases]
    exact h k
  have hbe1 : (((forceMDraw s q res true true).2).shards q).buffersEmpty := by
    rw [forceMDraw_shards]
    exact hB
  obtain ⟨hqu, hqm, hqpd, hqhd, hqb, hqbe, hqamp⟩ :=
    forceMApply_shard_q4 P res q ((forceMDraw s q res true true).2) hs1 hbe1
  have hRb : (((forceMApply P res q
      ((forceMDraw s q res true true).2)).2).shards q).pauliBasis =
      Pauli.Z := by
    rw [hqb, forceMDraw_shards]
    exact hZ
  have hRqp : (((forceMApply P res q
      ((forceMDraw s q res true true).2)).2).shards q).queuedPhase = false :=
    queuedPhase_eq_false_of_empty _ hqbe
  have hRrev : toPermBasisProb ((forceMApply P res q
      ((forceMDraw s q res true true).2)).2) q =
      (forceMApply P res q ((forceMDraw s q res true true).2)).2 := by
    unfold toPermBasisProb
    rw [revertBasis1Qb_of_basisZ _ _ hRb,
      revertBasis2Qb_of_empty _ _ _ _ _ _ _ hRqp]
  have hprob : (prob P ((forceMApply P res q
      ((forceMDraw s q res true true).2)).2) q).1 =
      (if res = true then (1 : ℝ) else 0) := by
    unfold prob
    rw [hRrev]
    unfold probBase
    dsimp only
    rw [if_neg (by simp [hqu]), if_pos (by simp [hqpd])]
    cases res
    · simp only [Bool.false_eq_true, if_false] at hqamp ⊢
      rw [hqamp.1]
      simp [clampProb, cnorm]
    · simp only [eq_self_iff_true, if_true] at hqamp ⊢
      rw [hqamp.2]
      norm_num [clampProb]
  have hmg : (mGate P ((forceMApply P res q
      ((forceMDraw s q res true true).2)).2) q).1 = res := by
    unfold mGate
    rw [forceM_apply_factor _ _ _ _ _ hRb hRqp, forceMApply_result]
    refine forceMDraw_cached _ _ _ _ hqu ?_
    cases res
    · simp only [Bool.false_eq_true, if_false] at hqamp ⊢
      exact hqamp.1
    · simp only [eq_self_iff_true, if_true] at hqamp ⊢
      exact hqamp.2
  rw [hfact]
  refine ⟨forceMApply_result P res q _, hqu, hqm, hqpd, hqhd, hRb, hqbe,
    hqamp, hprob, hmg, ?_⟩
  intro e i hue hle hn3 hiq hie
  refine forceMApply_sibling_dirty P res q e i _ ?_ ?_ ?_ hiq ?_
  · rw [forceMDraw_shards]
    exact hue
  · rw [forceMDraw_engines_length]
    exact hle
  · rw [forceMDraw_eng_forced s q e res hue hle]
    simpa using hn3
  · rw [forceMDraw_shards]
    exact hie

/-- C1 (counterexample): at a concrete two-qubit register whose two shards
share one two-qubit engine in state `|00⟩`, `forceM(0, false, true, true)`
leaves the sibling shard 1 *detached with cleared dirty flags* — the
claim's "all sibling shards that shared the former engine are marked
dirty" is false when the former engine held exactly two qubits: the lone
sibling is separated out through `ProbBase`, which clears both flags. -/
theorem C1_counterexample :
    (((forceM P0 cex7 0 false true true).2).shards 1).isProbDirty = false ∧
    (((forceM P0 cex7 0 false true true).2).shards 1).unit = none :=
  have h := forceM_sibling_2qb P0 cex7 0 0 1 false
    (by simp [cex7, attachedShard])
    (by simp [cex7, attachedShard, QEngineShard.queuedPhase])
    (by simp [cex7, attachedShard])
    (by simp [cex7])
    (by simp [cex7, QUnitState.eng])
    (by norm_num)
    (by norm_num [cex7])
    (by simp [cex7, attachedShard])
    (fun k hk hkq => absurd hk (by omega))
  ⟨h.2.1, h.1⟩

/-- C1 witness: the amended theorem at a concrete reset register. -/
theorem C1_forceM_witness :
    unitPhases resetState2 ∧ (resetState2.shards 0).pauliBasis = Pauli.Z ∧
      (resetState2.shards 0).buffersEmpty ∧
      (forceM P0 resetState2 0 false true true).1 = false :=
  ⟨fun k => by simp [resetState2, cnorm],
    by simp [resetState2],
    ⟨by simp [resetState2], by simp [resetState2], by simp [resetState2],
      by simp [resetState2]⟩,
    (C1_forceM P0 resetState2 0 false (fun k => by simp [resetState2, cnorm])
      (by simp [resetState2])
      ⟨by simp [resetState2], by simp [resetState2], by simp [resetState2],
        by simp [resetState2]⟩).1⟩

/-! ## Claim C3 — parity arithmetic

Proof-side abbreviations for the independent-qubit probability model: the
probability of permutation `x` over `n` detached qubits with per-qubit
one-probabilities `p`, the odd-parity mass of a mask, and the
`parityCombine` fold the source computes. -/

/-- Product of per-qubit probabilities selected by the bits of `x`. -/
noncomputable def qubitP (p : ℕ → ℝ) (n x : ℕ) : ℝ :=
  ∏ i ∈ Finset.range n, (if x.testBit i then p i else 1 - p i)

/-- Total probability of the permutations with odd parity on `mask`. -/
noncomputable def paritySum (p : ℕ → ℝ) (n mask : ℕ) : ℝ :=
  ∑ x ∈ Finset.range (2 ^ n),
    if natOddParity (x &&& mask) then qubitP p n x else 0

/-- The source's per-bit `parityCombine` fold over the mask's positions. -/
noncomputable def parityFold (p : ℕ → ℝ) (mask : ℕ) : ℝ :=
  (maskIndices mask).foldl (fun a i => parityCombine a (p i)) 0

theorem parityCombine_zero_left (b : ℝ) : parityCombine 0 b = b := by
  unfold parityCombine
  ring

/-- Pulling the seed of a `parityCombine` fold out front. -/
theorem foldl_parityCombine_init (p : ℕ → ℝ) :
    ∀ (l : List ℕ) (x : ℝ),
      l.foldl (fun a i => parityCombine a (p i)) x =
        parityCombine x (l.foldl (fun a i => parityCombine a (p i)) 0) := by
  intro l
  induction l with
  | nil =>
      intro x
      unfold parityCombine
      simp only [List.foldl_nil]
      ring
  | cons i t ih =>
      intro x
      simp only [List.foldl_cons]
      rw [ih (parityCombine x (p i)), ih (parityCombine 0 (p i))]
      unfold parityCombine
      ring

theorem natOddParity_zero : natOddParity 0 = false := by
  rw [natOddParity]
  simp

theorem natOddParity_two_mul (z : ℕ) : natOddParity (2 * z) = natOddParity z := by
  rcases Nat.eq_zero_or_pos z with hz | hz
  · subst hz
    rfl
  · rw [natOddParity, dif_neg (by omega)]
    rw [show 2 * z % 2 = 0 by omega]
    rw [show (2 * z) / 2 = z by omega]
    simp

theorem natOddParity_two_mul_add_one (z : ℕ) :
    natOddParity (2 * z + 1) = !(natOddParity z) := by
  rw [natOddParity, dif_neg (by omega)]
  rw [show (2 * z + 1) % 2 = 1 by omega]
  rw [show (2 * z + 1) / 2 = z by omega]
  simp

theorem testBit_two_mul_zero (y : ℕ) : (2 * y).testBit 0 = false := by
  simp [Nat.testBit_zero, Nat.mul_mod_right]

theorem testBit_two_mul_add_one_zero (y : ℕ) : (2 * y + 1).testBit 0 = true := by
  simp only [Nat.testBit_zero]
  rw [show (2 * y + 1) % 2 = 1 by omega]
  rfl

theorem testBit_two_mul_succ (y i : ℕ) : (2 * y).testBit (i + 1) = y.testBit i := by
  rw [Nat.testBit_succ]
  congr 1
  omega

theorem testBit_two_mul_add_one_succ (y i : ℕ) :
    (2 * y + 1).testBit (i + 1) = y.testBit i := by
  rw [Nat.testBit_succ]
  congr 1
  omega

/-- Bitwise-and against an even first argument drops the low bit. -/
theorem land_two_mul (y m : ℕ) : (2 * y) &&& m = 2 * (y &&& (m / 2)) := by
  apply Nat.eq_of_testBit_eq
  intro i
  cases i with
  | zero =>
      rw [Nat.testBit_land, testBit_two_mul_zero, testBit_two_mul_zero]
      rfl
  | succ j =>
      rw [Nat.testBit_land, testBit_two_mul_succ, testBit_two_mul_succ,
        Nat.testBit_land, Nat.testBit_succ]

theorem land_two_mul_add_one (y m : ℕ) :
    (2 * y + 1) &&& m =
      2 * (y &&& (m / 2)) + (if m.testBit 0 then 1 else 0) := by
  apply Nat.eq_of_testBit_eq
  intro i
  cases i with
  | zero =>
      rw [Nat.testBit_land, testBit_two_mul_add_one_zero]
      cases hm : m.testBit 0
      · rw [if_neg (by simp)]
        simp [Nat.add_zero, testBit_two_mul_zero]
      · rw [if_pos rfl]
        simp [testBit_two_mul_add_one_zero]
        omega
  | succ j =>
      rw [Nat.testBit_land, testBit_two_mul_add_one_succ]
      cases hm : m.testBit 0
      · rw [if_neg (by simp)]
        simp only [Nat.add_zero]
        rw [testBit_two_mul_succ, Nat.testBit_land, Nat.testBit_succ]
      · rw [if_pos rfl, testBit_two_mul_add_one_succ, Nat.testBit_land,
          Nat.testBit_succ]

theorem natOddParity_land_two_mul (y m : ℕ) :
    natOddParity ((2 * y) &&& m) = natOddParity (y &&& (m / 2)) := by
  rw [land_two_mul, natOddParity_two_mul]

theorem natOddParity_land_two_mul_add_one (y m : ℕ) :
    natOddParity ((2 * y + 1) &&& m) =
      xor (m.testBit 0) (natOddParity (y &&& (m / 2))) := by
  rw [land_two_mul_add_one]
  cases hm : m.testBit 0
  · rw [if_neg (by simp), Nat.add_zero, natOddParity_two_mul]
    simp
  · rw [if_pos rfl, natOddParity_two_mul_add_one]
    simp

/-- Split a sum over an even range into even/odd pairs. -/
theorem sum_range_double (f : ℕ → ℝ) (m : ℕ) :
    ∑ x ∈ Finset.range (2 * m), f x =
      ∑ y ∈ Finset.range m, (f (2 * y) + f (2 * y + 1)) := by
  induction m with
  | zero => simp
  | succ k ih =>
      rw [show 2 * (k + 1) = (2 * k) + 1 + 1 by ring, Finset.sum_range_succ,
        Finset.sum_range_succ, ih, Finset.sum_range_succ, add_assoc]

theorem qubitP_two_mul (p : ℕ → ℝ) (n y : ℕ) :
    qubitP p (n + 1) (2 * y) = (1 - p 0) * qubitP (fun i => p (i + 1)) n y := by
  unfold qubitP
  rw [Finset.prod_range_succ']
  rw [testBit_two_mul_zero]
  simp only [Bool.false_eq_true, if_false]
  rw [mul_comm]
  congr 1
  apply Finset.prod_congr rfl
  intro i _
  rw [testBit_two_mul_succ]

theorem qubitP_two_mul_add_one (p : ℕ → ℝ) (n y : ℕ) :
    qubitP p (n + 1) (2 * y + 1) = p 0 * qubitP (fun i => p (i + 1)) n y := by
  unfold qubitP
  rw [Finset.prod_range_succ']
  rw [testBit_two_mul_add_one_zero]
  simp only [if_pos rfl]
  rw [mul_comm]
  congr 1
  apply Finset.prod_congr rfl
  intro i _
  rw [testBit_two_mul_add_one_succ]

/-- The per-qubit probabilities of all `2^n` permutations sum to one. -/
theorem qubitP_total (n : ℕ) : ∀ p : ℕ → ℝ,
    ∑ x ∈ Finset.range (2 ^ n), qubitP p n x = 1 := by
  induction n with
  | zero =>
      intro p
      rw [pow_zero, Finset.sum_range_one]
      unfold qubitP
      simp
  | succ k ih =>
      intro p
      rw [pow_succ, mul_comm, sum_range_double]
      have hterm : ∀ y, qubitP p (k + 1) (2 * y) + qubitP p (k + 1) (2 * y + 1)
          = qubitP (fun i => p (i + 1)) k y := by
        intro y
        rw [qubitP_two_mul, qubitP_two_mul_add_one]
        ring
      rw [Finset.sum_congr rfl (fun y _ => hterm y)]
      exact ih (fun i => p (i + 1))

/-- The lowest set bit of a nonzero number is nonzero. -/
theorem lowbit_ne_zero (m : ℕ) (hm : m ≠ 0) :
    ((m ^^^ (m &&& (m - 1))) &&& m) ≠ 0 := by
  have hle : m &&& (m - 1) ≤ m - 1 := Nat.and_le_right
  have hne : m &&& (m - 1) ≠ m := by omega
  have hex : ∃ i, (m &&& (m - 1)).testBit i ≠ m.testBit i := by
    by_contra hc
    push_neg at hc
    exact hne (Nat.eq_of_testBit_eq hc)
  obtain ⟨i, hi⟩ := hex
  intro h0
  have hbit := congrArg (fun x => x.testBit i) h0
  simp only [Nat.testBit_land, Nat.testBit_xor, Nat.zero_testBit] at hbit
  cases hmb : m.testBit i
  · have hz : (m &&& (m - 1)).testBit i = false := by
      rw [Nat.testBit_land]
      simp [hmb]
    rw [hz, hmb] at hi
    exact hi rfl
  · rw [Nat.testBit_land, hmb] at hi
    rw [hmb] at hbit
    simp at hbit hi
    rw [hbit] at hi
    exact absurd hi (by simp)

theorem land_pred_two_mul (m : ℕ) :
    (2 * m) &&& (2 * m - 1) = 2 * (m &&& (m - 1)) := by
  rcases Nat.eq_zero_or_pos m with hm | hm
  · subst hm
    rfl
  · apply Nat.eq_of_testBit_eq
    intro i
    cases i with
    | zero =>
        rw [Nat.testBit_land, testBit_two_mul_zero, testBit_two_mul_zero]
        rfl
    | succ j =>
        rw [Nat.testBit_land, testBit_two_mul_succ, testBit_two_mul_succ,
          Nat.testBit_land]
        congr 1
        rw [Nat.testBit_succ]
        congr 1
        omega

theorem xor_land_two_mul (m k : ℕ) :
    ((2 * m) ^^^ (2 * k)) &&& (2 * m) = 2 * ((m ^^^ k) &&& m) := by
  apply Nat.eq_of_testBit_eq
  intro i
  cases i with
  | zero =>
      rw [Nat.testBit_land, Nat.testBit_xor, testBit_two_mul_zero,
        testBit_two_mul_zero, testBit_two_mul_zero]
      rfl
  | succ j =>
      rw [Nat.testBit_land, Nat.testBit_xor, testBit_two_mul_succ,
        testBit_two_mul_succ, testBit_two_mul_succ, Nat.testBit_land,
        Nat.testBit_xor]

/-- Doubling a mask shifts its bit positions up by one. -/
theorem maskIndices_two_mul (m : ℕ) :
    maskIndices (2 * m) = (maskIndices m).map (fun i => i + 1) := by
  induction m using Nat.strong_induction_on with
  | _ m ih =>
      rcases Nat.eq_zero_or_pos m with hm | hm
      · subst hm
        rw [show 2 * 0 = 0 by ring]
        simp [maskIndices]
      · rw [maskIndices, dif_neg (show ¬2 * m = 0 by omega)]
        conv_rhs => rw [maskIndices]
        rw [dif_neg (show ¬m = 0 by omega)]
        dsimp only
        rw [List.map_cons]
        congr 1
        · rw [land_pred_two_mul, xor_land_two_mul]
          have hlow := lowbit_ne_zero m (by omega)
          rw [Nat.log2, if_pos (by omega)]
          rw [show 2 * ((m ^^^ (m &&& (m - 1))) &&& m) / 2 =
            ((m ^^^ (m &&& (m - 1))) &&& m) by omega]
        · rw [land_pred_two_mul]
          exact ih (m &&& (m - 1)) (by
            have := Nat.and_le_right (n := m) (m := m - 1)
            omega)

/-- An odd mask contributes bit position 0 and shifts the rest. -/
theorem maskIndices_two_mul_add_one (m : ℕ) :
    maskIndices (2 * m + 1) = 0 :: (maskIndices m).map (fun i => i + 1) := by
  rw [maskIndices, dif_neg (by omega)]
  dsimp only
  have h1 : (2 * m + 1) &&& (2 * m + 1 - 1) = 2 * m := by
    rw [show 2 * m + 1 - 1 = 2 * m by omega]
    apply Nat.eq_of_testBit_eq
    intro i
    cases i with
    | zero =>
        rw [Nat.testBit_land, testBit_two_mul_add_one_zero, testBit_two_mul_zero]
        rfl
    | succ j =>
        rw [Nat.testBit_land, testBit_two_mul_add_one_succ, testBit_two_mul_succ]
        simp
  rw [h1]
  congr 1
  · have h2 : ((2 * m + 1) ^^^ (2 * m)) &&& (2 * m + 1) = 1 := by
      apply Nat.eq_of_testBit_eq
      intro i
      cases i with
      | zero =>
          rw [Nat.testBit_land, Nat.testBit_xor, testBit_two_mul_add_one_zero,
            testBit_two_mul_zero]
          rfl
      | succ j =>
          rw [Nat.testBit_land, Nat.testBit_xor, testBit_two_mul_add_one_succ,
            testBit_two_mul_succ, Nat.testBit_succ,
            show (1 : ℕ) / 2 = 0 by omega, Nat.zero_testBit]
          simp
    rw [h2]
    rw [Nat.log2, if_neg (by omega)]
  · exact maskIndices_two_mul m

/-- The heart of C3: over independent qubits, the odd-parity mass of a mask
equals the source's `parityCombine` fold over the mask's bit positions. -/
theorem paritySum_eq_parityFold (n : ℕ) : ∀ (p : ℕ → ℝ) (mask : ℕ),
    mask < 2 ^ n → paritySum p n mask = parityFold p mask := by
  induction n with
  | zero =>
      intro p mask hm
      have : mask = 0 := by
        rw [pow_zero] at hm
        omega
      subst this
      unfold paritySum parityFold
      rw [pow_zero, Finset.sum_range_one]
      rw [show (0 &&& 0) = 0 from rfl, natOddParity_zero]
      simp [maskIndices]
  | succ k ih =>
      intro p mask hm
      rcases Nat.even_or_odd mask with he | ho
      · obtain ⟨m1, hm1⟩ := he
        have hmask : mask = 2 * m1 := by omega
        subst hmask
        clear hm1
        unfold paritySum
        rw [pow_succ, mul_comm, sum_range_double]
        have hterm : ∀ y,
            ((if natOddParity ((2 * y) &&& (2 * m1)) then
                qubitP p (k + 1) (2 * y) else 0) +
              (if natOddParity ((2 * y + 1) &&& (2 * m1)) then
                qubitP p (k + 1) (2 * y + 1) else 0)) =
            (if natOddParity (y &&& m1) then
              qubitP (fun i => p (i + 1)) k y else 0) := by
          intro y
          rw [natOddParity_land_two_mul, natOddParity_land_two_mul_add_one,
            testBit_two_mul_zero]
          rw [show (2 * m1) / 2 = m1 by omega]
          rw [qubitP_two_mul, qubitP_two_mul_add_one]
          simp only [Bool.false_xor]
          split <;> ring
        rw [Finset.sum_congr rfl (fun y _ => hterm y)]
        have hm1lt : m1 < 2 ^ k := by
          rw [pow_succ] at hm
          omega
        have := ih (fun i => p (i + 1)) m1 hm1lt
        unfold paritySum at this
        rw [this]
        unfold parityFold
        rw [maskIndices_two_mul, List.foldl_map]
      · obtain ⟨m1, hm1⟩ := ho
        subst hm1
        unfold paritySum
        rw [pow_succ, mul_comm, sum_range_double]
        have hterm : ∀ y,
            ((if natOddParity ((2 * y) &&& (2 * m1 + 1)) then
                qubitP p (k + 1) (2 * y) else 0) +
              (if natOddParity ((2 * y + 1) &&& (2 * m1 + 1)) then
                qubitP p (k + 1) (2 * y + 1) else 0)) =
            ((if natOddParity (y &&& m1) then
                (1 - p 0) * qubitP (fun i => p (i + 1)) k y else 0) +
              (if natOddParity (y &&& m1) then 0 else
                p 0 * qubitP (fun i => p (i + 1)) k y)) := by
          intro y
          rw [natOddParity_land_two_mul, natOddParity_land_two_mul_add_one,
            testBit_two_mul_add_one_zero]
          rw [show (2 * m1 + 1) / 2 = m1 by omega]
          rw [qubitP_two_mul, qubitP_two_mul_add_one]
          cases hop : natOddParity (y &&& m1) <;> simp [hop]
        rw [Finset.sum_congr rfl (fun y _ => hterm y)]
        rw [Finset.sum_add_distrib]
        have hm1lt : m1 < 2 ^ k := by
          rw [pow_succ] at hm
          omega
        have hS := ih (fun i => p (i + 1)) m1 hm1lt
        unfold paritySum at hS
        have hsplit : ∀ y,
            (if natOddParity (y &&& m1) then (0 : ℝ) else
              p 0 * qubitP (fun i => p (i + 1)) k y) =
            p 0 * qubitP (fun i => p (i + 1)) k y -
              p 0 * (if natOddParity (y &&& m1) then
                qubitP (fun i => p (i + 1)) k y else 0) := by
          intro y
          split <;> ring
        rw [Finset.sum_congr rfl (fun y _ => hsplit y), Finset.sum_sub_distrib]
        rw [← Finset.mul_sum, ← Finset.mul_sum]
        have hmulS : ∀ c : ℝ, ∑ y ∈ Finset.range (2 ^ k),
            (if natOddParity (y &&& m1) then
              c * qubitP (fun i => p (i + 1)) k y else 0) =
            c * ∑ y ∈ Finset.range (2 ^ k),
              (if natOddParity (y &&& m1) then
                qubitP (fun i => p (i + 1)) k y else 0) := by
          intro c
          rw [Finset.mul_sum]
          apply Finset.sum_congr rfl
          intro y _
          split <;> ring
        rw [hmulS, hS, qubitP_total k (fun i => p (i + 1))]
        unfold parityFold
        rw [maskIndices_two_mul_add_one, List.foldl_cons, List.foldl_map,
          parityCombine_zero_left]
        rw [foldl_parityCombine_init (fun i => p (i + 1)) (maskIndices m1) (p 0)]
        unfold parityFold at hS
        rw [← hS]
        unfold parityCombine
        ring

/-- Probabilities already in `[0,1]` pass through the clamp unchanged. -/
theorem clampProb_of_mem (x : ℝ) (h0 : 0 ≤ x) (h1 : x ≤ 1) :
    clampProb x = x := by
  unfold clampProb
  rw [min_eq_right h1, max_eq_right h0]

theorem land_succ_self (m : ℕ) : (2 * m + 1) &&& (2 * m) = 2 * m := by
  apply Nat.eq_of_testBit_eq
  intro i
  cases i with
  | zero =>
      rw [Nat.testBit_land, testBit_two_mul_add_one_zero, testBit_two_mul_zero]
      rfl
  | succ j =>
      rw [Nat.testBit_land, testBit_two_mul_add_one_succ, testBit_two_mul_succ]
      simp

/-- A number whose `and` with its predecessor vanishes is the power of two
given by its base-2 logarithm. -/
theorem eq_pow_log2_of_land_pred_zero (m : ℕ) : m ≠ 0 →
    m &&& (m - 1) = 0 → m = 2 ^ (Nat.log2 m) := by
  induction m using Nat.strong_induction_on with
  | _ m ih =>
      intro hm h
      rcases Nat.even_or_odd m with hpar | hpar
      · obtain ⟨m1, hm1⟩ := hpar
        have hmm : m = 2 * m1 := by omega
        subst hmm
        clear hm1
        have hm1z : m1 ≠ 0 := by omega
        have h2 : m1 &&& (m1 - 1) = 0 := by
          rw [land_pred_two_mul] at h
          omega
        have hrec := ih m1 (by omega) hm1z h2
        rw [Nat.log2, if_pos (by omega)]
        rw [show 2 * m1 / 2 = m1 by omega, pow_succ, ← hrec]
        ring
      · obtain ⟨m1, hm1⟩ := hpar
        subst hm1
        rw [show 2 * m1 + 1 - 1 = 2 * m1 by omega, land_succ_self] at h
        have hz : m1 = 0 := by omega
        subst hz
        rw [Nat.log2, if_neg (by omega)]
        norm_num

theorem log2_two_pow (t : ℕ) : Nat.log2 (2 ^ t) = t := by
  induction t with
  | zero => rw [pow_zero, Nat.log2, if_neg (by omega)]
  | succ k ih =>
      have h2 : (2 : ℕ) ^ (k + 1) ≥ 2 := by
        calc (2 : ℕ) = 2 ^ 1 := by norm_num
        _ ≤ 2 ^ (k + 1) := Nat.pow_le_pow_right (by norm_num) (by omega)
      rw [Nat.log2, if_pos h2, pow_succ, show 2 ^ k * 2 / 2 = 2 ^ k by omega,
        ih]

theorem maskIndices_pow (t : ℕ) : maskIndices (2 ^ t) = [t] := by
  induction t with
  | zero =>
      rw [pow_zero, show (1 : ℕ) = 2 * 0 + 1 by omega,
        maskIndices_two_mul_add_one]
      simp [maskIndices]
  | succ k ih =>
      rw [pow_succ, mul_comm, maskIndices_two_mul, ih]
      rfl

/-- On a register of detached shards, the amplitude-collection fold of
`GetAmplitudeOrProb` is the plain product of the selected cached
amplitudes. -/
theorem ampAccPure (s : QUnitState) (x : ℕ)
    (hdet : ∀ i, (s.shards i).unit = none) :
    ∀ (l : List ℕ) (a : ℂ) (rs : List (ℕ × ℕ)),
      l.foldl
        (fun (a : ℂ × List (ℕ × ℕ)) i =>
          match (s.shards i).unit with
          | none =>
              (a.1 * (if x.testBit i then (s.shards i).amp1
                else (s.shards i).amp0), a.2)
          | some e =>
              (a.1, assocOr a.2 e
                (if x.testBit i then 2 ^ (s.shards i).mapped else 0)))
        (a, rs) =
      (a * ((l.map (fun i => if x.testBit i then (s.shards i).amp1
        else (s.shards i).amp0)).prod), rs) := by
  intro l
  induction l with
  | nil =>
      intro a rs
      simp
  | cons i t ih =>
      intro a rs
      simp only [List.foldl_cons, hdet i, List.map_cons, List.prod_cons]
      rw [ih, mul_assoc]

/-- `ProbAll` on a register of detached, clean, normalized Z-basis shards
is the independent product of the cached per-qubit probabilities. -/
theorem probAll_fragment (P : Params) (s : QUnitState)
    (hdet : ∀ i, (s.shards i).unit = none)
    (hZ : ∀ i, (s.shards i).pauliBasis = Pauli.Z)
    (hbe : ∀ i, (s.shards i).buffersEmpty)
    (hnorm : ∀ i, cnorm ((s.shards i).amp0) + cnorm ((s.shards i).amp1) = 1)
    (x : ℕ) :
    (probAll P s x).1 =
      qubitP (fun i => cnorm ((s.shards i).amp1)) s.n x := by
  have htp : toPermBasisProbAll s = s := by
    unfold toPermBasisProbAll
    apply foldl_fixed
    intro i _
    unfold toPermBasisProb
    rw [revertBasis1Qb_of_basisZ _ _ (hZ i),
      revertBasis2Qb_of_empty _ _ _ _ _ _ _
        (queuedPhase_eq_false_of_empty _ (hbe i))]
  unfold probAll getAmplitudeOrProb
  dsimp only
  rw [if_pos rfl, htp, ampAccPure s x hdet]
  dsimp only
  simp only [engineAmpFold]
  rw [if_neg (by simp [shardQubitCount, hdet 0])]
  dsimp only
  rw [one_mul]
  have hprod : cnorm ((List.range s.n).map
      (fun i => if x.testBit i then (s.shards i).amp1
        else (s.shards i).amp0)).prod =
      qubitP (fun i => cnorm ((s.shards i).amp1)) s.n x := by
    unfold cnorm
    rw [map_list_prod Complex.normSq, List.map_map]
    show (∏ i ∈ Finset.range s.n, Complex.normSq
      (if x.testBit i then (s.shards i).amp1 else (s.shards i).amp0)) = _
    unfold qubitP
    apply Finset.prod_congr rfl
    intro i _
    rw [apply_ite Complex.normSq]
    cases hbit : x.testBit i
    · simp only [Bool.false_eq_true, if_false]
      show cnorm ((s.shards i).amp0) = 1 - cnorm ((s.shards i).amp1)
      have := hnorm i
      linarith
    · simp only [if_pos rfl]
      rfl
  rw [hprod]
  apply clampProb_of_mem
  · unfold qubitP
    apply Finset.prod_nonneg
    intro i _
    have h0 : (0:ℝ) ≤ cnorm ((s.shards i).amp0) := Complex.normSq_nonneg _
    have h1 : (0:ℝ) ≤ cnorm ((s.shards i).amp1) := Complex.normSq_nonneg _
    have := hnorm i
    split <;> [exact h1; linarith]
  · unfold qubitP
    apply Finset.prod_le_one
    · intro i _
      have h0 : (0:ℝ) ≤ cnorm ((s.shards i).amp0) := Complex.normSq_nonneg _
      have h1 : (0:ℝ) ≤ cnorm ((s.shards i).amp1) := Complex.normSq_nonneg _
      have := hnorm i
      split <;> [exact h1; linarith]
    · intro i _
      have h0 : (0:ℝ) ≤ cnorm ((s.shards i).amp0) := Complex.normSq_nonneg _
      have h1 : (0:ℝ) ≤ cnorm ((s.shards i).amp1) := Complex.normSq_nonneg _
      have := hnorm i
      split <;> linarith

/-- A parity-accumulating fold whose step fixes the state and the engine
table reduces to the plain `parityCombine` fold. -/
theorem foldl_parity_general
    (f : ℝ × QUnitState × List (ℕ × ℕ) → ℕ → ℝ × QUnitState × List (ℕ × ℕ))
    (s : QUnitState) (p : ℕ → ℝ)
    (hf : ∀ (a : ℝ) (rs : List (ℕ × ℕ)) (qi : ℕ),
      f (a, s, rs) qi = (parityCombine a (p qi), s, rs)) :
    ∀ (l : List ℕ) (a : ℝ) (rs : List (ℕ × ℕ)),
      l.foldl f (a, s, rs) =
        (l.foldl (fun b i => parityCombine b (p i)) a, s, rs) := by
  intro l
  induction l with
  | nil =>
      intro a rs
      rfl
  | cons i t ih =>
      intro a rs
      rw [List.foldl_cons, hf, List.foldl_cons, ih]

/-- `ProbParity` on a register of detached, clean, normalized Z-basis
shards computes the `parityCombine` fold of the cached probabilities over
the mask's bit positions. -/
theorem probParity_fragment (P : Params) (s : QUnitState) (mask : ℕ)
    (hdet : ∀ i, (s.shards i).unit = none)
    (hZ : ∀ i, (s.shards i).pauliBasis = Pauli.Z)
    (hcl : ∀ i, (s.shards i).isProbDirty = false)
    (hbe : ∀ i, (s.shards i).buffersEmpty)
    (hnorm : ∀ i, cnorm ((s.shards i).amp0) + cnorm ((s.shards i).amp1) = 1)
    (hm : mask ≠ 0) :
    (probParity P s mask).1 =
      parityFold (fun i => cnorm ((s.shards i).amp1)) mask := by
  unfold probParity
  rw [if_neg hm]
  by_cases hsb : mask &&& (mask - 1) = 0
  · rw [if_pos hsb]
    have hpow := eq_pow_log2_of_land_pred_zero mask hm hsb
    unfold prob toPermBasisProb
    rw [revertBasis1Qb_of_basisZ _ _ (hZ _),
      revertBasis2Qb_of_empty _ _ _ _ _ _ _
        (queuedPhase_eq_false_of_empty _ (hbe _))]
    unfold probBase
    dsimp only
    rw [if_neg (by simp [hdet (Nat.log2 mask)]),
      if_pos (by simp [hcl (Nat.log2 mask)])]
    dsimp only
    rw [clampProb_of_mem _ ?hge ?hle]
    case hge => exact Complex.normSq_nonneg _
    case hle =>
      have h0 : (0:ℝ) ≤ cnorm ((s.shards (Nat.log2 mask)).amp0) :=
        Complex.normSq_nonneg _
      have := hnorm (Nat.log2 mask)
      show cnorm ((s.shards (Nat.log2 mask)).amp1) ≤ 1
      linarith
    conv_rhs => rw [hpow]
    unfold parityFold
    rw [maskIndices_pow, List.foldl_cons, List.foldl_nil,
      parityCombine_zero_left]
  · rw [if_neg hsb]
    dsimp only
    rw [foldl_fixed _ s (maskIndices mask) ?hid]
    case hid =>
      intro qi _
      dsimp only
      rw [revertBasis2Qb_of_empty _ _ _ _ _ _ _
        (queuedPhase_eq_false_of_empty _ (hbe qi))]
      rw [if_neg (by simp [hdet qi])]
    rw [foldl_parity_general _ s
      (fun i => cnorm ((s.shards i).amp1)) ?hstep]
    case hstep =>
      intro a rs qi
      simp only [hdet qi]
      rw [if_neg (by simp [hZ qi])]
    rw [if_neg ?hne]
    case hne =>
      rw [maskIndices, dif_neg hm]
      simp
    dsimp only
    rw [List.foldl_nil]
    unfold parityFold
    rfl

/-- C3: `probParity(0)` is exactly 0 on any register, and on a register of
detached, clean, normalized Z-basis shards `probParity(mask)` equals the
sum of `probAll(x)` over the permutations `x` with odd parity on the
masked bits; internally the mask's qubits each contribute a parity
probability combined by the independent-parity update
`p* = p(1-q) + (1-p)q`. -/
theorem C3_probParity (P : Params) (s : QUnitState) (mask : ℕ)
    (hdet : ∀ i, (s.shards i).unit = none)
    (hZ : ∀ i, (s.shards i).pauliBasis = Pauli.Z)
    (hcl : ∀ i, (s.shards i).isProbDirty = false)
    (hbe : ∀ i, (s.shards i).buffersEmpty)
    (hnorm : ∀ i, cnorm ((s.shards i).amp0) + cnorm ((s.shards i).amp1) = 1)
    (hm : mask < 2 ^ s.n) :
    (∀ t : QUnitState, probParity P t 0 = (0, t)) ∧
    (probParity P s mask).1 =
      ∑ x ∈ Finset.range (2 ^ s.n),
        (if natOddParity (x &&& mask) then (probAll P s x).1 else 0) := by
  constructor
  · intro t
    unfold probParity
    rw [if_pos rfl]
  · have hsum : ∑ x ∈ Finset.range (2 ^ s.n),
        (if natOddParity (x &&& mask) then (probAll P s x).1 else 0) =
        paritySum (fun i => cnorm ((s.shards i).amp1)) s.n mask := by
      unfold paritySum
      apply Finset.sum_congr rfl
      intro x _
      by_cases hop : natOddParity (x &&& mask) = true
      · rw [if_pos hop, if_pos hop]
        exact probAll_fragment P s hdet hZ hbe hnorm x
      · rw [if_neg hop, if_neg hop]
    rw [hsum,
      paritySum_eq_parityFold s.n (fun i => cnorm ((s.shards i).amp1)) mask hm]
    rcases Nat.eq_zero_or_pos mask with h0 | hpos
    · subst h0
      unfold probParity
      rw [if_pos rfl]
      unfold parityFold
      rw [maskIndices, dif_pos rfl]
      rfl
    · exact probParity_fragment P s mask hdet hZ hcl hbe hnorm (by omega)

/-- C3 witness: the theorem at a concrete two-qubit reset register and
mask 3. -/
theorem C3_probParity_witness :
    (∀ i, (resetState2.shards i).unit = none) ∧
      (3 < 2 ^ resetState2.n) ∧
      probParity P0 resetState2 0 = (0, resetState2) :=
  ⟨fun i => by simp [resetState2],
    by norm_num [resetState2],
    (C3_probParity P0 resetState2 3 (fun i => by simp [resetState2])
      (fun i => by simp [resetState2]) (fun i => by simp [resetState2])
      (fun i => ⟨by simp [resetState2], by simp [resetState2],
        by simp [resetState2], by simp [resetState2]⟩)
      (fun i => by simp [resetState2, cnorm])
      (by norm_num [resetState2])).1 resetState2⟩

end Qrack
